import Mathlib

/-!
# omg::Graph — a shallow embedding of `include/omg/graph.h`

The header defines one class template, `Graph<VertexType, EdgeType>`, made of two
stores (`vertex_proxy`, `edge_proxy`), each a `std::map<std::size_t, container>`
with its own identity counter, and of records that point at one another.

Embedding choices:

* a pointer to a record is the pair (address of the owning graph, key of the record
  in that graph's map): `std::map` nodes never move, and a key is issued once;
* the program state is a `World`: the graph found at every graph address;
* a `std::map` is its list of entries in strictly ascending key order;
* `std::vector` is `List`; `v.erase(std::find(v.begin(), v.end(), x))` is undefined
  when `x` is absent, which is the `none` of `vector_erase_find`;
* the two `std::size_t` identity counters are `Nat`: a counter moves by one per
  call of `add`, and its wrap-around at `SIZE_MAX` is left out;
* a function whose behaviour can be undefined returns an `Option`, `none` standing
  for undefined behaviour; an operation that throws returns an `Outcome`;
* `operator<<` gives the text written, a `String`; the values are streamed by a
  function `render`, and `std::endl` is a line feed; in its loop the `std::size_t`
  subtraction is taken modulo `2 ^ 64`, and the `unsigned` index bounds the
  neighbor lists it ends on by `2 ^ 32`.
-/

namespace omg

/-- Address of a record: the address of the graph that owns it, and its key. -/
abbrev Ptr := Nat × Nat

/-! ## std::map and std::vector -/

/-- A `std::map<std::size_t, α>`: entries in strictly ascending key order. -/
structure std_map (α : Type) where
  entries : List (Nat × α)
  sorted : entries.Pairwise (fun a b => a.1 < b.1)

namespace std_map

variable {α : Type}

/-- A default-constructed map. -/
def empty : std_map α := ⟨[], List.Pairwise.nil⟩

/-- Search of the entry list for a key. -/
def findEntries (k : Nat) : List (Nat × α) → Option α
  | [] => none
  | e :: m => if e.1 = k then some e.2 else findEntries k m

/-- Lookup, `m.find(k)`: the mapped value, or `none` for `m.end()`. -/
def find (m : std_map α) (k : Nat) : Option α :=
  findEntries k m.entries

/-- Number of entries, `m.size()`. -/
def size (m : std_map α) : Nat := m.entries.length

/-- Ordered insertion into the entry list; an entry whose key is present stays. -/
def insertEntries (k : Nat) (v : α) : List (Nat × α) → List (Nat × α)
  | [] => [(k, v)]
  | e :: m =>
    if k < e.1 then (k, v) :: e :: m
    else if k = e.1 then e :: m
    else e :: insertEntries k v m

/-- Insertion `m.insert(hint, std::make_pair(k, v))`: nothing happens when the key
is present; the hint affects speed only. -/
def insert (m : std_map α) (k : Nat) (v : α) : std_map α :=
  ⟨insertEntries k v m.entries, by
    have key : ∀ l : List (Nat × α), l.Pairwise (fun a b => a.1 < b.1) →
        (insertEntries k v l).Pairwise (fun a b => a.1 < b.1) ∧
        ∀ x ∈ insertEntries k v l, x.1 = k ∨ x ∈ l := by
      intro l
      induction l with
      | nil => intro _; simp [insertEntries]
      | cons e m ih =>
        intro h
        rw [List.pairwise_cons] at h
        obtain ⟨ih1, ih2⟩ := ih h.2
        unfold insertEntries
        split_ifs with h1 h2
        · refine ⟨?_, ?_⟩
          · refine List.Pairwise.cons ?_ (List.Pairwise.cons h.1 h.2)
            intro x hx
            rcases List.mem_cons.1 hx with rfl | hx
            · exact h1
            · exact lt_trans h1 (h.1 x hx)
          · intro x hx
            rcases List.mem_cons.1 hx with rfl | hx
            · exact Or.inl rfl
            · exact Or.inr hx
        · exact ⟨List.Pairwise.cons h.1 h.2, fun x hx => Or.inr hx⟩
        · refine ⟨List.Pairwise.cons ?_ ih1, ?_⟩
          · intro x hx
            rcases ih2 x hx with hk | hm
            · rw [hk]; omega
            · exact h.1 x hm
          · intro x hx
            rcases List.mem_cons.1 hx with rfl | hx
            · exact Or.inr (List.mem_cons_self _ _)
            · rcases ih2 x hx with hk | hm
              · exact Or.inl hk
              · exact Or.inr (List.mem_cons_of_mem _ hm)
    exact (key m.entries m.sorted).1⟩

/-- Removal `m.erase(it)` of the node with key `k`. -/
def erase (m : std_map α) (k : Nat) : std_map α :=
  ⟨m.entries.filter (fun e => e.1 != k), m.sorted.filter _⟩

/-- The key of the node that follows key `k` in iteration order, `none` for
`m.end()`: what `m.erase(it)` returns. -/
def next (m : std_map α) (k : Nat) : Option Nat :=
  (m.entries.find? (fun e => decide (k < e.1))).map (fun e => e.1)

/-- Mutation of the mapped value of the node with key `k`, through a pointer or
an iterator to it. -/
def modify (m : std_map α) (k : Nat) (f : α → α) : std_map α :=
  ⟨m.entries.map (fun e => if e.1 = k then (e.1, f e.2) else e), by
    have h := m.sorted
    rw [List.pairwise_map]
    refine h.imp ?_
    intro a b hab
    by_cases ha : a.1 = k <;> by_cases hb : b.1 = k <;> simp [ha, hb] <;> omega⟩

end std_map

/-- The call `v.erase(std::find(v.begin(), v.end(), x))`: the first occurrence of
`x` goes; erasing `v.end()` (no occurrence) is undefined behaviour. -/
def vector_erase_find {β : Type} [BEq β] [LawfulBEq β] (v : List β) (x : β) : Option (List β) :=
  if x ∈ v then some (v.erase x) else none

/-- What a call does: it returns, it throws `Graph::exception` (the state is the one
at the throw), or its behaviour is undefined (a dangling or null pointer is
dereferenced, `end()` is erased). -/
inductive Outcome (σ α : Type) where
  | ok (state : σ) (value : α)
  | threw (state : σ) (what : String)
  | undefined

/-! ## Records -/

/-- Record of a vertex, `vertex_container<VertexType>`. -/
structure vertex_container (V : Type) where
  _element : V
  _neighbors : List Ptr
  _in_edges : List Ptr
  _out_edges : List Ptr
  _super_vertex : Option Ptr
  _sub_vertices : List Ptr

/-- Record of an edge, `edge_container<EdgeType>`. -/
structure edge_container (E : Type) where
  _element : E
  _from : Option Ptr
  _to : Option Ptr
  _super_edge : List Ptr
  _sub_edges : List Ptr

namespace vertex_container

variable {V : Type}

/-! The private member functions of `vertex_container`, under their own names:
`push_back` appends, `erase(std::find(...))` is `vector_erase_find`. -/

/-- Constructor `vertex_container(VertexType e)`. -/
def init (e : V) : vertex_container V := ⟨e, [], [], [], none, []⟩

def _add_neighbor (c : vertex_container V) (n : Ptr) : vertex_container V :=
  { c with _neighbors := c._neighbors ++ [n] }

def _remove_neighbor (c : vertex_container V) (n : Ptr) : Option (vertex_container V) :=
  (vector_erase_find c._neighbors n).map fun l => { c with _neighbors := l }

def _add_in_edge (c : vertex_container V) (e : Ptr) : vertex_container V :=
  { c with _in_edges := c._in_edges ++ [e] }

def _remove_in_edge (c : vertex_container V) (e : Ptr) : Option (vertex_container V) :=
  (vector_erase_find c._in_edges e).map fun l => { c with _in_edges := l }

def _add_out_edge (c : vertex_container V) (e : Ptr) : vertex_container V :=
  { c with _out_edges := c._out_edges ++ [e] }

def _remove_out_edge (c : vertex_container V) (e : Ptr) : Option (vertex_container V) :=
  (vector_erase_find c._out_edges e).map fun l => { c with _out_edges := l }

def _add_sub_vertex (c : vertex_container V) (v : Ptr) : vertex_container V :=
  { c with _sub_vertices := c._sub_vertices ++ [v] }

def _remove_sub_vertex (c : vertex_container V) (v : Ptr) : Option (vertex_container V) :=
  (vector_erase_find c._sub_vertices v).map fun l => { c with _sub_vertices := l }

def _set_super_vertex (c : vertex_container V) (v : Ptr) : vertex_container V :=
  { c with _super_vertex := some v }

def _unset_super_vertex (c : vertex_container V) : vertex_container V :=
  { c with _super_vertex := none }

end vertex_container

namespace edge_container

variable {E : Type}

/-! The private member functions of `edge_container`, under their own names. -/

/-- Constructor `edge_container(EdgeType e)`. -/
def init (e : E) : edge_container E := ⟨e, none, none, [], []⟩

def _set_from (c : edge_container E) (v : Ptr) : edge_container E :=
  { c with _from := some v }

def _set_to (c : edge_container E) (v : Ptr) : edge_container E :=
  { c with _to := some v }

def _unset_from (c : edge_container E) : edge_container E :=
  { c with _from := none }

def _unset_to (c : edge_container E) : edge_container E :=
  { c with _to := none }

def _add_sub_edge (c : edge_container E) (e : Ptr) : edge_container E :=
  { c with _sub_edges := c._sub_edges ++ [e] }

def _remove_sub_edge (c : edge_container E) (e : Ptr) : Option (edge_container E) :=
  (vector_erase_find c._sub_edges e).map fun l => { c with _sub_edges := l }

def _set_super_edge (c : edge_container E) (e : Ptr) : edge_container E :=
  { c with _super_edge := [e] }

def _unset_super_edge (c : edge_container E) : edge_container E :=
  { c with _super_edge := [] }

def _add_super_edge (c : edge_container E) (e : Ptr) : edge_container E :=
  { c with _super_edge := c._super_edge ++ [e] }

end edge_container

/-! ## Stores, graphs and the world -/

/-- The vertex store: the members `_i` and `_vertices` of `vertex_proxy` (the back
pointer `_graph` is the address the world holds the graph at). -/
structure vertex_proxy (V : Type) where
  _i : Nat
  _vertices : std_map (vertex_container V)

/-- The edge store: the members `_i` and `_edges` of `edge_proxy`. -/
structure edge_proxy (E : Type) where
  _i : Nat
  _edges : std_map (edge_container E)

/-- The constant `Graph::ELEMENT_INDEX_INIT`. -/
def ELEMENT_INDEX_INIT : Nat := 1

/-- A graph: its two stores, its supergraph (null or an address) and subgraphs. -/
structure Graph (V E : Type) where
  vertices : vertex_proxy V
  edges : edge_proxy E
  _supergraph : Option Nat
  _subgraphs : List Nat

/-- Constructor `Graph()`. -/
def Graph.init {V E : Type} : Graph V E :=
  ⟨⟨ELEMENT_INDEX_INIT, std_map.empty⟩, ⟨ELEMENT_INDEX_INIT, std_map.empty⟩, none, []⟩

/-- The program state: the graph at every graph address. -/
abbrev World (V E : Type) := Nat → Graph V E

namespace World

variable {V E : Type}

/-- Every graph freshly constructed. -/
def init : World V E := fun _ => Graph.init

/-- The vertex record a pointer refers to; `none` when no such record is alive. -/
def vertex (w : World V E) (p : Ptr) : Option (vertex_container V) :=
  (w p.1).vertices._vertices.find p.2

/-- The edge record a pointer refers to; `none` when no such record is alive. -/
def edge (w : World V E) (p : Ptr) : Option (edge_container E) :=
  (w p.1).edges._edges.find p.2

/-- The vertex record at `p` is overwritten. -/
def set_vertex (w : World V E) (p : Ptr) (c : vertex_container V) : World V E :=
  Function.update w p.1
    { w p.1 with vertices :=
        { (w p.1).vertices with _vertices := (w p.1).vertices._vertices.modify p.2 (fun _ => c) } }

/-- The edge record at `p` is overwritten. -/
def set_edge (w : World V E) (p : Ptr) (c : edge_container E) : World V E :=
  Function.update w p.1
    { w p.1 with edges :=
        { (w p.1).edges with _edges := (w p.1).edges._edges.modify p.2 (fun _ => c) } }

/-- A member function of `vertex_container` is called through the pointer `p`;
`none` when `p` is dangling or the member call is undefined. -/
def with_vertex (w : World V E) (p : Ptr)
    (f : vertex_container V → Option (vertex_container V)) : Option (World V E) :=
  match w.vertex p with
  | none => none
  | some c =>
    match f c with
    | none => none
    | some c' => some (w.set_vertex p c')

/-- A member function of `edge_container` is called through the pointer `p`;
`none` when `p` is dangling or the member call is undefined. -/
def with_edge (w : World V E) (p : Ptr)
    (f : edge_container E → Option (edge_container E)) : Option (World V E) :=
  match w.edge p with
  | none => none
  | some c =>
    match f c with
    | none => none
    | some c' => some (w.set_edge p c')

end World

/-! ## vertex_proxy -/

namespace vertex_proxy

variable {V E : Type}

/-- Handle query `iterator::has_neighbors()`, on the record the handle is at. -/
def iterator.has_neighbors (c : vertex_container V) : Bool :=
  !c._neighbors.isEmpty

/-- Store operation `vertices.add(vertex)` of the graph at address `g`: the record
goes in under the key `_i++`; the handle returned is at that key. -/
def add (w : World V E) (g : Nat) (vertex : V) : World V E × Ptr :=
  let vp := (w g).vertices
  (Function.update w g
    { w g with vertices :=
        { _i := vp._i + 1, _vertices := vp._vertices.insert vp._i (vertex_container.init vertex) } },
   (g, vp._i))

/-- Store operation `vertices.remove(pos)` of the graph at address `g`: throws when
the record has neighbors, erases the node otherwise and returns the handle that
follows (`none`: `end()`). A handle of another store, or a dead one, is undefined. -/
def remove (w : World V E) (g : Nat) (pos : Ptr) : Outcome (World V E) (Option Ptr) :=
  if pos.1 ≠ g then .undefined
  else
    match w.vertex pos with
    | none => .undefined
    | some c =>
      if iterator.has_neighbors c then
        .threw w "vertex_proxy::remove(): vertex still has neighbors."
      else
        let vp := (w g).vertices
        .ok (Function.update w g { w g with vertices := { vp with _vertices := vp._vertices.erase pos.2 } })
          ((vp._vertices.next pos.2).map fun k => (g, k))

/-- Private `vertex_proxy::_add_neighbor(neighbor, vertex)`, invoked from
`edge_proxy`: `vertex._container()._add_neighbor(&neighbor._container())`. -/
def _add_neighbor (w : World V E) (neighbor vertex : Ptr) : Option (World V E) :=
  match w.vertex neighbor with
  | none => none
  | some _ => w.with_vertex vertex fun c => some (c._add_neighbor neighbor)

/-- Handle operation `self.map(other)` on vertices. -/
def iterator.map (w : World V E) (self other : Ptr) : Option (World V E) :=
  match w.vertex self, w.vertex other with
  | some _, some _ =>
    (w.with_vertex self fun c => some (c._add_sub_vertex other)).bind fun w1 =>
    w1.with_vertex other fun c => some (c._set_super_vertex self)
  | _, _ => none

/-- Handle operation `self.unmap(other)` on vertices. -/
def iterator.unmap (w : World V E) (self other : Ptr) : Option (World V E) :=
  match w.vertex self, w.vertex other with
  | some _, some _ =>
    (w.with_vertex self fun c => c._remove_sub_vertex other).bind fun w1 =>
    w1.with_vertex other fun c => some c._unset_super_vertex
  | _, _ => none

/-- Handle query `has_subvertices()`. -/
def iterator.has_subvertices (w : World V E) (self : Ptr) : Option Bool :=
  (w.vertex self).map fun c => !c._sub_vertices.isEmpty

/-- Handle query `has_supervertex()`. -/
def iterator.has_supervertex (w : World V E) (self : Ptr) : Option Bool :=
  (w.vertex self).map fun c => c._super_vertex.isSome

/-- Handle query `super_vertex()`: the address of the super-vertex's value, or null
(the inner `none`). -/
def iterator.super_vertex (w : World V E) (self : Ptr) : Option (Option Ptr) :=
  (w.vertex self).map fun c => c._super_vertex

/-- Handle query `sub_vertices()`: the addresses of the sub-vertices' values. -/
def iterator.sub_vertices (w : World V E) (self : Ptr) : Option (List Ptr) :=
  (w.vertex self).map fun c => c._sub_vertices

end vertex_proxy

/-! ## edge_proxy -/

namespace edge_proxy

variable {V E : Type}

/-- Private `_connect(from, to, edge)`; the two vertex handles are dereferenced for
their addresses, so they have to be live. -/
def _connect (w : World V E) (from_ to_ edge : Ptr) : Option (World V E) :=
  match w.vertex from_, w.vertex to_ with
  | some _, some _ =>
    (w.with_edge edge fun c => some (c._set_from from_)).bind fun w1 =>
    w1.with_edge edge fun c => some (c._set_to to_)
  | _, _ => none

/-- Private `_set_neighbors_bidirectional(from, to)`. -/
def _set_neighbors_bidirectional (w : World V E) (from_ to_ : Ptr) : Option (World V E) :=
  (vertex_proxy._add_neighbor w from_ to_).bind fun w1 =>
  vertex_proxy._add_neighbor w1 to_ from_

/-- Private `_unset_neighbors_bidirectional(edge)`: `_from` and `_to` of the edge
are dereferenced (undefined when null or dangling). -/
def _unset_neighbors_bidirectional (w : World V E) (edge : Ptr) : Option (World V E) :=
  match w.edge edge with
  | none => none
  | some c =>
    match c._from, c._to with
    | some f, some t =>
      (w.with_vertex f fun v => v._remove_neighbor t).bind fun w1 =>
      w1.with_vertex t fun v => v._remove_neighbor f
    | _, _ => none

/-- Private `_set_edges_bidirectional(from, to, edge)`. -/
def _set_edges_bidirectional (w : World V E) (from_ to_ edge : Ptr) : Option (World V E) :=
  match w.edge edge with
  | none => none
  | some _ =>
    (w.with_vertex from_ fun v => some (v._add_out_edge edge)).bind fun w1 =>
    (w1.with_vertex to_ fun v => some (v._add_in_edge edge)).bind fun w2 =>
    (w2.with_vertex to_ fun v => some (v._add_out_edge edge)).bind fun w3 =>
    w3.with_vertex from_ fun v => some (v._add_in_edge edge)

/-- Private `_unset_edges_bidirectional(edge)`. -/
def _unset_edges_bidirectional (w : World V E) (edge : Ptr) : Option (World V E) :=
  match w.edge edge with
  | none => none
  | some c =>
    match c._from, c._to with
    | some f, some t =>
      (w.with_vertex f fun v => v._remove_in_edge edge).bind fun w1 =>
      (w1.with_vertex t fun v => v._remove_in_edge edge).bind fun w2 =>
      (w2.with_vertex f fun v => v._remove_out_edge edge).bind fun w3 =>
      w3.with_vertex t fun v => v._remove_out_edge edge
    | _, _ => none

/-- Store operation `edges.add(from, to, edge)` of the graph at address `g`: the
record goes in under the key `_i++`, then `_connect`, `_set_neighbors_bidirectional`
and `_set_edges_bidirectional` run on the handle `i` at that key, which is
returned. -/
def add (w : World V E) (g : Nat) (from_ to_ : Ptr) (edge : E) : Option (World V E × Ptr) :=
  let ep := (w g).edges
  let i : Ptr := (g, ep._i)
  let w0 : World V E := Function.update w g
    { w g with edges :=
        { _i := ep._i + 1, _edges := ep._edges.insert ep._i (edge_container.init edge) } }
  (_connect w0 from_ to_ i).bind fun w1 =>
  (_set_neighbors_bidirectional w1 from_ to_).bind fun w2 =>
  (_set_edges_bidirectional w2 from_ to_ i).bind fun w3 =>
  some (w3, i)

/-- Store operation `edges.remove(edge_it)` of the graph at address `g`:
`_unset_neighbors_bidirectional`, `_unset_edges_bidirectional`, then the node is
erased; the handle returned is the one that follows (the inner `none`: `end()`).
A handle of another store is undefined. -/
def remove (w : World V E) (g : Nat) (edge_it : Ptr) : Option (World V E × Option Ptr) :=
  if edge_it.1 ≠ g then none
  else
    (_unset_neighbors_bidirectional w edge_it).bind fun w1 =>
    (_unset_edges_bidirectional w1 edge_it).bind fun w2 =>
    let ep := (w2 g).edges
    some (Function.update w2 g { w2 g with edges := { ep with _edges := ep._edges.erase edge_it.2 } },
      (ep._edges.next edge_it.2).map fun k => (g, k))

/-- Handle operation `self.map_link(other)`. -/
def iterator.map_link (w : World V E) (self other : Ptr) : Option (World V E) :=
  match w.edge self, w.edge other with
  | some _, some _ =>
    (w.with_edge self fun c => some (c._add_sub_edge other)).bind fun w1 =>
    w1.with_edge other fun c => some (c._set_super_edge self)
  | _, _ => none

/-- Handle operation `self.map_path(other)`. -/
def iterator.map_path (w : World V E) (self other : Ptr) : Option (World V E) :=
  match w.edge self, w.edge other with
  | some _, some _ =>
    (w.with_edge self fun c => some (c._add_sub_edge other)).bind fun w1 =>
    w1.with_edge other fun c => some (c._add_super_edge self)
  | _, _ => none

/-- Handle operation `self.unmap(other)` on edges. -/
def iterator.unmap (w : World V E) (self other : Ptr) : Option (World V E) :=
  match w.edge self, w.edge other with
  | some _, some _ =>
    (w.with_edge self fun c => c._remove_sub_edge other).bind fun w1 =>
    w1.with_edge other fun c => some c._unset_super_edge
  | _, _ => none

/-- Handle query `has_subedges()`. -/
def iterator.has_subedges (w : World V E) (self : Ptr) : Option Bool :=
  (w.edge self).map fun c => !c._sub_edges.isEmpty

/-- Handle query `has_superedge()`. -/
def iterator.has_superedge (w : World V E) (self : Ptr) : Option Bool :=
  (w.edge self).map fun c => !c._super_edge.isEmpty

/-- Handle query `super_edge()`: the addresses of the super-edges' values. -/
def iterator.super_edge (w : World V E) (self : Ptr) : Option (List Ptr) :=
  (w.edge self).map fun c => c._super_edge

/-- Handle query `sub_edges()`: the addresses of the sub-edges' values. -/
def iterator.sub_edges (w : World V E) (self : Ptr) : Option (List Ptr) :=
  (w.edge self).map fun c => c._sub_edges

end edge_proxy

/-! ## Sequences of store operations on one graph -/

/-- Handle query `iterator::id()`: the key of the node the handle is at. -/
def iterator.id (p : Ptr) : Nat := p.2

/-- A call of one of the four store operations of a graph, on handles of that
graph, each handle given by the key it is at. -/
inductive Op (V E : Type) where
  | vertices_add (vertex : V)
  | vertices_remove (pos : Nat)
  | edges_add (from_ to_ : Nat) (edge : E)
  | edges_remove (edge_it : Nat)

/-- What a call of a store operation was seen to do: the `id()` of the handle an
`add` returned, the key a `remove` erased, or the key at which `vertices.remove`
threw. -/
inductive Event where
  | vertex_added (id : Nat)
  | vertex_removed (id : Nat)
  | vertex_remove_threw (id : Nat)
  | edge_added (id : Nat)
  | edge_removed (id : Nat)
  deriving DecidableEq, Repr

/-- One call on the graph at address `g`; `none` when the call is undefined (it
was given a dead handle). An exception of `vertices.remove` is caught by the
caller, who goes on from the state at the throw. -/
def step {V E : Type} (g : Nat) (w : World V E) : Op V E → Option (World V E × Event)
  | .vertices_add vertex =>
    let r := vertex_proxy.add w g vertex
    some (r.1, .vertex_added (iterator.id r.2))
  | .vertices_remove pos =>
    match vertex_proxy.remove w g (g, pos) with
    | .ok w1 _ => some (w1, .vertex_removed pos)
    | .threw w1 _ => some (w1, .vertex_remove_threw pos)
    | .undefined => none
  | .edges_add from_ to_ edge =>
    (edge_proxy.add w g (g, from_) (g, to_) edge).map fun r => (r.1, .edge_added (iterator.id r.2))
  | .edges_remove edge_it =>
    (edge_proxy.remove w g (g, edge_it)).map fun r => (r.1, .edge_removed edge_it)

/-- A sequence of calls, with the events seen, in order. -/
def run {V E : Type} (g : Nat) (w : World V E) : List (Op V E) → Option (World V E × List Event)
  | [] => some (w, [])
  | op :: ops =>
    match step g w op with
    | none => none
    | some (w1, ev) => (run g w1 ops).map fun r => (r.1, ev :: r.2)

/-- The states of the graph at address `g` that store operations on live handles
of that graph lead to, from the freshly constructed graph. -/
def Reachable {V E : Type} (g : Nat) (w : World V E) : Prop :=
  ∃ (w0 : World V E) (ops : List (Op V E)) (evs : List Event),
    w0 g = Graph.init ∧ run g w0 ops = some (w, evs)

/-- The ids the vertex store handed out, in order. -/
def Event.vertex_ids : List Event → List Nat
  | [] => []
  | .vertex_added id :: evs => id :: vertex_ids evs
  | _ :: evs => vertex_ids evs

/-- The ids the edge store handed out, in order. -/
def Event.edge_ids : List Event → List Nat
  | [] => []
  | .edge_added id :: evs => id :: edge_ids evs
  | _ :: evs => edge_ids evs

/-! ## Iteration and lookup by identity -/

namespace std_map

variable {α : Type}

/-- The key of the first node, `m.begin()`; `none` for `m.end()` (empty map). -/
def begin (m : std_map α) : Option Nat :=
  m.entries.head?.map fun e => e.1

/-- The keys met by a loop from an iterator up to `m.end()`, stepping with `++`;
the fuel bounds the number of steps. -/
def walk (m : std_map α) : Nat → Option Nat → List Nat
  | 0, _ => []
  | _ + 1, none => []
  | fuel + 1, some k => k :: walk m fuel (m.next k)

end std_map

namespace vertex_proxy

variable {V E : Type}

/-- Handle operation `*it` on vertices: the value of the record. -/
def iterator.deref (w : World V E) (it : Ptr) : Option V :=
  (w.vertex it).map fun c => c._element

/-- Store operation `vertices[index]` of the graph at address `g`: a handle at the
key when `find` does not give `end()`, an exception otherwise. -/
def subscript (w : World V E) (g : Nat) (index : Nat) : Outcome (World V E) Ptr :=
  match (w g).vertices._vertices.find index with
  | some _ => .ok w (g, index)
  | none => .threw w "vertex_proxy::operator[]: index does not exist."

/-- Store operation `vertices.begin()`; `none` is `vertices.end()`. -/
def begin (w : World V E) (g : Nat) : Option Ptr :=
  (w g).vertices._vertices.begin.map fun k => (g, k)

/-- Handle operation `++it` on a handle of the vertex store of the graph at `g`. -/
def iterator.incr (w : World V E) (it : Ptr) : Option Ptr :=
  ((w it.1).vertices._vertices.next it.2).map fun k => (it.1, k)

/-- Store operation `vertices.count()`. -/
def count (w : World V E) (g : Nat) : Nat :=
  (w g).vertices._vertices.size

/-- The ids met by `for (it = vertices.begin(); it != vertices.end(); ++it)`. -/
def loop_ids (w : World V E) (g : Nat) (fuel : Nat) : List Nat :=
  (w g).vertices._vertices.walk fuel (w g).vertices._vertices.begin

end vertex_proxy

namespace edge_proxy

variable {V E : Type}

/-- Handle operation `*it` on edges: the value of the record. -/
def iterator.deref (w : World V E) (it : Ptr) : Option E :=
  (w.edge it).map fun c => c._element

/-- Store operation `edges[index]` of the graph at address `g`. -/
def subscript (w : World V E) (g : Nat) (index : Nat) : Outcome (World V E) Ptr :=
  match (w g).edges._edges.find index with
  | some _ => .ok w (g, index)
  | none => .threw w "edge_proxy::operator[]: index does not exist."

/-- Store operation `edges.begin()`; `none` is `edges.end()`. -/
def begin (w : World V E) (g : Nat) : Option Ptr :=
  (w g).edges._edges.begin.map fun k => (g, k)

/-- Handle operation `++it` on a handle of the edge store of the graph at `g`. -/
def iterator.incr (w : World V E) (it : Ptr) : Option Ptr :=
  ((w it.1).edges._edges.next it.2).map fun k => (it.1, k)

/-- Store operation `edges.count()`. -/
def count (w : World V E) (g : Nat) : Nat :=
  (w g).edges._edges.size

/-- The ids met by `for (it = edges.begin(); it != edges.end(); ++it)`. -/
def loop_ids (w : World V E) (g : Nat) (fuel : Nat) : List Nat :=
  (w g).edges._edges.walk fuel (w g).edges._edges.begin

end edge_proxy

/-! ## Graph: supergraph and subgraphs -/

namespace Graph

variable {V E : Type}

/-- Member `self.map(subgraph)`: the subgraph is pushed on the list of `self`, then
its `_supergraph` is set to `self`. -/
def map (w : World V E) (self subgraph : Nat) : World V E :=
  let w1 : World V E :=
    Function.update w self { w self with _subgraphs := (w self)._subgraphs ++ [subgraph] }
  Function.update w1 subgraph { w1 subgraph with _supergraph := some self }

/-- Member `self.has_subgraph(subgraph)`. -/
def has_subgraph (w : World V E) (self subgraph : Nat) : Bool :=
  decide (subgraph ∈ (w self)._subgraphs)

/-- Member `self.has_subgraphs()`. -/
def has_subgraphs (w : World V E) (self : Nat) : Bool :=
  !(w self)._subgraphs.isEmpty

/-- Member `self.unmap(subgraph)`: the first occurrence of the subgraph is erased
from the list of `self` (undefined when there is none), then its `_supergraph` is
set to null. -/
def unmap (w : World V E) (self subgraph : Nat) : Option (World V E) :=
  match vector_erase_find (w self)._subgraphs subgraph with
  | none => none
  | some l =>
    let w1 : World V E := Function.update w self { w self with _subgraphs := l }
    some (Function.update w1 subgraph { w1 subgraph with _supergraph := none })

/-- Member `self.supergraph()`: null or the address of the supergraph. -/
def supergraph (w : World V E) (self : Nat) : Option Nat :=
  (w self)._supergraph

/-- Member `self.subgraphs()`. -/
def subgraphs (w : World V E) (self : Nat) : List Nat :=
  (w self)._subgraphs

end Graph

/-- A call of `map` or `unmap` on the graph at address `self`. -/
inductive GraphOp where
  | map (self subgraph : Nat)
  | unmap (self subgraph : Nat)
  deriving DecidableEq, Repr

/-- One graph-level call; `none` when it is undefined. -/
def graph_step {V E : Type} (w : World V E) : GraphOp → Option (World V E)
  | .map self subgraph => some (Graph.map w self subgraph)
  | .unmap self subgraph => Graph.unmap w self subgraph

/-- A sequence of graph-level calls. -/
def graph_run {V E : Type} (w : World V E) : List GraphOp → Option (World V E)
  | [] => some w
  | op :: ops => (graph_step w op).bind fun w1 => graph_run w1 ops

/-- Whether every `map` of a sequence of graph-level calls registers a subgraph
that is not in the list of the graph at the time of the call. -/
def maps_unregistered {V E : Type} (w : World V E) : List GraphOp → Bool
  | [] => true
  | op :: ops =>
    (match op with
      | .map self subgraph => !Graph.has_subgraph w self subgraph
      | .unmap _ _ => true) &&
    (match graph_step w op with
      | some w1 => maps_unregistered w1 ops
      | none => true)

/-! ## Hierarchy calls on handles, alone and between store operations -/

/-- A call of one of the five mapping operations on two handles. -/
inductive LinkOp where
  | map_link (self other : Ptr)
  | map_path (self other : Ptr)
  | edge_unmap (self other : Ptr)
  | vertex_map (self other : Ptr)
  | vertex_unmap (self other : Ptr)
  deriving DecidableEq, Repr

/-- One mapping call; `none` when it is undefined. -/
def link_step {V E : Type} (w : World V E) : LinkOp → Option (World V E)
  | .map_link self other => edge_proxy.iterator.map_link w self other
  | .map_path self other => edge_proxy.iterator.map_path w self other
  | .edge_unmap self other => edge_proxy.iterator.unmap w self other
  | .vertex_map self other => vertex_proxy.iterator.map w self other
  | .vertex_unmap self other => vertex_proxy.iterator.unmap w self other

/-- A sequence of mapping calls. -/
def link_run {V E : Type} (w : World V E) : List LinkOp → Option (World V E)
  | [] => some w
  | op :: ops => (link_step w op).bind fun w1 => link_run w1 ops

/-- A store operation on the graph at hand, or a mapping call on any handles. -/
inductive AnyOp (V E : Type) where
  | store (op : Op V E)
  | link (op : LinkOp)

/-- One call of either kind, for the graph at address `g`. -/
def any_step {V E : Type} (g : Nat) (w : World V E) : AnyOp V E → Option (World V E)
  | .store op => (step g w op).map fun r => r.1
  | .link op => link_step w op

/-- A sequence of calls of either kind. -/
def any_run {V E : Type} (g : Nat) (w : World V E) : List (AnyOp V E) → Option (World V E)
  | [] => some w
  | op :: ops => (any_step g w op).bind fun w1 => any_run g w1 ops

/-- The states of the graph at address `g` that store operations on its live
handles and mapping calls on live handles lead to, from the freshly constructed
graph. -/
def ReachableLinked {V E : Type} (g : Nat) (w : World V E) : Prop :=
  ∃ (w0 : World V E) (ops : List (AnyOp V E)), w0 g = Graph.init ∧ any_run g w0 ops = some w

/-! ## Diagnostic rendering -/

/-- Width of `unsigned`, the type of the loop index of `_print_adjacency_list`. -/
def UNSIGNED_BITS : Nat := 32

/-- Width of `std::size_t`, the type of `_neighbors.size()`. -/
def SIZE_BITS : Nat := 64

/-- The text streamed after neighbor `i` of `size`:
`(i == size - 2 ? ", " : " ")`, the subtraction being one of `std::size_t`. -/
def separator (i size : Nat) : String :=
  if i = (size + 2 ^ SIZE_BITS - 2) % 2 ^ SIZE_BITS then ", " else " "

/-- The inner loop of `_print_adjacency_list` from index `i` on, over the neighbors
still to come: `os << neighbors[i]->_element << separator`. The values are streamed
by `render`, the `operator<<` of `VertexType`; `none` when a neighbor pointer is
dangling. -/
def print_neighbors {V E : Type} (render : V → String) (w : World V E) (size : Nat) :
    Nat → List Ptr → Option String
  | _, [] => some ""
  | i, p :: rest =>
    match w.vertex p with
    | none => none
    | some n =>
      (print_neighbors render w size (i + 1) rest).map fun s =>
        render n._element ++ separator i size ++ s

/-- The body of the outer loop of `_print_adjacency_list` for one record. The
`unsigned` index reaches `size()` only when that is below `2 ^ 32`: otherwise it
wraps and the loop does not end, which is `none` too. -/
def print_vertex {V E : Type} (render : V → String) (w : World V E)
    (c : vertex_container V) : Option String :=
  if c._neighbors.length < 2 ^ UNSIGNED_BITS then
    (print_neighbors render w c._neighbors.length 0 c._neighbors).map fun s =>
      " " ++ render c._element ++ " -> [ " ++ s ++ "]" ++ "\n"
  else none

/-- The lines of the records of a map, in iteration order. -/
def print_entries {V E : Type} (render : V → String) (w : World V E) :
    List (Nat × vertex_container V) → Option String
  | [] => some ""
  | e :: rest =>
    match print_vertex render w e.2 with
    | none => none
    | some line => (print_entries render w rest).map fun s => line ++ s

/-- Private `Graph::_print_adjacency_list(os)`, for the graph at address `g`. -/
def _print_adjacency_list {V E : Type} (render : V → String) (w : World V E) (g : Nat) :
    Option String :=
  print_entries render w (w g).vertices._vertices.entries

/-- The stream operator `os << g` for the graph at address `g`: what is written. -/
def print {V E : Type} (render : V → String) (w : World V E) (g : Nat) : Option String :=
  (_print_adjacency_list render w g).map fun s =>
    "Graph(n=" ++ toString (vertex_proxy.count w g) ++ ", m=" ++
      toString (edge_proxy.count w g) ++ ")" ++ "\n" ++ s

/-! ## Concrete states -/

/-- Two graphs: a coarse one at address 0 (two vertices, two parallel edges) and a
fine one at address 1 (two vertices, one edge). -/
def two_level_world : World String String :=
  let coarse := ((run 0 World.init
    [.vertices_add "U", .vertices_add "V", .edges_add 1 2 "coarse1",
     .edges_add 1 2 "coarse2"]).map fun r => r.1).getD World.init
  ((run 1 coarse
    [.vertices_add "x", .vertices_add "y", .edges_add 1 2 "fine"]).map fun r => r.1).getD coarse

/-- The fine edge mapped by `map_path` under both coarse edges, in turn. -/
def path_mapped_world : World String String :=
  ((edge_proxy.iterator.map_path two_level_world (0, 1) (1, 1)).bind fun w1 =>
    edge_proxy.iterator.map_path w1 (0, 2) (1, 1)).getD two_level_world

/-- The calls of Scenario 1 of the specification up to its second edge: vertices
A, B, C, then edges A to B and B to C. -/
def scenario_ops : List (Op String String) :=
  [.vertices_add "A", .vertices_add "B", .vertices_add "C",
   .edges_add 1 2 "e1", .edges_add 2 3 "e2"]

/-- The state after `scenario_ops`, in the graph at address 0. -/
def scenario_world : World String String :=
  ((run 0 World.init scenario_ops).map fun r => r.1).getD World.init

/-- The state a sequence of calls leads to from freshly constructed graphs, in the
graph at address 0 (the starting state when a call is undefined). -/
def world_after (ops : List (Op String String)) : World String String :=
  ((run 0 World.init ops).map fun r => r.1).getD World.init

/-- The events a sequence of calls on the graph at address 0 is seen to produce. -/
def events_after (ops : List (Op String String)) : List Event :=
  ((run 0 World.init ops).map fun r => r.2).getD []

/-- Scenario 1 of the specification in full: after the two edges, remove e1, try
to remove B (it throws), remove e2, remove B. -/
def scenario_full_ops : List (Op String String) :=
  scenario_ops ++ [.edges_remove 1, .vertices_remove 2, .edges_remove 2, .vertices_remove 2]

/-- Additions after removals: Scenario 1, then a fourth vertex and a third edge. -/
def readd_ops : List (Op String String) :=
  scenario_full_ops ++ [.vertices_add "D", .edges_add 1 3 "e3"]

/-- Scenario 1 up to the removal of e1: the edge e2 from B to C is still there. -/
def scenario_mid_ops : List (Op String String) :=
  scenario_ops ++ [.edges_remove 1]

/-- Graph-level calls that register graph 1 under graph 0 twice. -/
def double_map_ops : List GraphOp := [.map 0 1, .map 0 1]

/-- The state after `double_map_ops`, from freshly constructed graphs. -/
def double_map_world : World Unit Unit :=
  (graph_run World.init double_map_ops).getD World.init

/-- Graph-level calls in which every `map` registers a graph that is not in the
list at the time. -/
def nested_ops : List GraphOp := [.map 0 1, .map 0 2, .unmap 0 1, .map 0 1]

/-- The state after `nested_ops`, from freshly constructed graphs. -/
def nested_world : World Unit Unit :=
  (graph_run World.init nested_ops).getD World.init

/-- Two vertices joined by two parallel edges, one in each direction, and a
self-loop at the first vertex. -/
def loop_ops : List (Op String String) :=
  [.vertices_add "p", .vertices_add "q", .edges_add 1 2 "pq", .edges_add 2 1 "qp",
   .edges_add 1 1 "loop"]

/-- The store operations that build the coarse graph of `two_level_world`, at
address 0. -/
def coarse_ops : List (Op String String) :=
  [.vertices_add "U", .vertices_add "V", .edges_add 1 2 "coarse1", .edges_add 1 2 "coarse2"]

/-- The store operations that build the fine graph of `two_level_world`, at
address 1, as calls of either kind. -/
def fine_ops : List (AnyOp String String) :=
  [.store (.vertices_add "x"), .store (.vertices_add "y"), .store (.edges_add 1 2 "fine")]

/-- Mapping calls on the edges of `two_level_world`: the fine edge goes under both
coarse edges by `map_path`, is unmapped from the first, and is mapped under the
second again by `map_link`. -/
def remap_ops : List LinkOp :=
  [.map_path (0, 1) (1, 1), .map_path (0, 2) (1, 1), .edge_unmap (0, 1) (1, 1),
   .map_link (0, 2) (1, 1)]

/-- The state after `remap_ops`, from `two_level_world`. -/
def remap_world : World String String :=
  (link_run two_level_world remap_ops).getD two_level_world

/-- A vertex `v` with three neighbors `a`, `b`, `c`, and a vertex `d` with a
self-loop. -/
def star_ops : List (Op String String) :=
  [.vertices_add "v", .vertices_add "a", .vertices_add "b", .vertices_add "c",
   .vertices_add "d", .edges_add 1 2 "va", .edges_add 1 3 "vb", .edges_add 1 4 "vc",
   .edges_add 5 5 "dd"]

/-! ## Definitions used in the proofs -/

/-- Member calls through pointers to vertex records, one after the other. -/
def World.with_vertices {V E : Type} (w : World V E) :
    List (Ptr × (vertex_container V → Option (vertex_container V))) → Option (World V E)
  | [] => some w
  | s :: rest => (w.with_vertex s.1 s.2).bind fun w1 => World.with_vertices w1 rest

/-- What a sequence of member calls makes of the record at `q`, which starts
as `c`. -/
def call_chain {V : Type} :
    List (Ptr × (vertex_container V → Option (vertex_container V))) →
      Ptr → vertex_container V → Option (vertex_container V)
  | [], _, c => some c
  | s :: rest, q, c => (if q = s.1 then s.2 c else some c).bind (call_chain rest q)

/-- Whether a record (or none) is an edge recorded from `a` to `b`. -/
def edge_joins {E : Type} (o : Option (edge_container E)) (a b : Ptr) : Bool :=
  match o with
  | some e => decide (e._from = some a ∧ e._to = some b)
  | none => false

/-- Number of edges of the graph at `g` that are recorded from `a` to `b`. -/
def edges_between {V E : Type} (w : World V E) (g : Nat) (a b : Ptr) : Nat :=
  (List.range (w g).edges._i).countP fun k => edge_joins (w.edge (g, k)) a b

/-- How many ends of the edge `e` are at the vertex `v`: 0, 1, or 2 (self-loop). -/
def incidence {V E : Type} (w : World V E) (v e : Ptr) : Nat :=
  match w.edge e with
  | some c => (if c._from = some v then 1 else 0) + (if c._to = some v then 1 else 0)
  | none => 0

/-- The bookkeeping of the graph at `g` is consistent: keys are below the
counters, edge ends are live vertices of the graph, and the three lists of every
vertex hold exactly what its incident edges account for. -/
structure Consistent {V E : Type} (w : World V E) (g : Nat) : Prop where
  vkeys : ∀ k c, w.vertex (g, k) = some c → k < (w g).vertices._i
  ekeys : ∀ k c, w.edge (g, k) = some c → k < (w g).edges._i
  ends : ∀ k c, w.edge (g, k) = some c →
    ∃ a b, c._from = some (g, a) ∧ c._to = some (g, b) ∧
      (w.vertex (g, a)).isSome = true ∧ (w.vertex (g, b)).isSome = true
  nbrs : ∀ a c, w.vertex (g, a) = some c → ∀ q,
    c._neighbors.count q = edges_between w g (g, a) q + edges_between w g q (g, a)
  ins : ∀ a c, w.vertex (g, a) = some c → ∀ p,
    c._in_edges.count p = if p.1 = g then incidence w (g, a) p else 0
  outs : ∀ a c, w.vertex (g, a) = some c → ∀ p,
    c._out_edges.count p = if p.1 = g then incidence w (g, a) p else 0

/-- The member calls `edges.add(u, v, _)` makes on vertex records, in order, for
the new edge `e`. -/
def add_steps {V : Type} (u v e : Ptr) :
    List (Ptr × (vertex_container V → Option (vertex_container V))) :=
  [(v, fun c => some (c._add_neighbor u)), (u, fun c => some (c._add_neighbor v)),
   (u, fun c => some (c._add_out_edge e)), (v, fun c => some (c._add_in_edge e)),
   (v, fun c => some (c._add_out_edge e)), (u, fun c => some (c._add_in_edge e))]

/-- The member calls `edges.remove(e)` makes on vertex records, in order, for an
edge `e` recorded from `f` to `t`. -/
def remove_steps {V : Type} (f t e : Ptr) :
    List (Ptr × (vertex_container V → Option (vertex_container V))) :=
  [(f, fun c => c._remove_neighbor t), (t, fun c => c._remove_neighbor f),
   (f, fun c => c._remove_in_edge e), (t, fun c => c._remove_in_edge e),
   (f, fun c => c._remove_out_edge e), (t, fun c => c._remove_out_edge e)]

/-! ## Counting the entries of the edge store -/

/-- Number of edges in the edge store of the graph at `g` that join `a` and `b`:
those recorded from `a` to `b` and those recorded from `b` to `a`, so that a
self-loop at `a` counts twice in `edges_joining w g a a`. -/
def edges_joining {V E : Type} (w : World V E) (g : Nat) (a b : Ptr) : Nat :=
  ((w g).edges._edges.entries.countP fun e => decide (e.2._from = some a ∧ e.2._to = some b)) +
  ((w g).edges._edges.entries.countP fun e => decide (e.2._from = some b ∧ e.2._to = some a))

/-! ## The diagnostic rendering, as described

These definitions follow the description of the rendering in words, not the code;
the theorems compare them with `print`, which follows the code. -/

/-- The strings of a list, one after the other. -/
def concat_all (l : List String) : String :=
  l.foldr (fun s r => s ++ r) ""

/-- Number of commas in a string. -/
def comma_count (s : String) : Nat :=
  s.data.count (Char.ofNat 44)

/-- Separator rule in words, by position: a comma and a space after the
second-to-last neighbor (index `size - 2`, when there is one), a space after every
other. -/
def stated_separator (i size : Nat) : String :=
  if i + 2 = size then ", " else " "

/-- Separator rule in the words of the specification, "a comma only before the
second-to-last neighbor": the comma follows the neighbor before the second-to-last
one (index `size - 3`, when there is one). -/
def claimed_separator (i size : Nat) : String :=
  if i + 3 = size then ", " else " "

/-- The values of the neighbors of a record, in neighbor-list order. -/
def neighbor_values {V E : Type} (w : World V E) (c : vertex_container V) : List V :=
  c._neighbors.filterMap fun p => (w.vertex p).map fun n => n._element

/-- One line of the rendering as described: a space, the value, `" -> [ "`, every
neighbor value followed by its separator, `"]"`, end of line. -/
def described_line {V : Type} (sep : Nat → Nat → String) (render : V → String)
    (value : V) (neighbors : List V) : String :=
  " " ++ render value ++ " -> [ " ++
    concat_all (neighbors.enum.map fun iv => render iv.2 ++ sep iv.1 neighbors.length) ++
    "]" ++ "\n"

/-- The rendering as described: the line `Graph(n=<n>, m=<m>)`, then one line per
vertex record, in the order of the vertex store. -/
def described_rendering {V E : Type} (sep : Nat → Nat → String) (render : V → String)
    (w : World V E) (g : Nat) : String :=
  "Graph(n=" ++ toString (w g).vertices._vertices.entries.length ++ ", m=" ++
    toString (w g).edges._edges.entries.length ++ ")" ++ "\n" ++
    concat_all ((w g).vertices._vertices.entries.map fun e =>
      described_line sep render e.2._element (neighbor_values w e.2))

/-! ## Theorems: std::map -/

namespace std_map

variable {α : Type}

theorem find_empty (k : Nat) : (empty : std_map α).find k = none := rfl

theorem findEntries_none_of_lt (l : List (Nat × α)) (k : Nat)
    (h : ∀ x ∈ l, k < x.1) : findEntries k l = none := by
  induction l with
  | nil => rfl
  | cons e m ih =>
    have h1 := h e (List.mem_cons_self _ _)
    have h2 : ¬ e.1 = k := by omega
    simp only [findEntries, h2, if_false]
    exact ih fun x hx => h x (List.mem_cons_of_mem _ hx)

theorem find_insertEntries (k : Nat) (v : α) (l : List (Nat × α))
    (hs : l.Pairwise (fun a b => a.1 < b.1)) (k1 : Nat) :
    findEntries k1 (insertEntries k v l) =
      if k1 = k then some ((findEntries k l).getD v) else findEntries k1 l := by
  induction l with
  | nil =>
    by_cases h : k1 = k
    · subst h; simp [insertEntries, findEntries]
    · have h2 : ¬ k = k1 := fun e => h e.symm
      simp [insertEntries, findEntries, h, h2]
  | cons e m ih =>
    rw [List.pairwise_cons] at hs
    have ih := ih hs.2
    by_cases hk : k1 = k
    · subst hk
      rw [if_pos rfl] at ih ⊢
      by_cases h1 : k1 < e.1
      · have hn : findEntries k1 (e :: m) = none := by
          apply findEntries_none_of_lt
          intro x hx
          rcases List.mem_cons.1 hx with rfl | hx
          · exact h1
          · exact lt_trans h1 (hs.1 x hx)
        rw [hn]
        simp [insertEntries, h1, findEntries]
      · by_cases h2 : k1 = e.1
        · simp [insertEntries, h2, findEntries]
        · have h3 : ¬ e.1 = k1 := fun x => h2 x.symm
          simp [insertEntries, h1, h2, h3, findEntries, ih]
    · rw [if_neg hk] at ih ⊢
      have hk2 : ¬ k = k1 := fun x => hk x.symm
      by_cases h1 : k < e.1
      · simp [insertEntries, h1, findEntries, hk2]
      · by_cases h2 : k = e.1
        · simp [insertEntries, h2, findEntries]
        · by_cases h3 : e.1 = k1
          · have h4 : ¬ k < k1 := by rw [← h3]; exact h1
            simp [insertEntries, hk2, h4, h3, findEntries]
          · simp [insertEntries, h1, h2, h3, findEntries, ih]

theorem find_insert (m : std_map α) (k : Nat) (v : α) (k1 : Nat) :
    (m.insert k v).find k1 = if k1 = k then some ((m.find k).getD v) else m.find k1 :=
  find_insertEntries k v m.entries m.sorted k1

theorem find_erase (m : std_map α) (k k1 : Nat) :
    (m.erase k).find k1 = if k1 = k then none else m.find k1 := by
  unfold find erase
  simp only
  generalize m.entries = l
  induction l with
  | nil => simp [findEntries]
  | cons e l ih =>
    by_cases h1 : e.1 = k
    · by_cases h2 : k1 = k
      · simpa [List.filter_cons, h1, h2] using ih
      · have h3 : ¬ k = k1 := fun x => h2 x.symm
        simpa [List.filter_cons, h1, h2, h3, findEntries] using ih
    · by_cases h3 : e.1 = k1
      · have h2 : ¬ k1 = k := by rw [← h3]; exact h1
        simp [List.filter_cons, h1, h2, h3, findEntries]
      · simpa [List.filter_cons, h1, h3, findEntries] using ih

theorem find_modify (m : std_map α) (k : Nat) (f : α → α) (k1 : Nat) :
    (m.modify k f).find k1 = if k1 = k then (m.find k).map f else m.find k1 := by
  unfold find modify
  simp only
  generalize m.entries = l
  induction l with
  | nil => simp [findEntries]
  | cons e l ih =>
    by_cases h1 : e.1 = k
    · by_cases h2 : k1 = k
      · simp [h1, h2, findEntries]
      · have h3 : ¬ k = k1 := fun x => h2 x.symm
        simpa [h1, h2, h3, findEntries] using ih
    · by_cases h3 : e.1 = k1
      · have h2 : ¬ k1 = k := by rw [← h3]; exact h1
        simp [h1, h2, h3, findEntries]
      · simpa [h1, h3, findEntries] using ih

end std_map

/-! ## Theorems: records reached through pointers -/

namespace World

variable {V E : Type}

theorem vertex_update (w : World V E) (g : Nat) (G : Graph V E) (q : Ptr) :
    World.vertex (Function.update w g G) q =
      if q.1 = g then G.vertices._vertices.find q.2 else w.vertex q := by
  unfold World.vertex
  by_cases h : q.1 = g
  · rw [if_pos h, h, Function.update_same]
  · rw [if_neg h, Function.update_noteq h]

theorem edge_update (w : World V E) (g : Nat) (G : Graph V E) (q : Ptr) :
    World.edge (Function.update w g G) q =
      if q.1 = g then G.edges._edges.find q.2 else w.edge q := by
  unfold World.edge
  by_cases h : q.1 = g
  · rw [if_pos h, h, Function.update_same]
  · rw [if_neg h, Function.update_noteq h]

theorem vertex_set_vertex (w : World V E) (p : Ptr) (c : vertex_container V) (q : Ptr) :
    (w.set_vertex p c).vertex q = if q = p then (w.vertex p).map (fun _ => c) else w.vertex q := by
  unfold set_vertex
  rw [vertex_update]
  by_cases h : q = p
  · subst h
    simp [std_map.find_modify, World.vertex]
  · by_cases h1 : q.1 = p.1
    · have h2 : ¬ q.2 = p.2 := fun h2 => h (Prod.ext h1 h2)
      simp [h, h1, h2, std_map.find_modify, World.vertex]
    · simp [h, h1]

theorem edge_set_vertex (w : World V E) (p : Ptr) (c : vertex_container V) (q : Ptr) :
    (w.set_vertex p c).edge q = w.edge q := by
  unfold set_vertex
  rw [edge_update]
  by_cases h1 : q.1 = p.1
  · simp [h1, World.edge]
  · simp [h1]

theorem edge_set_edge (w : World V E) (p : Ptr) (c : edge_container E) (q : Ptr) :
    (w.set_edge p c).edge q = if q = p then (w.edge p).map (fun _ => c) else w.edge q := by
  unfold set_edge
  rw [edge_update]
  by_cases h : q = p
  · subst h
    simp [std_map.find_modify, World.edge]
  · by_cases h1 : q.1 = p.1
    · have h2 : ¬ q.2 = p.2 := fun h2 => h (Prod.ext h1 h2)
      simp [h, h1, h2, std_map.find_modify, World.edge]
    · simp [h, h1]

theorem vertex_set_edge (w : World V E) (p : Ptr) (c : edge_container E) (q : Ptr) :
    (w.set_edge p c).vertex q = w.vertex q := by
  unfold set_edge
  rw [vertex_update]
  by_cases h1 : q.1 = p.1
  · simp [h1, World.vertex]
  · simp [h1]

theorem with_edge_some {w : World V E} {p : Ptr} {f : edge_container E → Option (edge_container E)}
    {c c1 : edge_container E} (h : w.edge p = some c) (hf : f c = some c1) :
    w.with_edge p f = some (w.set_edge p c1) := by
  simp [with_edge, h, hf]

theorem with_vertex_some {w : World V E} {p : Ptr}
    {f : vertex_container V → Option (vertex_container V)}
    {c c1 : vertex_container V} (h : w.vertex p = some c) (hf : f c = some c1) :
    w.with_vertex p f = some (w.set_vertex p c1) := by
  simp [with_vertex, h, hf]

end World

namespace World
variable {V E : Type}

theorem with_edge_spec {w : World V E} {p : Ptr} {f : edge_container E → Option (edge_container E)}
    {c c1 : edge_container E} (h : w.edge p = some c) (hf : f c = some c1) :
    ∃ w1, w.with_edge p f = some w1 ∧
      (∀ q, w1.edge q = if q = p then some c1 else w.edge q) ∧
      (∀ q, w1.vertex q = w.vertex q) := by
  refine ⟨_, with_edge_some h hf, ?_, ?_⟩
  · intro q
    rw [edge_set_edge, h]
    rfl
  · intro q
    exact vertex_set_edge w p c1 q

theorem with_vertex_spec {w : World V E} {p : Ptr}
    {f : vertex_container V → Option (vertex_container V)}
    {c c1 : vertex_container V} (h : w.vertex p = some c) (hf : f c = some c1) :
    ∃ w1, w.with_vertex p f = some w1 ∧
      (∀ q, w1.vertex q = if q = p then some c1 else w.vertex q) ∧
      (∀ q, w1.edge q = w.edge q) := by
  refine ⟨_, with_vertex_some h hf, ?_, ?_⟩
  · intro q
    rw [vertex_set_vertex, h]
    rfl
  · intro q
    exact edge_set_vertex w p c1 q

/-- Two member calls in a row, the first through `b`, the second through `s`. -/
theorem with_edge_twice {w : World V E} {b s : Ptr} {cb cb1 cs : edge_container E}
    (F1 : edge_container E → Option (edge_container E)) (f2 : edge_container E → edge_container E)
    (hb : w.edge b = some cb) (hs : w.edge s = some cs) (hF : F1 cb = some cb1) :
    ∃ w1, ((w.with_edge b F1).bind fun w1 => w1.with_edge s fun c => some (f2 c)) = some w1 ∧
      w1.edge s = some (f2 (if s = b then cb1 else cs)) ∧
      (b ≠ s → w1.edge b = some cb1) ∧
      (∀ q, q ≠ s → q ≠ b → w1.edge q = w.edge q) ∧
      (∀ q, w1.vertex q = w.vertex q) := by
  obtain ⟨w1, h1, h1e, h1v⟩ := with_edge_spec hb hF
  have hs1 : w1.edge s = some (if s = b then cb1 else cs) := by
    rw [h1e]; split_ifs <;> simp [hs]
  obtain ⟨w2, h2, h2e, h2v⟩ := with_edge_spec (f := fun c => some (f2 c)) hs1 rfl
  refine ⟨w2, ?_, ?_, ?_, ?_, ?_⟩
  · simp [h1, h2]
  · rw [h2e, if_pos rfl]
  · intro hne
    rw [h2e, if_neg hne, h1e, if_pos rfl]
  · intro q hq1 hq2
    rw [h2e, if_neg hq1, h1e, if_neg hq2]
  · intro q
    rw [h2v, h1v]

/-- Two member calls in a row on vertex records. -/
theorem with_vertex_twice {w : World V E} {b s : Ptr} {cb cb1 cs : vertex_container V}
    (F1 : vertex_container V → Option (vertex_container V))
    (f2 : vertex_container V → vertex_container V)
    (hb : w.vertex b = some cb) (hs : w.vertex s = some cs) (hF : F1 cb = some cb1) :
    ∃ w1, ((w.with_vertex b F1).bind fun w1 => w1.with_vertex s fun c => some (f2 c)) = some w1 ∧
      w1.vertex s = some (f2 (if s = b then cb1 else cs)) ∧
      (b ≠ s → w1.vertex b = some cb1) ∧
      (∀ q, q ≠ s → q ≠ b → w1.vertex q = w.vertex q) ∧
      (∀ q, w1.edge q = w.edge q) := by
  obtain ⟨w1, h1, h1e, h1v⟩ := with_vertex_spec hb hF
  have hs1 : w1.vertex s = some (if s = b then cb1 else cs) := by
    rw [h1e]; split_ifs <;> simp [hs]
  obtain ⟨w2, h2, h2e, h2v⟩ := with_vertex_spec (f := fun c => some (f2 c)) hs1 rfl
  refine ⟨w2, ?_, ?_, ?_, ?_, ?_⟩
  · simp [h1, h2]
  · rw [h2e, if_pos rfl]
  · intro hne
    rw [h2e, if_neg hne, h1e, if_pos rfl]
  · intro q hq1 hq2
    rw [h2e, if_neg hq1, h1e, if_neg hq2]
  · intro q
    rw [h2v, h1v]

end World

variable {V E : Type}

theorem map_link_spec {w : World V E} {b s : Ptr} {cb cs : edge_container E}
    (hb : w.edge b = some cb) (hs : w.edge s = some cs) :
    ∃ w1, edge_proxy.iterator.map_link w b s = some w1 ∧
      w1.edge s = some ((if s = b then cb._add_sub_edge s else cs)._set_super_edge b) ∧
      (b ≠ s → w1.edge b = some (cb._add_sub_edge s)) ∧
      (∀ q, q ≠ s → q ≠ b → w1.edge q = w.edge q) ∧
      (∀ q, w1.vertex q = w.vertex q) := by
  have h := World.with_edge_twice (fun c => some (c._add_sub_edge s))
    (fun c => c._set_super_edge b) hb hs rfl
  simpa [edge_proxy.iterator.map_link, hb, hs] using h

theorem map_path_spec {w : World V E} {b s : Ptr} {cb cs : edge_container E}
    (hb : w.edge b = some cb) (hs : w.edge s = some cs) :
    ∃ w1, edge_proxy.iterator.map_path w b s = some w1 ∧
      w1.edge s = some ((if s = b then cb._add_sub_edge s else cs)._add_super_edge b) ∧
      (b ≠ s → w1.edge b = some (cb._add_sub_edge s)) ∧
      (∀ q, q ≠ s → q ≠ b → w1.edge q = w.edge q) ∧
      (∀ q, w1.vertex q = w.vertex q) := by
  have h := World.with_edge_twice (fun c => some (c._add_sub_edge s))
    (fun c => c._add_super_edge b) hb hs rfl
  simpa [edge_proxy.iterator.map_path, hb, hs] using h

theorem edge_unmap_spec {w : World V E} {b s : Ptr} {cb cs : edge_container E}
    (hb : w.edge b = some cb) (hs : w.edge s = some cs) (hmem : s ∈ cb._sub_edges) :
    ∃ w1, edge_proxy.iterator.unmap w b s = some w1 ∧
      w1.edge s = some (edge_container._unset_super_edge
        (if s = b then { cb with _sub_edges := cb._sub_edges.erase s } else cs)) ∧
      (b ≠ s → w1.edge b = some { cb with _sub_edges := cb._sub_edges.erase s }) ∧
      (∀ q, q ≠ s → q ≠ b → w1.edge q = w.edge q) ∧
      (∀ q, w1.vertex q = w.vertex q) := by
  have hF : cb._remove_sub_edge s = some { cb with _sub_edges := cb._sub_edges.erase s } := by
    simp [edge_container._remove_sub_edge, vector_erase_find, hmem]
  have h := World.with_edge_twice (fun c => c._remove_sub_edge s)
    (fun c => c._unset_super_edge) hb hs hF
  simpa [edge_proxy.iterator.unmap, hb, hs] using h

theorem vertex_map_spec {w : World V E} {b s : Ptr} {cb cs : vertex_container V}
    (hb : w.vertex b = some cb) (hs : w.vertex s = some cs) :
    ∃ w1, vertex_proxy.iterator.map w b s = some w1 ∧
      w1.vertex s = some ((if s = b then cb._add_sub_vertex s else cs)._set_super_vertex b) ∧
      (b ≠ s → w1.vertex b = some (cb._add_sub_vertex s)) ∧
      (∀ q, q ≠ s → q ≠ b → w1.vertex q = w.vertex q) ∧
      (∀ q, w1.edge q = w.edge q) := by
  have h := World.with_vertex_twice (fun c => some (c._add_sub_vertex s))
    (fun c => c._set_super_vertex b) hb hs rfl
  simpa [vertex_proxy.iterator.map, hb, hs] using h

/-! ## Theorems: the mapping operations, field by field -/

variable {V E : Type}

open edge_proxy.iterator in
theorem map_link_fields (w : World V E) (b s : Ptr)
    (hb : (w.edge b).isSome = true) (hs : (w.edge s).isSome = true) :
    ∃ w1, map_link w b s = some w1 ∧
      (∀ q, sub_edges w1 q = (sub_edges w q).map fun l => if q = b then l ++ [s] else l) ∧
      (∀ q, super_edge w1 q = (super_edge w q).map fun l => if q = s then [b] else l) := by
  obtain ⟨cb, hb⟩ := Option.isSome_iff_exists.1 hb
  obtain ⟨cs, hs⟩ := Option.isSome_iff_exists.1 hs
  obtain ⟨w1, h1, h1s, h1b, h1o, _⟩ := map_link_spec hb hs
  refine ⟨w1, h1, ?_, ?_⟩ <;> intro q <;> by_cases e1 : q = s
  · subst e1
    by_cases e2 : q = b
    · subst e2
      simp [sub_edges, h1s, hb, edge_container._set_super_edge, edge_container._add_sub_edge]
    · simp [sub_edges, h1s, hs, e2, edge_container._set_super_edge]
  · by_cases e2 : q = b
    · subst e2
      simp [sub_edges, h1b (fun x => e1 x), hb, edge_container._add_sub_edge]
    · simp [sub_edges, h1o q e1 e2, e2, Function.comp_def]
  · subst e1
    simp [super_edge, h1s, hs, edge_container._set_super_edge]
  · by_cases e2 : q = b
    · subst e2
      simp [super_edge, h1b (fun x => e1 x), hb, e1, edge_container._add_sub_edge]
    · simp [super_edge, h1o q e1 e2, e1, Function.comp_def]

open edge_proxy.iterator in
theorem map_path_fields (w : World V E) (b s : Ptr)
    (hb : (w.edge b).isSome = true) (hs : (w.edge s).isSome = true) :
    ∃ w1, map_path w b s = some w1 ∧
      (∀ q, sub_edges w1 q = (sub_edges w q).map fun l => if q = b then l ++ [s] else l) ∧
      (∀ q, super_edge w1 q = (super_edge w q).map fun l => if q = s then l ++ [b] else l) := by
  obtain ⟨cb, hb⟩ := Option.isSome_iff_exists.1 hb
  obtain ⟨cs, hs⟩ := Option.isSome_iff_exists.1 hs
  obtain ⟨w1, h1, h1s, h1b, h1o, _⟩ := map_path_spec hb hs
  refine ⟨w1, h1, ?_, ?_⟩ <;> intro q <;> by_cases e1 : q = s
  · subst e1
    by_cases e2 : q = b
    · subst e2
      simp [sub_edges, h1s, hb, edge_container._add_super_edge, edge_container._add_sub_edge]
    · simp [sub_edges, h1s, hs, e2, edge_container._add_super_edge]
  · by_cases e2 : q = b
    · subst e2
      simp [sub_edges, h1b (fun x => e1 x), hb, edge_container._add_sub_edge]
    · simp [sub_edges, h1o q e1 e2, e2, Function.comp_def]
  · subst e1
    by_cases e2 : q = b
    · subst e2
      simp [super_edge, h1s, hb, edge_container._add_super_edge, edge_container._add_sub_edge]
    · simp [super_edge, h1s, hs, e2, edge_container._add_super_edge]
  · by_cases e2 : q = b
    · subst e2
      simp [super_edge, h1b (fun x => e1 x), hb, e1, edge_container._add_sub_edge]
    · simp [super_edge, h1o q e1 e2, e1, Function.comp_def]

open edge_proxy.iterator in
theorem edge_unmap_fields (w : World V E) (a s : Ptr) (l : List Ptr)
    (ha : sub_edges w a = some l) (hmem : s ∈ l) (hs : (w.edge s).isSome = true) :
    ∃ w1, unmap w a s = some w1 ∧
      (∀ q, sub_edges w1 q = (sub_edges w q).map fun l => if q = a then l.erase s else l) ∧
      (∀ q, super_edge w1 q = (super_edge w q).map fun l => if q = s then [] else l) := by
  obtain ⟨cs, hs⟩ := Option.isSome_iff_exists.1 hs
  obtain ⟨ca, ha1, ha2⟩ : ∃ ca, w.edge a = some ca ∧ ca._sub_edges = l := by
    simpa [sub_edges] using ha
  subst ha2
  obtain ⟨w1, h1, h1s, h1b, h1o, _⟩ := edge_unmap_spec ha1 hs hmem
  refine ⟨w1, h1, ?_, ?_⟩ <;> intro q <;> by_cases e1 : q = s
  · subst e1
    by_cases e2 : q = a
    · subst e2
      simp [sub_edges, h1s, ha1, edge_container._unset_super_edge]
    · simp [sub_edges, h1s, hs, e2, edge_container._unset_super_edge]
  · by_cases e2 : q = a
    · subst e2
      simp [sub_edges, h1b (fun x => e1 x), ha1]
    · simp [sub_edges, h1o q e1 e2, e2, Function.comp_def]
  · subst e1
    simp [super_edge, h1s, hs, edge_container._unset_super_edge]
  · by_cases e2 : q = a
    · subst e2
      simp [super_edge, h1b (fun x => e1 x), ha1, e1]
    · simp [super_edge, h1o q e1 e2, e1, Function.comp_def]

open vertex_proxy.iterator in
theorem vertex_map_fields (w : World V E) (b s : Ptr)
    (hb : (w.vertex b).isSome = true) (hs : (w.vertex s).isSome = true) :
    ∃ w1, map w b s = some w1 ∧
      (∀ q, sub_vertices w1 q = (sub_vertices w q).map fun l => if q = b then l ++ [s] else l) ∧
      (∀ q, super_vertex w1 q = (super_vertex w q).map fun o => if q = s then some b else o) := by
  obtain ⟨cb, hb⟩ := Option.isSome_iff_exists.1 hb
  obtain ⟨cs, hs⟩ := Option.isSome_iff_exists.1 hs
  obtain ⟨w1, h1, h1s, h1b, h1o, _⟩ := vertex_map_spec hb hs
  refine ⟨w1, h1, ?_, ?_⟩ <;> intro q <;> by_cases e1 : q = s
  · subst e1
    by_cases e2 : q = b
    · subst e2
      simp [sub_vertices, h1s, hb, vertex_container._set_super_vertex,
        vertex_container._add_sub_vertex]
    · simp [sub_vertices, h1s, hs, e2, vertex_container._set_super_vertex]
  · by_cases e2 : q = b
    · subst e2
      simp [sub_vertices, h1b (fun x => e1 x), hb, vertex_container._add_sub_vertex]
    · simp [sub_vertices, h1o q e1 e2, e2, Function.comp_def]
  · subst e1
    simp [super_vertex, h1s, hs, vertex_container._set_super_vertex]
  · by_cases e2 : q = b
    · subst e2
      simp [super_vertex, h1b (fun x => e1 x), hb, e1, vertex_container._add_sub_vertex]
    · simp [super_vertex, h1o q e1 e2, e1, Function.comp_def]

theorem edge_isSome_of_sub_edges {w w1 : World V E} {f : Ptr → List Ptr → List Ptr}
    (h : ∀ q, edge_proxy.iterator.sub_edges w1 q =
      (edge_proxy.iterator.sub_edges w q).map fun l => f q l)
    (q : Ptr) (hq : (w.edge q).isSome = true) : (w1.edge q).isSome = true := by
  have := h q
  obtain ⟨c, hc⟩ := Option.isSome_iff_exists.1 hq
  cases h1 : w1.edge q with
  | none => simp [edge_proxy.iterator.sub_edges, h1, hc] at this
  | some _ => rfl

/-! ## Theorems: sequences of member calls -/

theorem countP_range_succ (p : Nat → Bool) (n : Nat) :
    (List.range (n + 1)).countP p = (List.range n).countP p + if p n then 1 else 0 := by
  rw [List.range_succ, List.countP_append]
  simp [List.countP_cons]

theorem countP_range_congr (p q : Nat → Bool) (n : Nat) (h : ∀ k, k < n → p k = q k) :
    (List.range n).countP p = (List.range n).countP q := by
  apply List.countP_congr
  intro x hx
  rw [h x (List.mem_range.1 hx)]

theorem countP_range_remove (p q : Nat → Bool) (n r : Nat) (hr : r < n)
    (h : ∀ k, k ≠ r → q k = p k) (hq : q r = false) :
    (List.range n).countP p = (List.range n).countP q + if p r then 1 else 0 := by
  induction n with
  | zero => omega
  | succ n ih =>
    rw [countP_range_succ, countP_range_succ]
    by_cases e : r = n
    · subst e
      rw [countP_range_congr q p r (fun k hk => h k (by omega)), hq]
      simp
    · rw [ih (by omega), h n (fun x => e x.symm)]
      omega

theorem countP_range_pos (p : Nat → Bool) (n k : Nat) (hk : k < n) (hp : p k = true) :
    0 < (List.range n).countP p :=
  List.countP_pos_iff.2 ⟨k, List.mem_range.2 hk, hp⟩

theorem countP_range_zero (p : Nat → Bool) (n : Nat) (h : ∀ k, k < n → p k = false) :
    (List.range n).countP p = 0 := by
  rw [List.countP_eq_zero]
  intro a ha
  rw [h a (List.mem_range.1 ha)]
  simp

namespace World

variable {V E : Type}

theorem set_vertex_graph (w : World V E) (p : Ptr) (c : vertex_container V) (g : Nat) :
    ((w.set_vertex p c) g).vertices._i = (w g).vertices._i ∧
    ((w.set_vertex p c) g).edges = (w g).edges ∧
    ((w.set_vertex p c) g)._supergraph = (w g)._supergraph ∧
    ((w.set_vertex p c) g)._subgraphs = (w g)._subgraphs := by
  unfold set_vertex
  by_cases h : g = p.1
  · subst h; simp
  · simp [Function.update_noteq h]

theorem set_edge_graph (w : World V E) (p : Ptr) (c : edge_container E) (g : Nat) :
    ((w.set_edge p c) g).edges._i = (w g).edges._i ∧
    ((w.set_edge p c) g).vertices = (w g).vertices ∧
    ((w.set_edge p c) g)._supergraph = (w g)._supergraph ∧
    ((w.set_edge p c) g)._subgraphs = (w g)._subgraphs := by
  unfold set_edge
  by_cases h : g = p.1
  · subst h; simp
  · simp [Function.update_noteq h]

theorem with_vertex_inv {w w1 : World V E} {p : Ptr}
    {f : vertex_container V → Option (vertex_container V)} (h : w.with_vertex p f = some w1) :
    ∃ c c1, w.vertex p = some c ∧ f c = some c1 ∧ w1 = w.set_vertex p c1 := by
  unfold with_vertex at h
  cases hc : w.vertex p with
  | none => simp [hc] at h
  | some c =>
    cases hf : f c with
    | none => simp [hc, hf] at h
    | some c1 =>
      simp [hc, hf] at h
      exact ⟨c, c1, rfl, hf, h.symm⟩

theorem with_edge_inv {w w1 : World V E} {p : Ptr}
    {f : edge_container E → Option (edge_container E)} (h : w.with_edge p f = some w1) :
    ∃ c c1, w.edge p = some c ∧ f c = some c1 ∧ w1 = w.set_edge p c1 := by
  unfold with_edge at h
  cases hc : w.edge p with
  | none => simp [hc] at h
  | some c =>
    cases hf : f c with
    | none => simp [hc, hf] at h
    | some c1 =>
      simp [hc, hf] at h
      exact ⟨c, c1, rfl, hf, h.symm⟩

/-- What a sequence of member calls that returns has done. -/
theorem with_vertices_sound (steps : List (Ptr × (vertex_container V → Option (vertex_container V))))
    (w w1 : World V E) (h : w.with_vertices steps = some w1) :
    (∀ q, w1.vertex q = (w.vertex q).bind (call_chain steps q)) ∧
    (∀ q, (w1.vertex q).isSome = (w.vertex q).isSome) ∧
    (∀ q, w1.edge q = w.edge q) ∧
    (∀ g, (w1 g).vertices._i = (w g).vertices._i ∧ (w1 g).edges = (w g).edges ∧
      (w1 g)._supergraph = (w g)._supergraph ∧ (w1 g)._subgraphs = (w g)._subgraphs) := by
  induction steps generalizing w with
  | nil =>
    simp only [with_vertices, Option.some.injEq] at h
    subst h
    refine ⟨fun q => ?_, fun _ => rfl, fun _ => rfl, fun _ => ⟨rfl, rfl, rfl, rfl⟩⟩
    cases w.vertex q <;> rfl
  | cons s rest ih =>
    simp only [with_vertices] at h
    cases h1 : w.with_vertex s.1 s.2 with
    | none => simp [h1] at h
    | some w2 =>
      rw [h1] at h
      obtain ⟨c, c1, hc, hf, rfl⟩ := with_vertex_inv h1
      obtain ⟨i1, i2, i3, i4⟩ := ih _ h
      refine ⟨fun q => ?_, fun q => ?_, fun q => ?_, fun g => ?_⟩
      · rw [i1, vertex_set_vertex]
        by_cases e : q = s.1
        · subst e; simp [hc, call_chain, hf]
        · cases hq : w.vertex q <;> simp [e, call_chain]
      · rw [i2, vertex_set_vertex]
        by_cases e : q = s.1
        · subst e; simp [hc]
        · simp [e]
      · rw [i3, edge_set_vertex]
      · obtain ⟨j1, j2, j3, j4⟩ := i4 g
        obtain ⟨k1, k2, k3, k4⟩ := set_vertex_graph w s.1 c1 g
        exact ⟨j1.trans k1, j2.trans k2, j3.trans k3, j4.trans k4⟩

/-- A sequence of member calls returns when, at each pointer used, the whole
chain of calls does. -/
theorem with_vertices_complete
    (steps : List (Ptr × (vertex_container V → Option (vertex_container V))))
    (w : World V E)
    (h : ∀ s ∈ steps, ∃ c, w.vertex s.1 = some c ∧ (call_chain steps s.1 c).isSome = true) :
    ∃ w1, w.with_vertices steps = some w1 := by
  induction steps generalizing w with
  | nil => exact ⟨w, rfl⟩
  | cons s rest ih =>
    obtain ⟨c, hc, hch⟩ := h s (List.mem_cons_self _ _)
    simp only [call_chain, if_true] at hch
    cases hf : s.2 c with
    | none => simp [hf] at hch
    | some c1 =>
      have h1 : w.with_vertex s.1 s.2 = some (w.set_vertex s.1 c1) := with_vertex_some hc hf
      have h2 : ∀ t ∈ rest, ∃ c, (w.set_vertex s.1 c1).vertex t.1 = some c ∧
          (call_chain rest t.1 c).isSome = true := by
        intro t ht
        obtain ⟨ct, hct, hcht⟩ := h t (List.mem_cons_of_mem _ ht)
        rw [vertex_set_vertex]
        by_cases e : t.1 = s.1
        · rw [e] at hct hcht ⊢
          rw [hc] at hct
          cases hct
          simp only [call_chain, if_true, hf, Option.some_bind] at hcht
          exact ⟨c1, by simp [hc], hcht⟩
        · simp only [call_chain, e, if_false, Option.some_bind] at hcht
          exact ⟨ct, by simp [e, hct], hcht⟩
      obtain ⟨w1, hw1⟩ := ih _ h2
      exact ⟨w1, by simp [with_vertices, h1, hw1]⟩

theorem with_vertices_append
    (l1 l2 : List (Ptr × (vertex_container V → Option (vertex_container V)))) (w : World V E) :
    w.with_vertices (l1 ++ l2) = (w.with_vertices l1).bind fun w1 => w1.with_vertices l2 := by
  induction l1 generalizing w with
  | nil => simp [with_vertices]
  | cons s rest ih =>
    simp only [List.cons_append, with_vertices]
    cases w.with_vertex s.1 s.2 with
    | none => rfl
    | some w1 => simp [ih]

end World

/-! ## Theorems: the four store operations -/

variable {V E : Type}

theorem vertex_update_edges (w : World V E) (g : Nat) (ep : edge_proxy E) (q : Ptr) :
    World.vertex (Function.update w g { w g with edges := ep }) q = w.vertex q := by
  rw [World.vertex_update]
  by_cases h : q.1 = g
  · simp [h, World.vertex]
  · simp [h]

theorem edge_update_vertices (w : World V E) (g : Nat) (vp : vertex_proxy V) (q : Ptr) :
    World.edge (Function.update w g { w g with vertices := vp }) q = w.edge q := by
  rw [World.edge_update]
  by_cases h : q.1 = g
  · simp [h, World.edge]
  · simp [h]

theorem vertex_add_spec (w : World V E) (g : Nat) (x : V) :
    (vertex_proxy.add w g x).2 = (g, (w g).vertices._i) ∧
    (∀ q, (vertex_proxy.add w g x).1.vertex q =
      if q = (g, (w g).vertices._i) then some ((w.vertex q).getD (vertex_container.init x))
      else w.vertex q) ∧
    (∀ q, (vertex_proxy.add w g x).1.edge q = w.edge q) ∧
    ((vertex_proxy.add w g x).1 g).vertices._i = (w g).vertices._i + 1 ∧
    ((vertex_proxy.add w g x).1 g).edges = (w g).edges ∧
    ((vertex_proxy.add w g x).1 g)._supergraph = (w g)._supergraph ∧
    ((vertex_proxy.add w g x).1 g)._subgraphs = (w g)._subgraphs ∧
    (∀ g1, g1 ≠ g → (vertex_proxy.add w g x).1 g1 = w g1) := by
  refine ⟨rfl, fun q => ?_, fun q => ?_, ?_, ?_, ?_, ?_, fun g1 h => ?_⟩
  · unfold vertex_proxy.add
    simp only
    rw [World.vertex_update]
    by_cases h : q.1 = g
    · by_cases h2 : q.2 = (w g).vertices._i
      · have : q = (g, (w g).vertices._i) := Prod.ext h h2
        subst this
        simp [std_map.find_insert, World.vertex]
      · have : ¬ q = (g, (w g).vertices._i) := fun e => h2 (by rw [e])
        simp [h, h2, this, std_map.find_insert, World.vertex]
    · have : ¬ q = (g, (w g).vertices._i) := fun e => h (by rw [e])
      simp [h, this]
  · exact edge_update_vertices w g _ q
  · simp [vertex_proxy.add]
  · simp [vertex_proxy.add]
  · simp [vertex_proxy.add]
  · simp [vertex_proxy.add]
  · simp [vertex_proxy.add, Function.update_noteq h]

theorem vertex_remove_spec (w : World V E) (g : Nat) (pos : Ptr) (c : vertex_container V)
    (hg : pos.1 = g) (hc : w.vertex pos = some c) :
    (c._neighbors ≠ [] → vertex_proxy.remove w g pos =
      .threw w "vertex_proxy::remove(): vertex still has neighbors.") ∧
    (c._neighbors = [] → ∃ w1 it, vertex_proxy.remove w g pos = .ok w1 it ∧
      (∀ q, w1.vertex q = if q = pos then none else w.vertex q) ∧
      (∀ q, w1.edge q = w.edge q) ∧
      (w1 g).vertices._i = (w g).vertices._i ∧ (w1 g).edges = (w g).edges ∧
      (w1 g)._supergraph = (w g)._supergraph ∧ (w1 g)._subgraphs = (w g)._subgraphs ∧
      (∀ g1, g1 ≠ g → w1 g1 = w g1)) := by
  constructor
  · intro hn
    have : c._neighbors.isEmpty = false := by
      cases h : c._neighbors with
      | nil => exact absurd h hn
      | cons _ _ => rfl
    simp [vertex_proxy.remove, hg, hc, vertex_proxy.iterator.has_neighbors, this]
  · intro hn
    refine ⟨Function.update w g
        { w g with vertices :=
            { (w g).vertices with _vertices := (w g).vertices._vertices.erase pos.2 } },
      ((w g).vertices._vertices.next pos.2).map fun k => (g, k),
      by simp [vertex_proxy.remove, hg, hc, vertex_proxy.iterator.has_neighbors, hn],
      fun q => ?_, fun q => ?_, ?_, ?_, ?_, ?_, fun g1 h => ?_⟩
    · rw [World.vertex_update]
      by_cases h : q.1 = g
      · by_cases h2 : q.2 = pos.2
        · have : q = pos := Prod.ext (h.trans hg.symm) h2
          subst this
          simp [h, std_map.find_erase]
        · have : ¬ q = pos := fun e => h2 (by rw [e])
          simp [h, h2, this, std_map.find_erase, World.vertex]
      · have : ¬ q = pos := fun e => h (by rw [e, hg])
        simp [h, this]
    · exact edge_update_vertices w g _ q
    · simp
    · simp
    · simp
    · simp
    · simp [Function.update_noteq h]

theorem add_neighbor_eq (w : World V E) (neighbor vertex : Ptr)
    (h : (w.vertex neighbor).isSome = true) :
    vertex_proxy._add_neighbor w neighbor vertex =
      w.with_vertex vertex fun c => some (c._add_neighbor neighbor) := by
  obtain ⟨c, hc⟩ := Option.isSome_iff_exists.1 h
  simp [vertex_proxy._add_neighbor, hc]

theorem set_neighbors_eq (w : World V E) (u v : Ptr)
    (hu : (w.vertex u).isSome = true) (hv : (w.vertex v).isSome = true) :
    edge_proxy._set_neighbors_bidirectional w u v =
      w.with_vertices [(v, fun c => some (c._add_neighbor u)), (u, fun c => some (c._add_neighbor v))] := by
  unfold edge_proxy._set_neighbors_bidirectional
  rw [add_neighbor_eq w u v hu]
  simp only [World.with_vertices]
  cases h : w.with_vertex v fun c => some (c._add_neighbor u) with
  | none => rfl
  | some w1 =>
    obtain ⟨c, c1, _, _, rfl⟩ := World.with_vertex_inv h
    have hv1 : ((w.set_vertex v c1).vertex v).isSome = true := by
      rw [World.vertex_set_vertex]
      obtain ⟨cv, hcv⟩ := Option.isSome_iff_exists.1 hv
      simp [hcv]
    simp only [Option.some_bind]
    rw [add_neighbor_eq _ v u hv1]
    cases (w.set_vertex v c1).with_vertex u fun c => some (c._add_neighbor v) <;> rfl

theorem set_edges_eq (w : World V E) (u v e : Ptr) (he : (w.edge e).isSome = true) :
    edge_proxy._set_edges_bidirectional w u v e =
      w.with_vertices [(u, fun c => some (c._add_out_edge e)), (v, fun c => some (c._add_in_edge e)),
        (v, fun c => some (c._add_out_edge e)), (u, fun c => some (c._add_in_edge e))] := by
  obtain ⟨c, hc⟩ := Option.isSome_iff_exists.1 he
  simp only [edge_proxy._set_edges_bidirectional, hc, World.with_vertices]
  congr 1; funext w1
  congr 1; funext w2
  congr 1; funext w3
  cases w3.with_vertex u fun c => some (c._add_in_edge e) <;> rfl

theorem unset_neighbors_eq (w : World V E) (e f t : Ptr) (c : edge_container E)
    (hc : w.edge e = some c) (hf : c._from = some f) (ht : c._to = some t) :
    edge_proxy._unset_neighbors_bidirectional w e =
      w.with_vertices [(f, fun c => c._remove_neighbor t), (t, fun c => c._remove_neighbor f)] := by
  simp only [edge_proxy._unset_neighbors_bidirectional, hc, hf, ht, World.with_vertices]
  congr 1; funext w1
  cases w1.with_vertex t fun c => c._remove_neighbor f <;> rfl

theorem unset_edges_eq (w : World V E) (e f t : Ptr) (c : edge_container E)
    (hc : w.edge e = some c) (hf : c._from = some f) (ht : c._to = some t) :
    edge_proxy._unset_edges_bidirectional w e =
      w.with_vertices [(f, fun c => c._remove_in_edge e), (t, fun c => c._remove_in_edge e),
        (f, fun c => c._remove_out_edge e), (t, fun c => c._remove_out_edge e)] := by
  simp only [edge_proxy._unset_edges_bidirectional, hc, hf, ht, World.with_vertices]
  congr 1; funext w1
  congr 1; funext w2
  congr 1; funext w3
  cases w3.with_vertex t fun c => c._remove_out_edge e <;> rfl

/-- The store operation `edges.remove(e)` is the six member calls on the two end
vertices, then the erasure of the node. -/
theorem edge_remove_eq (w : World V E) (g : Nat) (e f t : Ptr) (c : edge_container E)
    (hg : e.1 = g) (hc : w.edge e = some c) (hf : c._from = some f) (ht : c._to = some t) :
    edge_proxy.remove w g e =
      (w.with_vertices (remove_steps f t e)).map fun w2 =>
        (Function.update w2 g
          { w2 g with edges := { (w2 g).edges with _edges := (w2 g).edges._edges.erase e.2 } },
         ((w2 g).edges._edges.next e.2).map fun k => (g, k)) := by
  have hsplit : (remove_steps f t e : List (Ptr × (vertex_container V → Option (vertex_container V)))) =
      [(f, fun c => c._remove_neighbor t), (t, fun c => c._remove_neighbor f)] ++
      [(f, fun c => c._remove_in_edge e), (t, fun c => c._remove_in_edge e),
        (f, fun c => c._remove_out_edge e), (t, fun c => c._remove_out_edge e)] := rfl
  rw [hsplit, World.with_vertices_append]
  simp only [edge_proxy.remove, hg, ne_eq, not_true_eq_false, if_false]
  rw [unset_neighbors_eq w e f t c hc hf ht]
  cases h1 : w.with_vertices [(f, fun c => c._remove_neighbor t), (t, fun c => c._remove_neighbor f)] with
  | none => rfl
  | some w1 =>
    have he1 : w1.edge e = some c := by
      rw [(World.with_vertices_sound _ w w1 h1).2.2.1 e, hc]
    simp only [Option.some_bind]
    rw [unset_edges_eq w1 e f t c he1 hf ht]
    cases w1.with_vertices [(f, fun c => c._remove_in_edge e), (t, fun c => c._remove_in_edge e),
        (f, fun c => c._remove_out_edge e), (t, fun c => c._remove_out_edge e)] <;> rfl

theorem edge_remove_none (w : World V E) (g : Nat) (e : Ptr)
    (h : e.1 ≠ g ∨ w.edge e = none ∨
      (∃ c, w.edge e = some c ∧ (c._from = none ∨ c._to = none))) :
    edge_proxy.remove w g e = none := by
  rcases h with h | h | ⟨c, hc, h⟩
  · simp [edge_proxy.remove, h]
  · simp [edge_proxy.remove, edge_proxy._unset_neighbors_bidirectional, h]
  · rcases h with h | h
    · simp [edge_proxy.remove, edge_proxy._unset_neighbors_bidirectional, hc, h]
    · cases hf : c._from <;>
        simp [edge_proxy.remove, edge_proxy._unset_neighbors_bidirectional, hc, h, hf]

theorem edge_add_none (w : World V E) (g : Nat) (u v : Ptr) (x : E)
    (h : w.vertex u = none ∨ w.vertex v = none) : edge_proxy.add w g u v x = none := by
  unfold edge_proxy.add edge_proxy._connect
  simp only [vertex_update_edges]
  rcases h with h | h
  · simp [h]
  · cases hu : w.vertex u <;> simp [h]

theorem World.with_edge_twice_graph {w w1 : World V E} {b s : Ptr}
    {F1 F2 : edge_container E → Option (edge_container E)}
    (h : ((w.with_edge b F1).bind fun w1 => w1.with_edge s F2) = some w1) :
    (∀ g, (w1 g).edges._i = (w g).edges._i ∧ (w1 g).vertices = (w g).vertices ∧
      (w1 g)._supergraph = (w g)._supergraph ∧ (w1 g)._subgraphs = (w g)._subgraphs) ∧
    (∀ g, g ≠ b.1 → g ≠ s.1 → w1 g = w g) := by
  cases ha : w.with_edge b F1 with
  | none => simp [ha] at h
  | some wa =>
    rw [ha] at h
    simp only [Option.some_bind] at h
    obtain ⟨_, ca, _, _, rfl⟩ := World.with_edge_inv ha
    obtain ⟨_, cb, _, _, rfl⟩ := World.with_edge_inv h
    refine ⟨fun g => ?_, fun g h1 h2 => ?_⟩
    · obtain ⟨a1, a2, a3, a4⟩ := World.set_edge_graph w b ca g
      obtain ⟨b1, b2, b3, b4⟩ := World.set_edge_graph (w.set_edge b ca) s cb g
      exact ⟨b1.trans a1, b2.trans a2, b3.trans a3, b4.trans a4⟩
    · simp [World.set_edge, Function.update_noteq h1, Function.update_noteq h2]

/-- What `edges.add(u, v, x)` does, for live `u` and `v`. -/
theorem edge_add_spec (w : World V E) (g : Nat) (u v : Ptr) (x : E)
    (hu : (w.vertex u).isSome = true) (hv : (w.vertex v).isSome = true) :
    ∃ w1, edge_proxy.add w g u v x = some (w1, (g, (w g).edges._i)) ∧
      (∀ q, w1.edge q =
        if q = (g, (w g).edges._i) then
          some ((((w.edge q).getD (edge_container.init x))._set_from u)._set_to v)
        else w.edge q) ∧
      (∀ q, w1.vertex q = (w.vertex q).bind (call_chain (add_steps u v (g, (w g).edges._i)) q)) ∧
      (∀ q, (w1.vertex q).isSome = (w.vertex q).isSome) ∧
      (w1 g).edges._i = (w g).edges._i + 1 ∧
      (∀ g1, (w1 g1).vertices._i = (w g1).vertices._i ∧
        (w1 g1)._supergraph = (w g1)._supergraph ∧ (w1 g1)._subgraphs = (w g1)._subgraphs) ∧
      (∀ g1, g1 ≠ g → (w1 g1).edges = (w g1).edges) := by
  obtain ⟨cu, hcu⟩ := Option.isSome_iff_exists.1 hu
  obtain ⟨cv, hcv⟩ := Option.isSome_iff_exists.1 hv
  -- the insertion
  obtain ⟨w0, hw0⟩ : ∃ w0 : World V E, (Function.update w g
    { w g with edges :=
        { _i := (w g).edges._i + 1,
          _edges := (w g).edges._edges.insert (w g).edges._i (edge_container.init x) } }) = w0 :=
    ⟨_, rfl⟩
  have hadd : edge_proxy.add w g u v x =
      ((edge_proxy._connect w0 u v (g, (w g).edges._i)).bind fun w1 =>
        (edge_proxy._set_neighbors_bidirectional w1 u v).bind fun w2 =>
        (edge_proxy._set_edges_bidirectional w2 u v (g, (w g).edges._i)).bind fun w3 =>
        some (w3, (g, (w g).edges._i))) := by
    rw [← hw0]; rfl
  have h0v : ∀ q, w0.vertex q = w.vertex q := by
    intro q; rw [← hw0]; exact vertex_update_edges w g _ q
  have h0e : ∀ q, w0.edge q =
      if q = (g, (w g).edges._i) then some ((w.edge q).getD (edge_container.init x))
      else w.edge q := by
    intro q
    rw [← hw0, World.edge_update]
    by_cases h : q.1 = g
    · by_cases h2 : q.2 = (w g).edges._i
      · have : q = (g, (w g).edges._i) := Prod.ext h h2
        subst this
        simp [std_map.find_insert, World.edge]
      · have : ¬ q = (g, (w g).edges._i) := fun e => h2 (by rw [e])
        simp [h, h2, this, std_map.find_insert, World.edge]
    · have : ¬ q = (g, (w g).edges._i) := fun e => h (by rw [e])
      simp [h, this]
  have h0g : (w0 g).edges._i = (w g).edges._i + 1 ∧ (w0 g).vertices = (w g).vertices ∧
      (w0 g)._supergraph = (w g)._supergraph ∧ (w0 g)._subgraphs = (w g)._subgraphs := by
    rw [← hw0]; simp
  have h0o : ∀ g1, g1 ≠ g → w0 g1 = w g1 := by
    intro g1 h; rw [← hw0]; simp [Function.update_noteq h]
  -- _connect
  have hi0 : w0.edge (g, (w g).edges._i) =
      some ((w.edge (g, (w g).edges._i)).getD (edge_container.init x)) := by
    rw [h0e, if_pos rfl]
  obtain ⟨w1, h1, h1i, _, h1o, h1v⟩ := World.with_edge_twice
    (fun c => some (c._set_from u)) (fun c => c._set_to v) hi0 hi0 rfl
  have hconn : edge_proxy._connect w0 u v (g, (w g).edges._i) = some w1 := by
    simp only [edge_proxy._connect, h0v, hcu, hcv]
    exact h1
  obtain ⟨h1g, h1oth0⟩ := World.with_edge_twice_graph h1
  have h1oth : ∀ g1, g1 ≠ g → (w1 g1).edges = (w0 g1).edges := by
    intro g1 hg1
    rw [h1oth0 g1 hg1 hg1]
  -- the six member calls
  have hlive : ∀ q, (w.vertex q).isSome = true →
      ∃ c, w1.vertex q = some c ∧
        (call_chain (add_steps u v (g, (w g).edges._i)) q c).isSome = true := by
    intro q hq
    obtain ⟨c, hc⟩ := Option.isSome_iff_exists.1 hq
    refine ⟨c, by rw [h1v, h0v, hc], ?_⟩
    simp only [call_chain, add_steps]
    split_ifs <;> rfl
  obtain ⟨w3, h3⟩ := World.with_vertices_complete (add_steps u v (g, (w g).edges._i)) w1 (by
    intro s hs
    simp only [add_steps, List.mem_cons, List.mem_singleton, List.not_mem_nil, or_false] at hs
    rcases hs with rfl | rfl | rfl | rfl | rfl | rfl
    · exact hlive _ hv
    · exact hlive _ hu
    · exact hlive _ hu
    · exact hlive _ hv
    · exact hlive _ hv
    · exact hlive _ hu)
  obtain ⟨s1, s2, s3, s4⟩ := World.with_vertices_sound _ w1 w3 h3
  have hsplit : (add_steps u v (g, (w g).edges._i) :
      List (Ptr × (vertex_container V → Option (vertex_container V)))) =
      [(v, fun c => some (c._add_neighbor u)), (u, fun c => some (c._add_neighbor v))] ++
      [(u, fun c => some (c._add_out_edge (g, (w g).edges._i))),
       (v, fun c => some (c._add_in_edge (g, (w g).edges._i))),
       (v, fun c => some (c._add_out_edge (g, (w g).edges._i))),
       (u, fun c => some (c._add_in_edge (g, (w g).edges._i)))] := rfl
  have h3b := h3
  rw [hsplit, World.with_vertices_append] at h3b
  cases h2 : w1.with_vertices
      [(v, fun c => some (c._add_neighbor u)), (u, fun c => some (c._add_neighbor v))] with
  | none => simp [h2] at h3b
  | some w2 =>
    rw [h2] at h3b
    simp only [Option.some_bind] at h3b
    have hu1 : (w1.vertex u).isSome = true := by rw [h1v, h0v]; exact hu
    have hv1 : (w1.vertex v).isSome = true := by rw [h1v, h0v]; exact hv
    have he2 : (w2.edge (g, (w g).edges._i)).isSome = true := by
      rw [(World.with_vertices_sound _ w1 w2 h2).2.2.1, h1i]; rfl
    refine ⟨w3, ?_, fun q => ?_, fun q => ?_, fun q => ?_, ?_, fun g1 => ?_, fun g1 hg1 => ?_⟩
    · rw [hadd, hconn]
      simp only [Option.some_bind]
      rw [set_neighbors_eq w1 u v hu1 hv1, h2]
      simp only [Option.some_bind]
      rw [set_edges_eq w2 u v _ he2, h3b]
      rfl
    · rw [s3]
      by_cases h : q = (g, (w g).edges._i)
      · subst h
        rw [h1i, if_pos rfl]
        simp
      · rw [h1o q h h, h0e, if_neg h, if_neg h]
    · rw [s1, h1v, h0v]
    · rw [s2, h1v, h0v]
    · rw [(s4 g).2.1, (h1g g).1, h0g.1]
    · by_cases hg1 : g1 = g
      · subst hg1
        exact ⟨by rw [(s4 g1).1, (h1g g1).2.1, h0g.2.1],
          by rw [(s4 g1).2.2.1, (h1g g1).2.2.1, h0g.2.2.1],
          by rw [(s4 g1).2.2.2, (h1g g1).2.2.2, h0g.2.2.2]⟩
      · exact ⟨by rw [(s4 g1).1, (h1g g1).2.1, h0o g1 hg1],
          by rw [(s4 g1).2.2.1, (h1g g1).2.2.1, h0o g1 hg1],
          by rw [(s4 g1).2.2.2, (h1g g1).2.2.2, h0o g1 hg1]⟩
    · rw [(s4 g1).2.1, h1oth g1 hg1, h0o g1 hg1]

/-! ## Theorems: what the member calls make of one record -/

theorem add_chain (u v e q : Ptr) (c : vertex_container V) :
    call_chain (add_steps u v e) q c = some
      { c with
        _neighbors := c._neighbors ++ (if q = v then [u] else []) ++ (if q = u then [v] else []),
        _in_edges := c._in_edges ++ (if q = v then [e] else []) ++ (if q = u then [e] else []),
        _out_edges := c._out_edges ++ (if q = u then [e] else []) ++ (if q = v then [e] else []) } := by
  cases c
  by_cases h1 : q = u
  · subst h1
    by_cases h2 : q = v
    · subst h2
      simp [call_chain, add_steps, vertex_container._add_neighbor,
        vertex_container._add_in_edge, vertex_container._add_out_edge]
    · simp [call_chain, add_steps, h2, vertex_container._add_neighbor,
        vertex_container._add_in_edge, vertex_container._add_out_edge]
  · by_cases h2 : q = v
    · subst h2
      simp [call_chain, add_steps, h1, vertex_container._add_neighbor,
        vertex_container._add_in_edge, vertex_container._add_out_edge]
    · simp [call_chain, add_steps, h1, h2, vertex_container._add_neighbor,
        vertex_container._add_in_edge, vertex_container._add_out_edge]

theorem vector_erase_find_eq_some {l l1 : List Ptr} {x : Ptr}
    (h : vector_erase_find l x = some l1) : x ∈ l ∧ l1 = l.erase x := by
  unfold vector_erase_find at h
  split_ifs at h with hm
  exact ⟨hm, (Option.some.inj h).symm⟩

theorem count_erase_add (l : List Ptr) (x y : Ptr) (h : x ∈ l) :
    l.count y = (l.erase x).count y + if y = x then 1 else 0 := by
  rw [List.count_erase]
  by_cases e : y = x
  · subst e
    have := List.count_pos_iff.2 h
    simp
    omega
  · have e2 : ¬ x = y := fun h => e h.symm
    simp [e, e2]

theorem step_remove_neighbor {q p n : Ptr} {c c1 : vertex_container V}
    (h : (if q = p then c._remove_neighbor n else some c) = some c1) :
    (∀ x, c._neighbors.count x = c1._neighbors.count x + if q = p ∧ x = n then 1 else 0) ∧
    c1._in_edges = c._in_edges ∧ c1._out_edges = c._out_edges ∧ c1._element = c._element ∧
    c1._super_vertex = c._super_vertex ∧ c1._sub_vertices = c._sub_vertices := by
  by_cases e : q = p
  · rw [if_pos e] at h
    simp only [vertex_container._remove_neighbor, Option.map_eq_some'] at h
    obtain ⟨l, hl, rfl⟩ := h
    obtain ⟨hm, rfl⟩ := vector_erase_find_eq_some hl
    refine ⟨fun x => ?_, rfl, rfl, rfl, rfl, rfl⟩
    simp only [e, true_and]
    exact count_erase_add _ _ _ hm
  · rw [if_neg e] at h
    cases h
    simp [e]

theorem step_remove_in_edge {q p n : Ptr} {c c1 : vertex_container V}
    (h : (if q = p then c._remove_in_edge n else some c) = some c1) :
    (∀ x, c._in_edges.count x = c1._in_edges.count x + if q = p ∧ x = n then 1 else 0) ∧
    c1._neighbors = c._neighbors ∧ c1._out_edges = c._out_edges ∧ c1._element = c._element ∧
    c1._super_vertex = c._super_vertex ∧ c1._sub_vertices = c._sub_vertices := by
  by_cases e : q = p
  · rw [if_pos e] at h
    simp only [vertex_container._remove_in_edge, Option.map_eq_some'] at h
    obtain ⟨l, hl, rfl⟩ := h
    obtain ⟨hm, rfl⟩ := vector_erase_find_eq_some hl
    refine ⟨fun x => ?_, rfl, rfl, rfl, rfl, rfl⟩
    simp only [e, true_and]
    exact count_erase_add _ _ _ hm
  · rw [if_neg e] at h
    cases h
    simp [e]

theorem step_remove_out_edge {q p n : Ptr} {c c1 : vertex_container V}
    (h : (if q = p then c._remove_out_edge n else some c) = some c1) :
    (∀ x, c._out_edges.count x = c1._out_edges.count x + if q = p ∧ x = n then 1 else 0) ∧
    c1._neighbors = c._neighbors ∧ c1._in_edges = c._in_edges ∧ c1._element = c._element ∧
    c1._super_vertex = c._super_vertex ∧ c1._sub_vertices = c._sub_vertices := by
  by_cases e : q = p
  · rw [if_pos e] at h
    simp only [vertex_container._remove_out_edge, Option.map_eq_some'] at h
    obtain ⟨l, hl, rfl⟩ := h
    obtain ⟨hm, rfl⟩ := vector_erase_find_eq_some hl
    refine ⟨fun x => ?_, rfl, rfl, rfl, rfl, rfl⟩
    simp only [e, true_and]
    exact count_erase_add _ _ _ hm
  · rw [if_neg e] at h
    cases h
    simp [e]

/-- What the six member calls of `edges.remove` have made of a record. -/
theorem remove_chain (f t e q : Ptr) (c c1 : vertex_container V)
    (h : call_chain (remove_steps f t e) q c = some c1) :
    (∀ x, c._neighbors.count x = c1._neighbors.count x +
      (if q = f ∧ x = t then 1 else 0) + (if q = t ∧ x = f then 1 else 0)) ∧
    (∀ x, c._in_edges.count x = c1._in_edges.count x +
      (if q = f ∧ x = e then 1 else 0) + (if q = t ∧ x = e then 1 else 0)) ∧
    (∀ x, c._out_edges.count x = c1._out_edges.count x +
      (if q = f ∧ x = e then 1 else 0) + (if q = t ∧ x = e then 1 else 0)) ∧
    c1._element = c._element ∧ c1._super_vertex = c._super_vertex ∧
    c1._sub_vertices = c._sub_vertices := by
  simp only [call_chain, remove_steps, Option.bind_eq_some] at h
  obtain ⟨a1, h1, a2, h2, a3, h3, a4, h4, a5, h5, a6, h6, h7⟩ := h
  cases h7
  obtain ⟨n1, i1, o1, e1, p1, s1⟩ := step_remove_neighbor h1
  obtain ⟨n2, i2, o2, e2, p2, s2⟩ := step_remove_neighbor h2
  obtain ⟨i3, n3, o3, e3, p3, s3⟩ := step_remove_in_edge h3
  obtain ⟨i4, n4, o4, e4, p4, s4⟩ := step_remove_in_edge h4
  obtain ⟨o5, n5, i5, e5, p5, s5⟩ := step_remove_out_edge h5
  obtain ⟨o6, n6, i6, e6, p6, s6⟩ := step_remove_out_edge h6
  refine ⟨fun x => ?_, fun x => ?_, fun x => ?_, ?_, ?_, ?_⟩
  · have := n1 x; have := n2 x
    rw [n6, n5, n4, n3]; omega
  · have := i3 x; have := i4 x
    rw [i1, i2] at *
    rw [i6, i5]; omega
  · have := o5 x; have := o6 x
    rw [o1, o2, o3, o4] at *
    omega
  · rw [e6, e5, e4, e3, e2, e1]
  · rw [p6, p5, p4, p3, p2, p1]
  · rw [s6, s5, s4, s3, s2, s1]

/-! ## Theorems: the bookkeeping stays consistent -/

theorem edges_between_congr (w w1 : World V E) (g : Nat) (a b : Ptr)
    (hi : (w1 g).edges._i = (w g).edges._i) (he : ∀ k, w1.edge (g, k) = w.edge (g, k)) :
    edges_between w1 g a b = edges_between w g a b := by
  unfold edges_between
  rw [hi]
  exact countP_range_congr _ _ _ fun k _ => by rw [he]

theorem incidence_congr (w w1 : World V E) (v p : Ptr) (he : w1.edge p = w.edge p) :
    incidence w1 v p = incidence w v p := by
  unfold incidence
  rw [he]

theorem edges_between_pos (w : World V E) (g k : Nat) (a b : Ptr) (c : edge_container E)
    (hk : k < (w g).edges._i) (hc : w.edge (g, k) = some c)
    (hf : c._from = some a) (ht : c._to = some b) : 0 < edges_between w g a b := by
  apply countP_range_pos _ _ k hk
  simp [edge_joins, hc, hf, ht]

theorem edges_between_dead (w : World V E) (g : Nat) (hw : Consistent w g) (v q : Ptr)
    (hv : v.1 = g → w.vertex v = none) :
    edges_between w g v q = 0 ∧ edges_between w g q v = 0 := by
  constructor <;>
  · apply countP_range_zero
    intro k _
    cases hc : w.edge (g, k) with
    | none => rfl
    | some c =>
      obtain ⟨a, b, hf, ht, la, lb⟩ := hw.ends k c hc
      simp only [edge_joins, hf, ht, decide_eq_false_iff_not, not_and]
      first
      | intro h1 _
        have h2 : v = (g, a) := (Option.some.inj h1).symm
        rw [h2] at hv
        rw [hv rfl] at la
        cases la
      | intro _ h1
        have h2 : v = (g, b) := (Option.some.inj h1).symm
        rw [h2] at hv
        rw [hv rfl] at lb
        cases lb

theorem incidence_dead (w : World V E) (g : Nat) (hw : Consistent w g) (v p : Ptr)
    (hv : v.1 = g → w.vertex v = none) (hp : p.1 = g) : incidence w v p = 0 := by
  unfold incidence
  cases hc : w.edge p with
  | none => rfl
  | some c =>
    have hp2 : p = (g, p.2) := Prod.ext hp rfl
    rw [hp2] at hc
    obtain ⟨a, b, hf, ht, la, lb⟩ := hw.ends p.2 c hc
    have h1 : ¬ (g, a) = v := by
      intro h; rw [← h] at hv; rw [hv rfl] at la; cases la
    have h2 : ¬ (g, b) = v := by
      intro h; rw [← h] at hv; rw [hv rfl] at lb; cases lb
    simp [hf, ht, h1, h2]

theorem consistent_init (w : World V E) (g : Nat) (h : w g = Graph.init) : Consistent w g := by
  have hv : ∀ k, w.vertex (g, k) = none := by
    intro k; simp [World.vertex, h, Graph.init, std_map.find_empty]
  have he : ∀ k, w.edge (g, k) = none := by
    intro k; simp [World.edge, h, Graph.init, std_map.find_empty]
  refine ⟨?_, ?_, ?_, ?_, ?_, ?_⟩
  · intro k c hc; rw [hv] at hc; cases hc
  · intro k c hc; rw [he] at hc; cases hc
  · intro k c hc; rw [he] at hc; cases hc
  · intro k c hc; rw [hv] at hc; cases hc
  · intro k c hc; rw [hv] at hc; cases hc
  · intro k c hc; rw [hv] at hc; cases hc

theorem consistent_vertex_add (w : World V E) (g : Nat) (x : V) (hw : Consistent w g) :
    Consistent (vertex_proxy.add w g x).1 g := by
  obtain ⟨_, hv, he, hi, hed, _, _, _⟩ := vertex_add_spec w g x
  have hnew : w.vertex (g, (w g).vertices._i) = none := by
    cases h : w.vertex (g, (w g).vertices._i) with
    | none => rfl
    | some c => exact absurd (hw.vkeys _ c h) (lt_irrefl _)
  have hbt : ∀ a b, edges_between (vertex_proxy.add w g x).1 g a b = edges_between w g a b :=
    fun a b => edges_between_congr _ _ g a b (by rw [hed]) (fun k => he _)
  have hinc : ∀ v p, incidence (vertex_proxy.add w g x).1 v p = incidence w v p :=
    fun v p => incidence_congr _ _ v p (he p)
  have hlive : ∀ q, (w.vertex q).isSome = true →
      ((vertex_proxy.add w g x).1.vertex q).isSome = true := by
    intro q hq
    rw [hv]
    split_ifs
    · rfl
    · exact hq
  have hrec : ∀ a c, (vertex_proxy.add w g x).1.vertex (g, a) = some c →
      (a = (w g).vertices._i ∧ c = vertex_container.init x) ∨
      (a ≠ (w g).vertices._i ∧ w.vertex (g, a) = some c) := by
    intro a c hc
    rw [hv] at hc
    by_cases e : a = (w g).vertices._i
    · subst e
      rw [if_pos rfl, hnew] at hc
      exact Or.inl ⟨rfl, (Option.some.inj hc).symm⟩
    · have : ¬ (g, a) = (g, (w g).vertices._i) := fun h => e (Prod.ext_iff.1 h).2
      rw [if_neg this] at hc
      exact Or.inr ⟨e, hc⟩
  refine ⟨?_, ?_, ?_, ?_, ?_, ?_⟩
  · intro k c hc
    rw [hi]
    rcases hrec k c hc with ⟨rfl, _⟩ | ⟨_, h⟩
    · omega
    · have := hw.vkeys k c h; omega
  · intro k c hc
    rw [he] at hc
    rw [hed]
    exact hw.ekeys k c hc
  · intro k c hc
    rw [he] at hc
    obtain ⟨a, b, hf, ht, la, lb⟩ := hw.ends k c hc
    exact ⟨a, b, hf, ht, hlive _ la, hlive _ lb⟩
  · intro a c hc q
    rw [hbt, hbt]
    rcases hrec a c hc with ⟨rfl, rfl⟩ | ⟨_, h⟩
    · obtain ⟨z1, z2⟩ := edges_between_dead w g hw (g, (w g).vertices._i) q (fun _ => hnew)
      rw [z1, z2]
      rfl
    · exact hw.nbrs a c h q
  · intro a c hc p
    rw [hinc]
    rcases hrec a c hc with ⟨rfl, rfl⟩ | ⟨_, h⟩
    · split_ifs with hp
      · rw [incidence_dead w g hw _ p (fun _ => hnew) hp]; rfl
      · rfl
    · exact hw.ins a c h p
  · intro a c hc p
    rw [hinc]
    rcases hrec a c hc with ⟨rfl, rfl⟩ | ⟨_, h⟩
    · split_ifs with hp
      · rw [incidence_dead w g hw _ p (fun _ => hnew) hp]; rfl
      · rfl
    · exact hw.outs a c h p

theorem consistent_vertex_remove (w w1 : World V E) (g k : Nat) (it : Option Ptr)
    (hw : Consistent w g) (h : vertex_proxy.remove w g (g, k) = .ok w1 it) :
    Consistent w1 g := by
  cases hc : w.vertex (g, k) with
  | none => simp [vertex_proxy.remove, hc] at h
  | some c =>
    obtain ⟨hthrow, hok⟩ := vertex_remove_spec w g (g, k) c rfl hc
    by_cases hn : c._neighbors = []
    · obtain ⟨w2, it2, h2, hv, he, hi, hed, _, _, _⟩ := hok hn
      rw [h2] at h
      cases h
      have hbt : ∀ a b, edges_between w1 g a b = edges_between w g a b :=
        fun a b => edges_between_congr _ _ g a b (by rw [hed]) (fun k => he _)
      have hinc : ∀ v p, incidence w1 v p = incidence w v p :=
        fun v p => incidence_congr _ _ v p (he p)
      have hzero : ∀ q, edges_between w g (g, k) q = 0 ∧ edges_between w g q (g, k) = 0 := by
        intro q
        have := hw.nbrs k c hc q
        rw [hn] at this
        simp at this
        omega
      have hrec : ∀ a c1, w1.vertex (g, a) = some c1 → a ≠ k ∧ w.vertex (g, a) = some c1 := by
        intro a c1 h1
        rw [hv] at h1
        by_cases e : a = k
        · subst e; simp at h1
        · have : ¬ (g, a) = (g, k) := fun h => e (Prod.ext_iff.1 h).2
          rw [if_neg this] at h1
          exact ⟨e, h1⟩
      refine ⟨?_, ?_, ?_, ?_, ?_, ?_⟩
      · intro a c1 h1
        rw [hi]
        exact hw.vkeys a c1 (hrec a c1 h1).2
      · intro a c1 h1
        rw [he] at h1
        rw [hed]
        exact hw.ekeys a c1 h1
      · intro j c1 h1
        rw [he] at h1
        obtain ⟨a, b, hf, ht, la, lb⟩ := hw.ends j c1 h1
        have hj := hw.ekeys j c1 h1
        have hpos := edges_between_pos w g j _ _ c1 hj h1 hf ht
        refine ⟨a, b, hf, ht, ?_, ?_⟩
        · rw [hv]
          by_cases e : a = k
          · subst e
            have := (hzero (g, b)).1
            omega
          · have : ¬ (g, a) = (g, k) := fun h => e (Prod.ext_iff.1 h).2
            rw [if_neg this]; exact la
        · rw [hv]
          by_cases e : b = k
          · subst e
            have := (hzero (g, a)).2
            omega
          · have : ¬ (g, b) = (g, k) := fun h => e (Prod.ext_iff.1 h).2
            rw [if_neg this]; exact lb
      · intro a c1 h1 q
        rw [hbt, hbt]
        exact hw.nbrs a c1 (hrec a c1 h1).2 q
      · intro a c1 h1 p
        rw [hinc]
        exact hw.ins a c1 (hrec a c1 h1).2 p
      · intro a c1 h1 p
        rw [hinc]
        exact hw.outs a c1 (hrec a c1 h1).2 p
    · rw [hthrow hn] at h
      cases h

theorem count_ite_singleton (c : Prop) [Decidable c] (a q : Ptr) :
    List.count q (if c then [a] else []) = if c ∧ q = a then 1 else 0 := by
  by_cases h : c
  · by_cases h2 : q = a
    · subst h2; simp [h]
    · have h3 : ¬ a = q := fun x => h2 x.symm
      simp [h, h2, List.count_cons, h3]
  · simp [h]

theorem count_add_neighbors (p q u v : Ptr) (l : List Ptr) :
    (l ++ (if p = v then [u] else []) ++ (if p = u then [v] else [])).count q =
      l.count q + (if p = u ∧ q = v then 1 else 0) + (if q = u ∧ p = v then 1 else 0) := by
  rw [List.count_append, List.count_append, count_ite_singleton, count_ite_singleton]
  rcases Classical.prop_complete (p = v) with h1 | h1 <;>
  rcases Classical.prop_complete (p = u) with h2 | h2 <;>
  rcases Classical.prop_complete (q = u) with h3 | h3 <;>
  rcases Classical.prop_complete (q = v) with h4 | h4 <;>
    simp only [h1, h2, h3, h4, and_true, true_and, and_false, false_and, if_true, if_false]

theorem count_add_edges (p u v e x : Ptr) (l : List Ptr) :
    (l ++ (if p = v then [e] else []) ++ (if p = u then [e] else [])).count x =
      l.count x + if x = e then (if p = u then 1 else 0) + (if p = v then 1 else 0) else 0 := by
  rw [List.count_append, List.count_append, count_ite_singleton, count_ite_singleton]
  rcases Classical.prop_complete (p = v) with h1 | h1 <;>
  rcases Classical.prop_complete (p = u) with h2 | h2 <;>
  rcases Classical.prop_complete (x = e) with h3 | h3 <;>
    simp only [h1, h2, h3, and_true, true_and, and_false, false_and, if_true, if_false]

theorem count_add_edges_swap (p u v e x : Ptr) (l : List Ptr) :
    (l ++ (if p = u then [e] else []) ++ (if p = v then [e] else [])).count x =
      l.count x + if x = e then (if p = u then 1 else 0) + (if p = v then 1 else 0) else 0 := by
  rw [List.count_append, List.count_append, count_ite_singleton, count_ite_singleton]
  rcases Classical.prop_complete (p = v) with h1 | h1 <;>
  rcases Classical.prop_complete (p = u) with h2 | h2 <;>
  rcases Classical.prop_complete (x = e) with h3 | h3 <;>
    simp only [h1, h2, h3, and_true, true_and, and_false, false_and, if_true, if_false]

theorem edge_joins_some (c : edge_container E) (y z u v : Ptr)
    (hf : c._from = some u) (ht : c._to = some v) :
    edge_joins (some c) y z = decide (y = u ∧ z = v) := by
  simp only [edge_joins, hf, ht, Option.some.injEq]
  exact decide_eq_decide.2 ⟨fun h => ⟨h.1.symm, h.2.symm⟩, fun h => ⟨h.1.symm, h.2.symm⟩⟩

theorem incidence_some (w : World V E) (z p u v : Ptr) (c : edge_container E)
    (hc : w.edge p = some c) (hf : c._from = some u) (ht : c._to = some v) :
    incidence w z p = (if z = u then 1 else 0) + (if z = v then 1 else 0) := by
  simp only [incidence, hc, hf, ht, Option.some.injEq]
  have h1 : (u = z) = (z = u) := propext eq_comm
  have h2 : (v = z) = (z = v) := propext eq_comm
  simp only [h1, h2]

theorem consistent_edge_add (w w1 : World V E) (g a b : Nat) (x : E) (e : Ptr)
    (hw : Consistent w g) (h : edge_proxy.add w g (g, a) (g, b) x = some (w1, e)) :
    Consistent w1 g ∧ e = (g, (w g).edges._i) := by
  have hu : (w.vertex (g, a)).isSome = true := by
    cases hc : w.vertex (g, a) with
    | none => rw [edge_add_none w g _ _ x (Or.inl hc)] at h; cases h
    | some _ => rfl
  have hv : (w.vertex (g, b)).isSome = true := by
    cases hc : w.vertex (g, b) with
    | none => rw [edge_add_none w g _ _ x (Or.inr hc)] at h; cases h
    | some _ => rfl
  obtain ⟨w2, h2, hE, hV, hlive, hi, hg, _⟩ := edge_add_spec w g (g, a) (g, b) x hu hv
  rw [h2] at h
  cases h
  refine ⟨?_, rfl⟩
  have hnew : w.edge (g, (w g).edges._i) = none := by
    cases hc : w.edge (g, (w g).edges._i) with
    | none => rfl
    | some c => exact absurd (hw.ekeys _ c hc) (lt_irrefl _)
  have hold : ∀ k, k ≠ (w g).edges._i → w1.edge (g, k) = w.edge (g, k) := by
    intro k hk
    have : ¬ (g, k) = (g, (w g).edges._i) := fun h => hk (Prod.ext_iff.1 h).2
    rw [hE, if_neg this]
  have hbt : ∀ y z : Ptr, edges_between w1 g y z =
      edges_between w g y z + if y = (g, a) ∧ z = (g, b) then 1 else 0 := by
    intro y z
    unfold edges_between
    rw [hi, countP_range_succ]
    congr 1
    · exact countP_range_congr _ _ _ fun k hk => by rw [hold k (by omega)]
    · rw [hE, if_pos rfl, edge_joins_some _ y z (g, a) (g, b) rfl rfl]
      simp
  have hinc : ∀ z p : Ptr, incidence w1 z p =
      if p = (g, (w g).edges._i) then
        (if z = (g, a) then 1 else 0) + (if z = (g, b) then 1 else 0)
      else incidence w z p := by
    intro z p
    by_cases hp : p = (g, (w g).edges._i)
    · rw [if_pos hp]
      have hc : w1.edge p = some ((((w.edge p).getD (edge_container.init x))._set_from
          (g, a))._set_to (g, b)) := by rw [hE, if_pos hp]
      exact incidence_some w1 z p _ _ _ hc rfl rfl
    · rw [if_neg hp]
      exact incidence_congr _ _ z p (by rw [hE, if_neg hp])
  have hrec : ∀ q c1, w1.vertex q = some c1 → ∃ c0, w.vertex q = some c0 ∧
      c1._neighbors = c0._neighbors ++ (if q = (g, b) then [(g, a)] else []) ++
        (if q = (g, a) then [(g, b)] else []) ∧
      c1._in_edges = c0._in_edges ++ (if q = (g, b) then [(g, (w g).edges._i)] else []) ++
        (if q = (g, a) then [(g, (w g).edges._i)] else []) ∧
      c1._out_edges = c0._out_edges ++ (if q = (g, a) then [(g, (w g).edges._i)] else []) ++
        (if q = (g, b) then [(g, (w g).edges._i)] else []) := by
    intro q c1 hc1
    rw [hV] at hc1
    cases hc0 : w.vertex q with
    | none => simp [hc0] at hc1
    | some c0 =>
      rw [hc0, Option.some_bind, add_chain] at hc1
      cases hc1
      exact ⟨c0, rfl, rfl, rfl, rfl⟩
  refine ⟨?_, ?_, ?_, ?_, ?_, ?_⟩
  · intro k c hc
    rw [(hg g).1]
    obtain ⟨c0, h0, _⟩ := hrec _ c hc
    exact hw.vkeys k c0 h0
  · intro k c hc
    rw [hi]
    by_cases hk : k = (w g).edges._i
    · omega
    · rw [hold k hk] at hc
      have := hw.ekeys k c hc
      omega
  · intro k c hc
    by_cases hk : k = (w g).edges._i
    · subst hk
      rw [hE, if_pos rfl] at hc
      cases hc
      exact ⟨a, b, rfl, rfl, by rw [hlive]; exact hu, by rw [hlive]; exact hv⟩
    · rw [hold k hk] at hc
      obtain ⟨a1, b1, hf, ht, la, lb⟩ := hw.ends k c hc
      exact ⟨a1, b1, hf, ht, by rw [hlive]; exact la, by rw [hlive]; exact lb⟩
  · intro a1 c hc q
    obtain ⟨c0, h0, hn, _, _⟩ := hrec _ c hc
    rw [hn, count_add_neighbors, hw.nbrs a1 c0 h0 q, hbt, hbt]
    omega
  · intro a1 c hc p
    obtain ⟨c0, h0, _, hin, _⟩ := hrec _ c hc
    rw [hin, count_add_edges, hw.ins a1 c0 h0 p, hinc]
    by_cases hp : p = (g, (w g).edges._i)
    · subst hp
      simp [incidence, hnew]
    · simp [hp]
  · intro a1 c hc p
    obtain ⟨c0, h0, _, _, hout⟩ := hrec _ c hc
    rw [hout, count_add_edges_swap, hw.outs a1 c0 h0 p, hinc]
    by_cases hp : p = (g, (w g).edges._i)
    · subst hp
      simp [incidence, hnew]
    · simp [hp]

/-- What `edges.remove(e)` has done when it returns. -/
theorem edge_remove_spec (w w1 : World V E) (g : Nat) (e f t : Ptr) (c : edge_container E)
    (it : Option Ptr) (hg : e.1 = g) (hc : w.edge e = some c) (hf : c._from = some f)
    (ht : c._to = some t) (h : edge_proxy.remove w g e = some (w1, it)) :
    (∀ q, w1.edge q = if q = e then none else w.edge q) ∧
    (∀ q, w1.vertex q = (w.vertex q).bind (call_chain (remove_steps f t e) q)) ∧
    (∀ q, (w1.vertex q).isSome = (w.vertex q).isSome) ∧
    (w1 g).edges._i = (w g).edges._i ∧
    (∀ g1, (w1 g1).vertices._i = (w g1).vertices._i ∧
      (w1 g1)._supergraph = (w g1)._supergraph ∧ (w1 g1)._subgraphs = (w g1)._subgraphs) ∧
    (∀ g1, g1 ≠ g → (w1 g1).edges = (w g1).edges) ∧
    it = ((w g).edges._edges.next e.2).map (fun k => (g, k)) := by
  rw [edge_remove_eq w g e f t c hg hc hf ht] at h
  cases h2 : w.with_vertices (remove_steps f t e) with
  | none => simp [h2] at h
  | some w2 =>
    rw [h2] at h
    simp only [Option.map_some', Option.some.injEq, Prod.mk.injEq] at h
    obtain ⟨rfl, rfl⟩ := h
    obtain ⟨s1, s2, s3, s4⟩ := World.with_vertices_sound _ w w2 h2
    refine ⟨fun q => ?_, fun q => ?_, fun q => ?_, ?_, fun g1 => ?_, fun g1 hg1 => ?_, ?_⟩
    · rw [World.edge_update]
      by_cases h : q.1 = g
      · by_cases h3 : q.2 = e.2
        · have : q = e := Prod.ext (h.trans hg.symm) h3
          subst this
          simp [h, std_map.find_erase]
        · have : ¬ q = e := fun x => h3 (by rw [x])
          rw [if_pos h, if_neg this, std_map.find_erase, if_neg h3, ← s3 q]
          simp only [World.edge, h]
      · have : ¬ q = e := fun x => h (by rw [x, hg])
        rw [if_neg h, if_neg this, s3]
    · rw [vertex_update_edges, s1]
    · rw [vertex_update_edges, s2]
    · simp only [Function.update_same]
      rw [(s4 g).2.1]
    · by_cases hg1 : g1 = g
      · subst hg1
        simp only [Function.update_same]
        exact ⟨(s4 g1).1, (s4 g1).2.2.1, (s4 g1).2.2.2⟩
      · rw [Function.update_noteq hg1]
        exact ⟨(s4 g1).1, (s4 g1).2.2.1, (s4 g1).2.2.2⟩
    · rw [Function.update_noteq hg1]
      exact (s4 g1).2.1
    · rw [(s4 g).2.1]

/-- The store operation `edges.remove(e)` returns when the six member calls do. -/
theorem edge_remove_returns (w : World V E) (g : Nat) (e f t : Ptr) (c : edge_container E)
    (hg : e.1 = g) (hc : w.edge e = some c) (hf : c._from = some f) (ht : c._to = some t)
    (h : ∃ w2, w.with_vertices (remove_steps f t e) = some w2) :
    ∃ w1 it, edge_proxy.remove w g e = some (w1, it) := by
  obtain ⟨w2, h2⟩ := h
  rw [edge_remove_eq w g e f t c hg hc hf ht, h2]
  exact ⟨_, _, rfl⟩

theorem edge_remove_live (w w1 : World V E) (g : Nat) (e : Ptr) (it : Option Ptr)
    (h : edge_proxy.remove w g e = some (w1, it)) :
    e.1 = g ∧ ∃ c f t, w.edge e = some c ∧ c._from = some f ∧ c._to = some t := by
  by_cases hg : e.1 = g
  · refine ⟨hg, ?_⟩
    cases hc : w.edge e with
    | none => rw [edge_remove_none w g e (Or.inr (Or.inl hc))] at h; cases h
    | some c =>
      cases hf : c._from with
      | none => rw [edge_remove_none w g e (Or.inr (Or.inr ⟨c, hc, Or.inl hf⟩))] at h; cases h
      | some f =>
        cases ht : c._to with
        | none => rw [edge_remove_none w g e (Or.inr (Or.inr ⟨c, hc, Or.inr ht⟩))] at h; cases h
        | some t => exact ⟨c, f, t, rfl, hf, ht⟩
  · rw [edge_remove_none w g e (Or.inl hg)] at h; cases h

theorem consistent_edge_remove (w w1 : World V E) (g k : Nat) (it : Option Ptr)
    (hw : Consistent w g) (h : edge_proxy.remove w g (g, k) = some (w1, it)) :
    Consistent w1 g := by
  obtain ⟨_, c, f, t, hc, hf, ht⟩ := edge_remove_live w w1 g (g, k) it h
  obtain ⟨hE, hV, hlive, hi, hg, _, _⟩ := edge_remove_spec w w1 g (g, k) f t c it rfl hc hf ht h
  have hk := hw.ekeys k c hc
  have hold : ∀ j, j ≠ k → w1.edge (g, j) = w.edge (g, j) := by
    intro j hj
    have : ¬ (g, j) = (g, k) := fun h => hj (Prod.ext_iff.1 h).2
    rw [hE, if_neg this]
  have hgone : w1.edge (g, k) = none := by rw [hE, if_pos rfl]
  have hbt : ∀ y z : Ptr, edges_between w g y z =
      edges_between w1 g y z + if y = f ∧ z = t then 1 else 0 := by
    intro y z
    unfold edges_between
    rw [hi]
    rw [countP_range_remove (fun j => edge_joins (w.edge (g, j)) y z)
      (fun j => edge_joins (w1.edge (g, j)) y z) _ k hk
      (fun j hj => by simp only [hold j hj]) (by simp only [hgone]; rfl)]
    simp only [hc, edge_joins_some c y z f t hf ht]
    simp
  have hinc : ∀ z p : Ptr, incidence w z p =
      if p = (g, k) then (if z = f then 1 else 0) + (if z = t then 1 else 0)
      else incidence w1 z p := by
    intro z p
    by_cases hp : p = (g, k)
    · rw [if_pos hp, hp]
      exact incidence_some w z _ f t c hc hf ht
    · rw [if_neg hp]
      exact (incidence_congr _ _ z p (by rw [hE, if_neg hp])).symm
  have hinc0 : ∀ z, incidence w1 z (g, k) = 0 := by
    intro z; simp [incidence, hgone]
  have hrec : ∀ q c1, w1.vertex q = some c1 → ∃ c0, w.vertex q = some c0 ∧
      call_chain (remove_steps f t (g, k)) q c0 = some c1 := by
    intro q c1 hc1
    rw [hV] at hc1
    cases hc0 : w.vertex q with
    | none => simp [hc0] at hc1
    | some c0 =>
      rw [hc0, Option.some_bind] at hc1
      exact ⟨c0, rfl, hc1⟩
  refine ⟨?_, ?_, ?_, ?_, ?_, ?_⟩
  · intro a c1 h1
    rw [(hg g).1]
    obtain ⟨c0, h0, _⟩ := hrec _ c1 h1
    exact hw.vkeys a c0 h0
  · intro j c1 h1
    rw [hi]
    by_cases hj : j = k
    · subst hj; rw [hgone] at h1; cases h1
    · rw [hold j hj] at h1
      exact hw.ekeys j c1 h1
  · intro j c1 h1
    by_cases hj : j = k
    · subst hj; rw [hgone] at h1; cases h1
    · rw [hold j hj] at h1
      obtain ⟨a1, b1, hf1, ht1, la, lb⟩ := hw.ends j c1 h1
      exact ⟨a1, b1, hf1, ht1, by rw [hlive]; exact la, by rw [hlive]; exact lb⟩
  · intro a c1 h1 q
    obtain ⟨c0, h0, hch⟩ := hrec _ c1 h1
    obtain ⟨hn, _, _, _⟩ := remove_chain f t (g, k) (g, a) c0 c1 hch
    have e1 := hn q
    have e2 := hw.nbrs a c0 h0 q
    have e3 := hbt (g, a) q
    have e4 := hbt q (g, a)
    rcases Classical.prop_complete ((g, a) = f) with p1 | p1 <;>
    rcases Classical.prop_complete ((g, a) = t) with p2 | p2 <;>
    rcases Classical.prop_complete (q = f) with p3 | p3 <;>
    rcases Classical.prop_complete (q = t) with p4 | p4 <;>
      simp only [p1, p2, p3, p4, and_true, true_and, and_false, false_and, if_true,
        if_false] at e1 e3 e4 <;>
      omega
  · intro a c1 h1 p
    obtain ⟨c0, h0, hch⟩ := hrec _ c1 h1
    obtain ⟨_, hin, hout, _⟩ := remove_chain f t (g, k) (g, a) c0 c1 hch
    have e1 := hin p
    have e2 := hw.ins a c0 h0 p
    have e3 := hinc (g, a) p
    by_cases hp : p = (g, k)
    · subst hp
      rw [if_pos rfl] at e2 e3
      rw [if_pos rfl, hinc0]
      simp only [and_true] at e1
      omega
    · rw [if_neg hp] at e3
      simp only [hp, and_false, if_false, Nat.add_zero] at e1
      rw [← e3, ← e2, e1]
  · intro a c1 h1 p
    obtain ⟨c0, h0, hch⟩ := hrec _ c1 h1
    obtain ⟨_, hin, hout, _⟩ := remove_chain f t (g, k) (g, a) c0 c1 hch
    have e1 := hout p
    have e2 := hw.outs a c0 h0 p
    have e3 := hinc (g, a) p
    by_cases hp : p = (g, k)
    · subst hp
      rw [if_pos rfl] at e2 e3
      rw [if_pos rfl, hinc0]
      simp only [and_true] at e1
      omega
    · rw [if_neg hp] at e3
      simp only [hp, and_false, if_false, Nat.add_zero] at e1
      rw [← e3, ← e2, e1]

/-- What one call does to the counters, and that it keeps the bookkeeping
consistent. -/
theorem step_spec (g : Nat) (w w1 : World V E) (op : Op V E) (ev : Event)
    (hw : Consistent w g) (h : step g w op = some (w1, ev)) :
    Consistent w1 g ∧
    (match ev with
      | .vertex_added id => id = (w g).vertices._i ∧
          (w1 g).vertices._i = (w g).vertices._i + 1 ∧ (w1 g).edges._i = (w g).edges._i
      | .edge_added id => id = (w g).edges._i ∧
          (w1 g).edges._i = (w g).edges._i + 1 ∧ (w1 g).vertices._i = (w g).vertices._i
      | .vertex_removed k => k < (w g).vertices._i ∧
          (w1 g).vertices._i = (w g).vertices._i ∧ (w1 g).edges._i = (w g).edges._i
      | .edge_removed k => k < (w g).edges._i ∧
          (w1 g).vertices._i = (w g).vertices._i ∧ (w1 g).edges._i = (w g).edges._i
      | .vertex_remove_threw _ => w1 = w) := by
  cases op with
  | vertices_add x =>
    simp only [step, Option.some.injEq, Prod.mk.injEq] at h
    obtain ⟨rfl, rfl⟩ := h
    obtain ⟨_, _, _, hi, hed, _⟩ := vertex_add_spec w g x
    exact ⟨consistent_vertex_add w g x hw, rfl, hi, by rw [hed]⟩
  | vertices_remove pos =>
    simp only [step] at h
    cases hr : vertex_proxy.remove w g (g, pos) with
    | undefined => rw [hr] at h; cases h
    | threw w2 what =>
      rw [hr] at h
      simp only [Option.some.injEq, Prod.mk.injEq] at h
      obtain ⟨rfl, rfl⟩ := h
      cases hc : w.vertex (g, pos) with
      | none => simp [vertex_proxy.remove, hc] at hr
      | some c =>
        obtain ⟨hthrow, hok⟩ := vertex_remove_spec w g (g, pos) c rfl hc
        by_cases hn : c._neighbors = []
        · obtain ⟨w3, it, h3, _⟩ := hok hn
          rw [h3] at hr; cases hr
        · rw [hthrow hn] at hr
          cases hr
          exact ⟨hw, rfl⟩
    | ok w2 it =>
      rw [hr] at h
      simp only [Option.some.injEq, Prod.mk.injEq] at h
      obtain ⟨rfl, rfl⟩ := h
      refine ⟨consistent_vertex_remove w w2 g pos it hw hr, ?_⟩
      cases hc : w.vertex (g, pos) with
      | none => simp [vertex_proxy.remove, hc] at hr
      | some c =>
        obtain ⟨hthrow, hok⟩ := vertex_remove_spec w g (g, pos) c rfl hc
        by_cases hn : c._neighbors = []
        · obtain ⟨w3, it3, h3, _, _, hi, hed, _⟩ := hok hn
          rw [h3] at hr
          cases hr
          exact ⟨hw.vkeys pos c hc, hi, by rw [hed]⟩
        · rw [hthrow hn] at hr; cases hr
  | edges_add a b x =>
    simp only [step, Option.map_eq_some'] at h
    obtain ⟨⟨w2, e⟩, hadd, h2⟩ := h
    simp only [Prod.mk.injEq] at h2
    obtain ⟨rfl, rfl⟩ := h2
    obtain ⟨hc, rfl⟩ := consistent_edge_add w w2 g a b x e hw hadd
    have hu : (w.vertex (g, a)).isSome = true := by
      cases hc : w.vertex (g, a) with
      | none => rw [edge_add_none w g _ _ x (Or.inl hc)] at hadd; cases hadd
      | some _ => rfl
    have hv : (w.vertex (g, b)).isSome = true := by
      cases hc : w.vertex (g, b) with
      | none => rw [edge_add_none w g _ _ x (Or.inr hc)] at hadd; cases hadd
      | some _ => rfl
    obtain ⟨w3, h3, _, _, _, hi, hg, _⟩ := edge_add_spec w g (g, a) (g, b) x hu hv
    rw [h3] at hadd
    cases hadd
    exact ⟨hc, rfl, hi, (hg g).1⟩
  | edges_remove k =>
    simp only [step, Option.map_eq_some'] at h
    obtain ⟨⟨w2, it⟩, hrem, h2⟩ := h
    simp only [Prod.mk.injEq] at h2
    obtain ⟨rfl, rfl⟩ := h2
    obtain ⟨_, c, f, t, hc, hf, ht⟩ := edge_remove_live w w2 g (g, k) it hrem
    obtain ⟨_, _, _, hi, hg, _⟩ := edge_remove_spec w w2 g (g, k) f t c it rfl hc hf ht hrem
    exact ⟨consistent_edge_remove w w2 g k it hw hrem, hw.ekeys k c hc, (hg g).1, hi⟩

theorem run_cons (g : Nat) (w w2 : World V E) (op : Op V E) (ops : List (Op V E))
    (evs : List Event) (h : run g w (op :: ops) = some (w2, evs)) :
    ∃ w1 ev evs1, step g w op = some (w1, ev) ∧ run g w1 ops = some (w2, evs1) ∧
      evs = ev :: evs1 := by
  simp only [run] at h
  cases hs : step g w op with
  | none => simp [hs] at h
  | some r =>
    obtain ⟨w1, ev⟩ := r
    rw [hs] at h
    simp only [Option.map_eq_some'] at h
    obtain ⟨⟨w3, evs1⟩, hr, h3⟩ := h
    simp only [Prod.mk.injEq] at h3
    obtain ⟨rfl, rfl⟩ := h3
    exact ⟨w1, ev, evs1, rfl, hr, rfl⟩

theorem consistent_run (g : Nat) (ops : List (Op V E)) (w w1 : World V E) (evs : List Event)
    (hw : Consistent w g) (h : run g w ops = some (w1, evs)) : Consistent w1 g := by
  induction ops generalizing w evs with
  | nil =>
    simp only [run, Option.some.injEq, Prod.mk.injEq] at h
    rw [← h.1]; exact hw
  | cons op ops ih =>
    obtain ⟨w2, ev, evs1, hs, hr, _⟩ := run_cons g w w1 op ops evs h
    exact ih w2 evs1 (step_spec g w w2 op ev hw hs).1 hr

theorem consistent_of_reachable (g : Nat) (w : World V E) (h : Reachable g w) :
    Consistent w g := by
  obtain ⟨w0, ops, evs, h0, hr⟩ := h
  exact consistent_run g ops w0 w evs (consistent_init w0 g h0) hr

/-- The ids handed out by a run count up from the counters, and no id handed out
after a removal is the id removed. -/
theorem run_ids (g : Nat) (ops : List (Op V E)) (w w1 : World V E) (evs : List Event)
    (hw : Consistent w g) (h : run g w ops = some (w1, evs)) :
    Event.vertex_ids evs = List.range' (w g).vertices._i (Event.vertex_ids evs).length ∧
    Event.edge_ids evs = List.range' (w g).edges._i (Event.edge_ids evs).length ∧
    (∀ id, Event.vertex_added id ∈ evs → (w g).vertices._i ≤ id) ∧
    (∀ id, Event.edge_added id ∈ evs → (w g).edges._i ≤ id) ∧
    (∀ l1 l2 k, evs = l1 ++ Event.vertex_removed k :: l2 → Event.vertex_added k ∉ l2) ∧
    (∀ l1 l2 k, evs = l1 ++ Event.edge_removed k :: l2 → Event.edge_added k ∉ l2) := by
  induction ops generalizing w evs with
  | nil =>
    simp only [run, Option.some.injEq, Prod.mk.injEq] at h
    obtain ⟨_, rfl⟩ := h
    refine ⟨rfl, rfl, ?_, ?_, ?_, ?_⟩
    · intro id hid; cases hid
    · intro id hid; cases hid
    · intro l1 l2 k hk; simp at hk
    · intro l1 l2 k hk; simp at hk
  | cons op ops ih =>
    obtain ⟨w2, ev, evs1, hs, hr, rfl⟩ := run_cons g w w1 op ops evs h
    obtain ⟨hw2, hev⟩ := step_spec g w w2 op ev hw hs
    obtain ⟨i1, i2, i3, i4, i5, i6⟩ := ih w2 evs1 hw2 hr
    have hsplitv : ∀ l1 l2 k, ev :: evs1 = l1 ++ Event.vertex_removed k :: l2 →
        (l1 = [] ∧ ev = Event.vertex_removed k ∧ l2 = evs1) ∨
        (∃ l3, evs1 = l3 ++ Event.vertex_removed k :: l2) := by
      intro l1 l2 k hk
      cases l1 with
      | nil =>
        simp only [List.nil_append, List.cons.injEq] at hk
        exact Or.inl ⟨rfl, hk.1, hk.2.symm⟩
      | cons x l3 =>
        simp only [List.cons_append, List.cons.injEq] at hk
        exact Or.inr ⟨l3, hk.2⟩
    have hsplite : ∀ l1 l2 k, ev :: evs1 = l1 ++ Event.edge_removed k :: l2 →
        (l1 = [] ∧ ev = Event.edge_removed k ∧ l2 = evs1) ∨
        (∃ l3, evs1 = l3 ++ Event.edge_removed k :: l2) := by
      intro l1 l2 k hk
      cases l1 with
      | nil =>
        simp only [List.nil_append, List.cons.injEq] at hk
        exact Or.inl ⟨rfl, hk.1, hk.2.symm⟩
      | cons x l3 =>
        simp only [List.cons_append, List.cons.injEq] at hk
        exact Or.inr ⟨l3, hk.2⟩
    cases ev with
    | vertex_added id =>
      obtain ⟨rfl, hv, he⟩ := hev
      rw [hv] at i1 i3
      rw [he] at i2 i4
      refine ⟨?_, i2, ?_, ?_, ?_, ?_⟩
      · simp only [Event.vertex_ids, List.length_cons, List.range'_succ]
        rw [← i1]
      · intro id hid
        rcases List.mem_cons.1 hid with h1 | h1
        · cases h1; exact le_refl _
        · have := i3 id h1; omega
      · intro id hid
        rcases List.mem_cons.1 hid with h1 | h1
        · cases h1
        · exact i4 id h1
      · intro l1 l2 k hk
        rcases hsplitv l1 l2 k hk with ⟨_, h1, _⟩ | ⟨l3, h1⟩
        · cases h1
        · exact i5 l3 l2 k h1
      · intro l1 l2 k hk
        rcases hsplite l1 l2 k hk with ⟨_, h1, _⟩ | ⟨l3, h1⟩
        · cases h1
        · exact i6 l3 l2 k h1
    | edge_added id =>
      obtain ⟨rfl, he, hv⟩ := hev
      rw [hv] at i1 i3
      rw [he] at i2 i4
      refine ⟨i1, ?_, ?_, ?_, ?_, ?_⟩
      · simp only [Event.edge_ids, List.length_cons, List.range'_succ]
        rw [← i2]
      · intro id hid
        rcases List.mem_cons.1 hid with h1 | h1
        · cases h1
        · exact i3 id h1
      · intro id hid
        rcases List.mem_cons.1 hid with h1 | h1
        · cases h1; exact le_refl _
        · have := i4 id h1; omega
      · intro l1 l2 k hk
        rcases hsplitv l1 l2 k hk with ⟨_, h1, _⟩ | ⟨l3, h1⟩
        · cases h1
        · exact i5 l3 l2 k h1
      · intro l1 l2 k hk
        rcases hsplite l1 l2 k hk with ⟨_, h1, _⟩ | ⟨l3, h1⟩
        · cases h1
        · exact i6 l3 l2 k h1
    | vertex_removed j =>
      obtain ⟨hj, hv, he⟩ := hev
      rw [hv] at i1 i3
      rw [he] at i2 i4
      refine ⟨i1, i2, ?_, ?_, ?_, ?_⟩
      · intro id hid
        rcases List.mem_cons.1 hid with h1 | h1
        · cases h1
        · exact i3 id h1
      · intro id hid
        rcases List.mem_cons.1 hid with h1 | h1
        · cases h1
        · exact i4 id h1
      · intro l1 l2 k hk
        rcases hsplitv l1 l2 k hk with ⟨_, h1, h2⟩ | ⟨l3, h1⟩
        · cases h1
          rw [h2]
          intro hmem
          have := i3 _ hmem
          omega
        · exact i5 l3 l2 k h1
      · intro l1 l2 k hk
        rcases hsplite l1 l2 k hk with ⟨_, h1, _⟩ | ⟨l3, h1⟩
        · cases h1
        · exact i6 l3 l2 k h1
    | edge_removed j =>
      obtain ⟨hj, hv, he⟩ := hev
      rw [hv] at i1 i3
      rw [he] at i2 i4
      refine ⟨i1, i2, ?_, ?_, ?_, ?_⟩
      · intro id hid
        rcases List.mem_cons.1 hid with h1 | h1
        · cases h1
        · exact i3 id h1
      · intro id hid
        rcases List.mem_cons.1 hid with h1 | h1
        · cases h1
        · exact i4 id h1
      · intro l1 l2 k hk
        rcases hsplitv l1 l2 k hk with ⟨_, h1, _⟩ | ⟨l3, h1⟩
        · cases h1
        · exact i5 l3 l2 k h1
      · intro l1 l2 k hk
        rcases hsplite l1 l2 k hk with ⟨_, h1, h2⟩ | ⟨l3, h1⟩
        · cases h1
          rw [h2]
          intro hmem
          have := i4 _ hmem
          omega
        · exact i6 l3 l2 k h1
    | vertex_remove_threw j =>
      simp only at hev
      subst hev
      refine ⟨i1, i2, ?_, ?_, ?_, ?_⟩
      · intro id hid
        rcases List.mem_cons.1 hid with h1 | h1
        · cases h1
        · exact i3 id h1
      · intro id hid
        rcases List.mem_cons.1 hid with h1 | h1
        · cases h1
        · exact i4 id h1
      · intro l1 l2 k hk
        rcases hsplitv l1 l2 k hk with ⟨_, h1, _⟩ | ⟨l3, h1⟩
        · cases h1
        · exact i5 l3 l2 k h1
      · intro l1 l2 k hk
        rcases hsplite l1 l2 k hk with ⟨_, h1, _⟩ | ⟨l3, h1⟩
        · cases h1
        · exact i6 l3 l2 k h1

/-! ## Theorems: `edges.remove` returns on a consistent graph -/

theorem step_ok_remove_neighbor (q p n : Ptr) (c : vertex_container V)
    (h : (if q = p then 1 else 0) ≤ c._neighbors.count n) :
    ∃ c1, (if q = p then c._remove_neighbor n else some c) = some c1 := by
  by_cases e : q = p
  · rw [if_pos e] at h
    have hm : n ∈ c._neighbors := List.count_pos_iff.1 (by omega)
    exact ⟨{ c with _neighbors := c._neighbors.erase n },
      by simp [e, vertex_container._remove_neighbor, vector_erase_find, hm]⟩
  · exact ⟨c, by simp [e]⟩

theorem step_ok_remove_in_edge (q p n : Ptr) (c : vertex_container V)
    (h : (if q = p then 1 else 0) ≤ c._in_edges.count n) :
    ∃ c1, (if q = p then c._remove_in_edge n else some c) = some c1 := by
  by_cases e : q = p
  · rw [if_pos e] at h
    have hm : n ∈ c._in_edges := List.count_pos_iff.1 (by omega)
    exact ⟨{ c with _in_edges := c._in_edges.erase n },
      by simp [e, vertex_container._remove_in_edge, vector_erase_find, hm]⟩
  · exact ⟨c, by simp [e]⟩

theorem step_ok_remove_out_edge (q p n : Ptr) (c : vertex_container V)
    (h : (if q = p then 1 else 0) ≤ c._out_edges.count n) :
    ∃ c1, (if q = p then c._remove_out_edge n else some c) = some c1 := by
  by_cases e : q = p
  · rw [if_pos e] at h
    have hm : n ∈ c._out_edges := List.count_pos_iff.1 (by omega)
    exact ⟨{ c with _out_edges := c._out_edges.erase n },
      by simp [e, vertex_container._remove_out_edge, vector_erase_find, hm]⟩
  · exact ⟨c, by simp [e]⟩

/-- The six member calls of `edges.remove` all find what they erase in a record that
holds enough occurrences. -/
theorem remove_chain_isSome (f t e q : Ptr) (c : vertex_container V)
    (hn : ∀ x, (if q = f ∧ x = t then 1 else 0) + (if q = t ∧ x = f then 1 else 0) ≤
      c._neighbors.count x)
    (hi : (if q = f then 1 else 0) + (if q = t then 1 else 0) ≤ c._in_edges.count e)
    (ho : (if q = f then 1 else 0) + (if q = t then 1 else 0) ≤ c._out_edges.count e) :
    (call_chain (remove_steps f t e) q c).isSome = true := by
  have hn1 := hn t
  have hn2 := hn f
  simp only [and_true] at hn1 hn2
  obtain ⟨a1, h1⟩ := step_ok_remove_neighbor q f t c (by omega)
  obtain ⟨n1, i1, o1, _⟩ := step_remove_neighbor h1
  have n1f := n1 f
  obtain ⟨a2, h2⟩ := step_ok_remove_neighbor q t f a1 (by
    rcases Classical.prop_complete (q = f) with p1 | p1 <;>
    rcases Classical.prop_complete (q = t) with p2 | p2 <;>
    rcases Classical.prop_complete (f = t) with p3 | p3 <;>
    rcases Classical.prop_complete (t = f) with p4 | p4 <;>
      simp only [p1, p2, p3, p4, and_true, true_and, and_false, false_and, if_true,
        if_false] at hn2 n1f ⊢ <;>
      omega)
  obtain ⟨_, i2, o2, _⟩ := step_remove_neighbor h2
  obtain ⟨a3, h3⟩ := step_ok_remove_in_edge q f e a2 (by rw [i2, i1]; omega)
  obtain ⟨i3, _, o3, _⟩ := step_remove_in_edge h3
  have i3e := i3 e
  simp only [and_true] at i3e
  obtain ⟨a4, h4⟩ := step_ok_remove_in_edge q t e a3 (by rw [i2, i1] at i3e; omega)
  obtain ⟨_, _, o4, _⟩ := step_remove_in_edge h4
  obtain ⟨a5, h5⟩ := step_ok_remove_out_edge q f e a4 (by rw [o4, o3, o2, o1]; omega)
  obtain ⟨o5, _, _, _⟩ := step_remove_out_edge h5
  have o5e := o5 e
  simp only [and_true] at o5e
  obtain ⟨a6, h6⟩ := step_ok_remove_out_edge q t e a5 (by rw [o4, o3, o2, o1] at o5e; omega)
  simp only [call_chain, remove_steps, h1, h2, h3, h4, h5, h6, Option.some_bind, Option.isSome_some]

theorem edges_between_ge (w : World V E) (g k : Nat) (c : edge_container E) (f t y z : Ptr)
    (hk : k < (w g).edges._i) (hc : w.edge (g, k) = some c)
    (hf : c._from = some f) (ht : c._to = some t) :
    (if y = f ∧ z = t then 1 else 0) ≤ edges_between w g y z := by
  by_cases h : y = f ∧ z = t
  · rw [if_pos h]
    obtain ⟨rfl, rfl⟩ := h
    exact edges_between_pos w g k _ _ c hk hc hf ht
  · rw [if_neg h]; omega

/-- On a consistent graph, `edges.remove` of a live edge of the graph returns. -/
theorem edge_remove_succeeds (w : World V E) (g k : Nat) (c : edge_container E)
    (hw : Consistent w g) (hc : w.edge (g, k) = some c) :
    ∃ w1 it, edge_proxy.remove w g (g, k) = some (w1, it) := by
  obtain ⟨a, b, hf, ht, la, lb⟩ := hw.ends k c hc
  have hk := hw.ekeys k c hc
  apply edge_remove_returns w g (g, k) (g, a) (g, b) c rfl hc hf ht
  have hq : ∀ q : Nat, (w.vertex (g, q)).isSome = true →
      ∃ c0, w.vertex (g, q) = some c0 ∧
        (call_chain (remove_steps (g, a) (g, b) (g, k)) (g, q) c0).isSome = true := by
    intro q hq
    obtain ⟨c0, h0⟩ := Option.isSome_iff_exists.1 hq
    refine ⟨c0, h0, remove_chain_isSome _ _ _ _ c0 ?_ ?_ ?_⟩
    · intro x
      rw [hw.nbrs q c0 h0 x]
      have e1 := edges_between_ge w g k c (g, a) (g, b) (g, q) x hk hc hf ht
      have e2 := edges_between_ge w g k c (g, a) (g, b) x (g, q) hk hc hf ht
      rcases Classical.prop_complete ((g, q) = (g, a)) with p1 | p1 <;>
      rcases Classical.prop_complete ((g, q) = (g, b)) with p2 | p2 <;>
      rcases Classical.prop_complete (x = (g, a)) with p3 | p3 <;>
      rcases Classical.prop_complete (x = (g, b)) with p4 | p4 <;>
        simp only [p1, p2, p3, p4, and_true, true_and, and_false, false_and, if_true,
          if_false] at e1 e2 ⊢ <;>
        omega
    · rw [hw.ins q c0 h0 (g, k), if_pos rfl, incidence_some w _ _ _ _ c hc hf ht]
    · rw [hw.outs q c0 h0 (g, k), if_pos rfl, incidence_some w _ _ _ _ c hc hf ht]
  apply World.with_vertices_complete
  intro s hs
  simp only [remove_steps, List.mem_cons, List.mem_singleton, List.not_mem_nil, or_false] at hs
  rcases hs with rfl | rfl | rfl | rfl | rfl | rfl
  · exact hq a la
  · exact hq b lb
  · exact hq a la
  · exact hq b lb
  · exact hq a la
  · exact hq b lb

theorem edges_between_pos_iff (w : World V E) (g : Nat) (hw : Consistent w g) (y z : Ptr) :
    0 < edges_between w g y z ↔
      ∃ k c, w.edge (g, k) = some c ∧ c._from = some y ∧ c._to = some z := by
  constructor
  · intro h
    obtain ⟨k, _, hk⟩ := List.countP_pos_iff.1 h
    cases hc : w.edge (g, k) with
    | none => simp [edge_joins, hc] at hk
    | some c =>
      simp only [edge_joins, hc, decide_eq_true_eq] at hk
      exact ⟨k, c, hc, hk.1, hk.2⟩
  · rintro ⟨k, c, hc, hf, ht⟩
    exact edges_between_pos w g k y z c (hw.ekeys k c hc) hc hf ht

/-! ## Claim C1 -/

/-- C1: from a freshly constructed graph, whatever add and remove calls are made on
live handles, the k-th `add` of a store returns a handle whose `id()` is k (the ids
handed out by either store are 1, 2, 3, ... in order, independently of the other
store and of removals), and an id that was removed is not handed out afterwards. -/
theorem C1_ids_count_up (g : Nat) (w0 w : World V E) (ops : List (Op V E)) (evs : List Event)
    (h0 : w0 g = Graph.init) (h : run g w0 ops = some (w, evs)) :
    Event.vertex_ids evs = List.range' 1 (Event.vertex_ids evs).length ∧
    Event.edge_ids evs = List.range' 1 (Event.edge_ids evs).length ∧
    (∀ k id, (Event.vertex_ids evs)[k]? = some id → id = k + 1) ∧
    (∀ k id, (Event.edge_ids evs)[k]? = some id → id = k + 1) ∧
    (∀ l1 l2 k, evs = l1 ++ Event.vertex_removed k :: l2 → Event.vertex_added k ∉ l2) ∧
    (∀ l1 l2 k, evs = l1 ++ Event.edge_removed k :: l2 → Event.edge_added k ∉ l2) := by
  obtain ⟨i1, i2, _, _, i5, i6⟩ := run_ids g ops w0 w evs (consistent_init w0 g h0) h
  have hv : (w0 g).vertices._i = 1 := by rw [h0]; rfl
  have he : (w0 g).edges._i = 1 := by rw [h0]; rfl
  rw [hv] at i1
  rw [he] at i2
  refine ⟨i1, i2, ?_, ?_, i5, i6⟩
  · intro k id hk
    have hlt : k < (Event.vertex_ids evs).length := by
      by_contra hc
      rw [List.getElem?_eq_none (by omega)] at hk
      cases hk
    rw [i1, List.getElem?_range' _ _ hlt] at hk
    have := Option.some.inj hk
    omega
  · intro k id hk
    have hlt : k < (Event.edge_ids evs).length := by
      by_contra hc
      rw [List.getElem?_eq_none (by omega)] at hk
      cases hk
    rw [i2, List.getElem?_range' _ _ hlt] at hk
    have := Option.some.inj hk
    omega

theorem C1_ids_count_up_witness :
    ((World.init : World String String) 0 = Graph.init ∧
      run 0 World.init readd_ops = some (world_after readd_ops, events_after readd_ops)) ∧
    (Event.vertex_ids (events_after readd_ops) =
        List.range' 1 (Event.vertex_ids (events_after readd_ops)).length ∧
    Event.edge_ids (events_after readd_ops) =
        List.range' 1 (Event.edge_ids (events_after readd_ops)).length ∧
    (∀ k id, (Event.vertex_ids (events_after readd_ops))[k]? = some id → id = k + 1) ∧
    (∀ k id, (Event.edge_ids (events_after readd_ops))[k]? = some id → id = k + 1) ∧
    (∀ l1 l2 k, events_after readd_ops = l1 ++ Event.vertex_removed k :: l2 →
      Event.vertex_added k ∉ l2) ∧
    (∀ l1 l2 k, events_after readd_ops = l1 ++ Event.edge_removed k :: l2 →
      Event.edge_added k ∉ l2)) ∧
    events_after readd_ops =
      [.vertex_added 1, .vertex_added 2, .vertex_added 3, .edge_added 1, .edge_added 2,
       .edge_removed 1, .vertex_remove_threw 2, .edge_removed 2, .vertex_removed 2,
       .vertex_added 4, .edge_added 3] :=
  ⟨⟨rfl, rfl⟩,
    C1_ids_count_up 0 World.init (world_after readd_ops) readd_ops (events_after readd_ops)
      rfl rfl,
    by decide⟩

/-! ## Claims C2 and C3 -/

/-- C2: for live vertices `u` and `v` (equal or not), right after
`e = edges.add(u, v, x)`: `v` is in `u`'s neighbor list, `u` is in `v`'s, `e` is in
the in-edge list and the out-edge list of `u` and of `v`, and `e` is recorded from
`u` to `v`. -/
theorem C2_edge_add_wires_both_ends (w : World V E) (g : Nat) (u v : Ptr) (x : E)
    (hu : (w.vertex u).isSome = true) (hv : (w.vertex v).isSome = true) :
    ∃ w1 e cu cv ce, edge_proxy.add w g u v x = some (w1, e) ∧
      w1.vertex u = some cu ∧ w1.vertex v = some cv ∧ w1.edge e = some ce ∧
      v ∈ cu._neighbors ∧ u ∈ cv._neighbors ∧
      e ∈ cu._in_edges ∧ e ∈ cu._out_edges ∧ e ∈ cv._in_edges ∧ e ∈ cv._out_edges ∧
      ce._from = some u ∧ ce._to = some v := by
  obtain ⟨cu, hcu⟩ := Option.isSome_iff_exists.1 hu
  obtain ⟨cv, hcv⟩ := Option.isSome_iff_exists.1 hv
  obtain ⟨w1, h1, he, hvx, _⟩ := edge_add_spec w g u v x hu hv
  have hcu1 := hvx u
  have hcv1 := hvx v
  have hce1 := he (g, (w g).edges._i)
  rw [hcu, Option.some_bind, add_chain] at hcu1
  rw [hcv, Option.some_bind, add_chain] at hcv1
  rw [if_pos rfl] at hce1
  refine ⟨w1, _, _, _, _, h1, hcu1, hcv1, hce1, ?_⟩
  simp [edge_container._set_from, edge_container._set_to]

theorem C2_edge_add_wires_both_ends_witness :
    ((scenario_world.vertex (0, 1)).isSome = true ∧ (scenario_world.vertex (0, 3)).isSome = true) ∧
    ∃ w1 e cu cv ce, edge_proxy.add scenario_world 0 (0, 1) (0, 3) "e3" = some (w1, e) ∧
      w1.vertex (0, 1) = some cu ∧ w1.vertex (0, 3) = some cv ∧ w1.edge e = some ce ∧
      (0, 3) ∈ cu._neighbors ∧ (0, 1) ∈ cv._neighbors ∧
      e ∈ cu._in_edges ∧ e ∈ cu._out_edges ∧ e ∈ cv._in_edges ∧ e ∈ cv._out_edges ∧
      ce._from = some (0, 1) ∧ ce._to = some (0, 3) :=
  ⟨⟨by decide, by decide⟩,
    C2_edge_add_wires_both_ends scenario_world 0 (0, 1) (0, 3) "e3" (by decide) (by decide)⟩

/-- C3: for a live vertex `pos` of the store, `vertices.remove(pos)` throws if and
only if the neighbor list of `pos` is non-empty; when it throws, the whole state is
what it was; when the list is empty it returns, the record of `pos` is gone, and
every other vertex record, the id counters, the edge store and every other graph
are unchanged. -/
theorem C3_vertex_remove_guard (w : World V E) (g : Nat) (pos : Ptr) (l : List Ptr)
    (hg : pos.1 = g) (hl : (w.vertex pos).map (fun c => c._neighbors) = some l) :
    ((∃ w1 what, vertex_proxy.remove w g pos = .threw w1 what) ↔ l ≠ []) ∧
    (∀ w1 what, vertex_proxy.remove w g pos = .threw w1 what → w1 = w) ∧
    (l = [] → ∃ w1 it, vertex_proxy.remove w g pos = .ok w1 it ∧
      w1.vertex pos = none ∧ (∀ q, q ≠ pos → w1.vertex q = w.vertex q) ∧
      (w1 g).vertices._i = (w g).vertices._i ∧ (w1 g).edges = (w g).edges ∧
      (w1 g)._supergraph = (w g)._supergraph ∧ (w1 g)._subgraphs = (w g)._subgraphs ∧
      (∀ g1, g1 ≠ g → w1 g1 = w g1)) := by
  obtain ⟨c, hc, rfl⟩ : ∃ c, w.vertex pos = some c ∧ c._neighbors = l := by
    simpa using hl
  obtain ⟨hthrow, hok⟩ := vertex_remove_spec w g pos c hg hc
  refine ⟨⟨?_, fun hn => ⟨w, _, hthrow hn⟩⟩, ?_, ?_⟩
  · rintro ⟨w1, what, h⟩ hn
    obtain ⟨w2, it, h2, _⟩ := hok hn
    rw [h2] at h
    cases h
  · intro w1 what h
    by_cases hn : c._neighbors = []
    · obtain ⟨w2, it, h2, _⟩ := hok hn
      rw [h2] at h
      cases h
    · rw [hthrow hn] at h
      cases h
      rfl
  · intro hn
    obtain ⟨w1, it, h1, hv, _, r1, r2, r3, r4, r5⟩ := hok hn
    refine ⟨w1, it, h1, ?_, fun q hq => ?_, r1, r2, r3, r4, r5⟩
    · rw [hv, if_pos rfl]
    · rw [hv, if_neg hq]

theorem C3_vertex_remove_guard_witness :
    (((0, 2) : Ptr).1 = 0 ∧
      (scenario_world.vertex (0, 2)).map (fun c => c._neighbors) = some [(0, 1), (0, 3)]) ∧
    (((∃ w1 what, vertex_proxy.remove scenario_world 0 (0, 2) = .threw w1 what) ↔
        [((0, 1) : Ptr), (0, 3)] ≠ []) ∧
    (∀ w1 what, vertex_proxy.remove scenario_world 0 (0, 2) = .threw w1 what →
      w1 = scenario_world) ∧
    ([((0, 1) : Ptr), (0, 3)] = [] → ∃ w1 it, vertex_proxy.remove scenario_world 0 (0, 2) = .ok w1 it ∧
      w1.vertex (0, 2) = none ∧ (∀ q, q ≠ (0, 2) → w1.vertex q = scenario_world.vertex q) ∧
      (w1 0).vertices._i = (scenario_world 0).vertices._i ∧
      (w1 0).edges = (scenario_world 0).edges ∧
      (w1 0)._supergraph = (scenario_world 0)._supergraph ∧
      (w1 0)._subgraphs = (scenario_world 0)._subgraphs ∧
      (∀ g1, g1 ≠ 0 → w1 g1 = scenario_world g1))) :=
  ⟨⟨by decide, by decide⟩,
    C3_vertex_remove_guard scenario_world 0 (0, 2) [(0, 1), (0, 3)] (by decide) (by decide)⟩

/-! ## Claims C4 to C6 -/

/-- C4: in a reachable state, for a live vertex `a` of the graph and any vertex `b`
of it (live or not), `b` occurs in the neighbor list of `a` exactly when some
existing edge is recorded from one of them to the other; so `has_neighbors` holds for `a` exactly when some existing edge
has an end at `a`, and `vertices.remove(a)` returns exactly when no existing edge
has an end at `a`. -/
theorem C4_neighbors_are_edge_ends (g : Nat) (w : World V E) (hr : Reachable g w)
    (a b : Nat) (ca : vertex_container V) (ha : w.vertex (g, a) = some ca) :
    ((g, b) ∈ ca._neighbors ↔
      ∃ k c, w.edge (g, k) = some c ∧
        ((c._from = some (g, a) ∧ c._to = some (g, b)) ∨
         (c._from = some (g, b) ∧ c._to = some (g, a)))) ∧
    (vertex_proxy.iterator.has_neighbors ca = true ↔
      ∃ k c, w.edge (g, k) = some c ∧ (c._from = some (g, a) ∨ c._to = some (g, a))) ∧
    ((∃ w1 it, vertex_proxy.remove w g (g, a) = .ok w1 it) ↔
      ¬ ∃ k c, w.edge (g, k) = some c ∧ (c._from = some (g, a) ∨ c._to = some (g, a))) := by
  have hw := consistent_of_reachable g w hr
  have hmem : ∀ q, q ∈ ca._neighbors ↔
      ∃ k c, w.edge (g, k) = some c ∧
        ((c._from = some (g, a) ∧ c._to = some q) ∨ (c._from = some q ∧ c._to = some (g, a))) := by
    intro q
    rw [← List.count_pos_iff, hw.nbrs a ca ha q]
    have e1 := edges_between_pos_iff w g hw (g, a) q
    have e2 := edges_between_pos_iff w g hw q (g, a)
    constructor
    · intro h
      rcases Nat.lt_or_ge 0 (edges_between w g (g, a) q) with h1 | h1
      · obtain ⟨k, c, hc, hf, ht⟩ := e1.1 h1
        exact ⟨k, c, hc, Or.inl ⟨hf, ht⟩⟩
      · obtain ⟨k, c, hc, hf, ht⟩ := e2.1 (by omega)
        exact ⟨k, c, hc, Or.inr ⟨hf, ht⟩⟩
    · rintro ⟨k, c, hc, ⟨hf, ht⟩ | ⟨hf, ht⟩⟩
      · have := e1.2 ⟨k, c, hc, hf, ht⟩; omega
      · have := e2.2 ⟨k, c, hc, hf, ht⟩; omega
  have hhas : vertex_proxy.iterator.has_neighbors ca = true ↔
      ∃ k c, w.edge (g, k) = some c ∧ (c._from = some (g, a) ∨ c._to = some (g, a)) := by
    constructor
    · intro h
      cases hl : ca._neighbors with
      | nil => simp [vertex_proxy.iterator.has_neighbors, hl] at h
      | cons q l =>
        have hq : q ∈ ca._neighbors := by rw [hl]; exact List.mem_cons_self _ _
        obtain ⟨k, c, hc, ⟨hf, _⟩ | ⟨_, ht⟩⟩ := (hmem q).1 hq
        · exact ⟨k, c, hc, Or.inl hf⟩
        · exact ⟨k, c, hc, Or.inr ht⟩
    · rintro ⟨k, c, hc, h⟩
      obtain ⟨a1, b1, hf, ht, _, _⟩ := hw.ends k c hc
      have hq : ∃ q, q ∈ ca._neighbors := by
        rcases h with h | h
        · exact ⟨(g, b1), (hmem _).2 ⟨k, c, hc, Or.inl ⟨h, ht⟩⟩⟩
        · exact ⟨(g, a1), (hmem _).2 ⟨k, c, hc, Or.inr ⟨hf, h⟩⟩⟩
      obtain ⟨q, hq⟩ := hq
      cases hl : ca._neighbors with
      | nil => rw [hl] at hq; cases hq
      | cons _ _ => simp [vertex_proxy.iterator.has_neighbors, hl]
  refine ⟨hmem (g, b), hhas, ?_⟩
  rw [← hhas]
  obtain ⟨hthrow, hok⟩ := vertex_remove_spec w g (g, a) ca rfl ha
  constructor
  · rintro ⟨w1, it, h1⟩ hn
    have hne : ca._neighbors ≠ [] := by
      intro hl
      simp [vertex_proxy.iterator.has_neighbors, hl] at hn
    rw [hthrow hne] at h1
    cases h1
  · intro hn
    have hl : ca._neighbors = [] := by
      cases hl : ca._neighbors with
      | nil => rfl
      | cons _ _ => simp [vertex_proxy.iterator.has_neighbors, hl] at hn
    obtain ⟨w1, it, h1, _⟩ := hok hl
    exact ⟨w1, it, h1⟩

theorem C4_neighbors_are_edge_ends_witness :
    (Reachable 0 (world_after scenario_mid_ops) ∧
      (world_after scenario_mid_ops).vertex (0, 2) =
        some ⟨"B", [(0, 3)], [(0, 2)], [(0, 2)], none, []⟩) ∧
    ((((0, 3) : Ptr) ∈ [((0, 3) : Ptr)] ↔
      ∃ k c, (world_after scenario_mid_ops).edge (0, k) = some c ∧
        ((c._from = some (0, 2) ∧ c._to = some (0, 3)) ∨
         (c._from = some (0, 3) ∧ c._to = some (0, 2)))) ∧
    (vertex_proxy.iterator.has_neighbors
        (⟨"B", [(0, 3)], [(0, 2)], [(0, 2)], none, []⟩ : vertex_container String) = true ↔
      ∃ k c, (world_after scenario_mid_ops).edge (0, k) = some c ∧
        (c._from = some (0, 2) ∨ c._to = some (0, 2))) ∧
    ((∃ w1 it, vertex_proxy.remove (world_after scenario_mid_ops) 0 (0, 2) =
        .ok w1 it) ↔
      ¬ ∃ k c, (world_after scenario_mid_ops).edge (0, k) = some c ∧
        (c._from = some (0, 2) ∨ c._to = some (0, 2)))) ∧
    events_after scenario_full_ops =
      [.vertex_added 1, .vertex_added 2, .vertex_added 3, .edge_added 1, .edge_added 2,
       .edge_removed 1, .vertex_remove_threw 2, .edge_removed 2, .vertex_removed 2] :=
  ⟨⟨⟨World.init, scenario_mid_ops, events_after scenario_mid_ops, rfl, rfl⟩, rfl⟩,
    C4_neighbors_are_edge_ends 0 (world_after scenario_mid_ops)
      ⟨World.init, scenario_mid_ops, events_after scenario_mid_ops, rfl, rfl⟩
      2 3 _ rfl,
    by decide⟩

/-- C5: in a reachable state, for an existing edge `e` recorded from `u` to `v` such
that no other existing edge joins `u` and `v` in either direction, `edges.remove(e)`
returns; afterwards `u` is not in the neighbor list of `v`, `v` is not in that of
`u`, `e` is in none of the in-edge and out-edge lists of `u` and `v`, the record of
`e` is gone and every other edge record is unchanged. -/
theorem C5_edge_remove_cleans_adjacency (g : Nat) (w : World V E) (hr : Reachable g w)
    (k : Nat) (c : edge_container E) (u v : Ptr)
    (hc : w.edge (g, k) = some c) (hf : c._from = some u) (ht : c._to = some v)
    (hno : ∀ j cj, j ≠ k → w.edge (g, j) = some cj →
      ¬ ((cj._from = some u ∧ cj._to = some v) ∨ (cj._from = some v ∧ cj._to = some u))) :
    ∃ w1 it cu cv, edge_proxy.remove w g (g, k) = some (w1, it) ∧
      w1.vertex u = some cu ∧ w1.vertex v = some cv ∧
      v ∉ cu._neighbors ∧ u ∉ cv._neighbors ∧
      (g, k) ∉ cu._in_edges ∧ (g, k) ∉ cu._out_edges ∧
      (g, k) ∉ cv._in_edges ∧ (g, k) ∉ cv._out_edges ∧
      w1.edge (g, k) = none ∧ ∀ q, q ≠ (g, k) → w1.edge q = w.edge q := by
  have hw := consistent_of_reachable g w hr
  obtain ⟨w1, it, h1⟩ := edge_remove_succeeds w g k c hw hc
  have hw1 := consistent_edge_remove w w1 g k it hw h1
  obtain ⟨hE, _, hlive, _⟩ := edge_remove_spec w w1 g (g, k) u v c it rfl hc hf ht h1
  obtain ⟨a, b, hfa, htb, la, lb⟩ := hw.ends k c hc
  have hu : u = (g, a) := Option.some.inj (hf.symm.trans hfa)
  have hv : v = (g, b) := Option.some.inj (ht.symm.trans htb)
  subst hu hv
  have la1 : (w1.vertex (g, a)).isSome = true := by rw [hlive]; exact la
  have lb1 : (w1.vertex (g, b)).isSome = true := by rw [hlive]; exact lb
  obtain ⟨cu, hcu⟩ := Option.isSome_iff_exists.1 la1
  obtain ⟨cv, hcv⟩ := Option.isSome_iff_exists.1 lb1
  have hgone : w1.edge (g, k) = none := by rw [hE, if_pos rfl]
  have hzero : ∀ y z : Ptr, (y = (g, a) ∧ z = (g, b)) ∨ (y = (g, b) ∧ z = (g, a)) →
      edges_between w1 g y z = 0 := by
    intro y z hyz
    by_contra hne
    obtain ⟨j, cj, hcj, hfj, htj⟩ := (edges_between_pos_iff w1 g hw1 y z).1 (by omega)
    have hjk : j ≠ k := by
      intro e; subst e; rw [hgone] at hcj; cases hcj
    have hq : ¬ (g, j) = (g, k) := fun h => hjk (Prod.ext_iff.1 h).2
    rw [hE, if_neg hq] at hcj
    apply hno j cj hjk hcj
    rcases hyz with ⟨rfl, rfl⟩ | ⟨rfl, rfl⟩
    · exact Or.inl ⟨hfj, htj⟩
    · exact Or.inr ⟨hfj, htj⟩
  have hinc0 : ∀ z, incidence w1 z (g, k) = 0 := by
    intro z; simp [incidence, hgone]
  refine ⟨w1, it, cu, cv, h1, hcu, hcv, ?_, ?_, ?_, ?_, ?_, ?_, hgone, ?_⟩
  · rw [← List.count_pos_iff, hw1.nbrs a cu hcu, hzero _ _ (Or.inl ⟨rfl, rfl⟩),
      hzero _ _ (Or.inr ⟨rfl, rfl⟩)]
    omega
  · rw [← List.count_pos_iff, hw1.nbrs b cv hcv, hzero _ _ (Or.inr ⟨rfl, rfl⟩),
      hzero _ _ (Or.inl ⟨rfl, rfl⟩)]
    omega
  · rw [← List.count_pos_iff, hw1.ins a cu hcu, if_pos rfl, hinc0]; omega
  · rw [← List.count_pos_iff, hw1.outs a cu hcu, if_pos rfl, hinc0]; omega
  · rw [← List.count_pos_iff, hw1.ins b cv hcv, if_pos rfl, hinc0]; omega
  · rw [← List.count_pos_iff, hw1.outs b cv hcv, if_pos rfl, hinc0]; omega
  · intro q hq
    rw [hE, if_neg hq]

theorem C5_edge_remove_cleans_adjacency_witness :
    (Reachable 0 (world_after scenario_ops) ∧
      (world_after scenario_ops).edge (0, 1) = some ⟨"e1", some (0, 1), some (0, 2), [], []⟩ ∧
      (⟨"e1", some (0, 1), some (0, 2), [], []⟩ : edge_container String)._from = some (0, 1) ∧
      (⟨"e1", some (0, 1), some (0, 2), [], []⟩ : edge_container String)._to = some (0, 2) ∧
      (∀ j cj, j ≠ 1 → (world_after scenario_ops).edge (0, j) = some cj →
        ¬ ((cj._from = some (0, 1) ∧ cj._to = some (0, 2)) ∨
           (cj._from = some (0, 2) ∧ cj._to = some (0, 1))))) ∧
    ∃ w1 it cu cv, edge_proxy.remove (world_after scenario_ops) 0 (0, 1) = some (w1, it) ∧
      w1.vertex (0, 1) = some cu ∧ w1.vertex (0, 2) = some cv ∧
      (0, 2) ∉ cu._neighbors ∧ (0, 1) ∉ cv._neighbors ∧
      (0, 1) ∉ cu._in_edges ∧ (0, 1) ∉ cu._out_edges ∧
      (0, 1) ∉ cv._in_edges ∧ (0, 1) ∉ cv._out_edges ∧
      w1.edge (0, 1) = none ∧ ∀ q, q ≠ (0, 1) → w1.edge q = (world_after scenario_ops).edge q :=
  have hr : Reachable 0 (world_after scenario_ops) :=
    ⟨World.init, scenario_ops, events_after scenario_ops, rfl, rfl⟩
  have hno : ∀ j cj, j ≠ 1 → (world_after scenario_ops).edge (0, j) = some cj →
      ¬ ((cj._from = some (0, 1) ∧ cj._to = some (0, 2)) ∨
         (cj._from = some (0, 2) ∧ cj._to = some (0, 1))) := by
    intro j cj hj hcj
    have hlt : j < 3 := (consistent_of_reachable 0 _ hr).ekeys j cj hcj
    interval_cases j
    · have h0 : (world_after scenario_ops).edge (0, 0) = none := rfl
      rw [h0] at hcj
      cases hcj
    · exact absurd rfl hj
    · have h2 : (world_after scenario_ops).edge (0, 2) =
          some ⟨"e2", some (0, 2), some (0, 3), [], []⟩ := rfl
      rw [h2] at hcj
      cases hcj
      decide
  ⟨⟨hr, rfl, rfl, rfl, hno⟩,
    C5_edge_remove_cleans_adjacency 0 (world_after scenario_ops) hr 1 _ (0, 1) (0, 2)
      rfl rfl rfl hno⟩

/-- C6: in a reachable state, every edge in the edge store has a from-endpoint and
a to-endpoint, and both are vertices of the graph that are in the vertex store. -/
theorem C6_edge_ends_are_live (g : Nat) (w : World V E) (hr : Reachable g w)
    (k : Nat) (c : edge_container E) (hc : w.edge (g, k) = some c) :
    ∃ a b ca cb, c._from = some (g, a) ∧ c._to = some (g, b) ∧
      w.vertex (g, a) = some ca ∧ w.vertex (g, b) = some cb := by
  obtain ⟨a, b, hf, ht, la, lb⟩ := (consistent_of_reachable g w hr).ends k c hc
  obtain ⟨ca, hca⟩ := Option.isSome_iff_exists.1 la
  obtain ⟨cb, hcb⟩ := Option.isSome_iff_exists.1 lb
  exact ⟨a, b, ca, cb, hf, ht, hca, hcb⟩

theorem C6_edge_ends_are_live_witness :
    (Reachable 0 (world_after scenario_ops) ∧
      (world_after scenario_ops).edge (0, 2) = some ⟨"e2", some (0, 2), some (0, 3), [], []⟩) ∧
    ∃ a b ca cb,
      (⟨"e2", some (0, 2), some (0, 3), [], []⟩ : edge_container String)._from = some (0, a) ∧
      (⟨"e2", some (0, 2), some (0, 3), [], []⟩ : edge_container String)._to = some (0, b) ∧
      (world_after scenario_ops).vertex (0, a) = some ca ∧
      (world_after scenario_ops).vertex (0, b) = some cb :=
  ⟨⟨⟨World.init, scenario_ops, events_after scenario_ops, rfl, rfl⟩, rfl⟩,
    C6_edge_ends_are_live 0 (world_after scenario_ops)
      ⟨World.init, scenario_ops, events_after scenario_ops, rfl, rfl⟩ 2 _ rfl⟩

/-! ## Claims C7 to C10: hierarchy links of edges and vertices -/

theorem vertex_isSome_of_sub_vertices {w w1 : World V E} {f : Ptr → List Ptr → List Ptr}
    (h : ∀ q, vertex_proxy.iterator.sub_vertices w1 q =
      (vertex_proxy.iterator.sub_vertices w q).map fun l => f q l)
    (q : Ptr) (hq : (w.vertex q).isSome = true) : (w1.vertex q).isSome = true := by
  have := h q
  obtain ⟨c, hc⟩ := Option.isSome_iff_exists.1 hq
  cases h1 : w1.vertex q with
  | none => simp [vertex_proxy.iterator.sub_vertices, h1, hc] at this
  | some _ => rfl

open edge_proxy.iterator in
/-- C7: whatever super-edge list `s` had, after `b.map_link(s)` the call
`s.super_edge()` returns exactly `[b]` and `s` occurs in `b.sub_edges()`; so
`a.map_link(s)` followed by `b.map_link(s)` leaves `s.super_edge() == [b]`. -/
theorem C7_map_link_overwrites (w : World V E) (b s : Ptr)
    (hb : (w.edge b).isSome = true) (hs : (w.edge s).isSome = true) :
    (∃ w1, map_link w b s = some w1 ∧ super_edge w1 s = some [b] ∧
      ∃ l, sub_edges w1 b = some l ∧ s ∈ l) ∧
    (∀ a, (w.edge a).isSome = true →
      ∃ w1 w2, map_link w a s = some w1 ∧ map_link w1 b s = some w2 ∧
        super_edge w2 s = some [b]) := by
  have gen : ∀ w : World V E, (w.edge b).isSome = true → (w.edge s).isSome = true →
      ∃ w1, map_link w b s = some w1 ∧ super_edge w1 s = some [b] ∧
        ∃ l, sub_edges w1 b = some l ∧ s ∈ l := by
    intro w hb hs
    obtain ⟨cb, hcb⟩ := Option.isSome_iff_exists.1 hb
    obtain ⟨cs, hcs⟩ := Option.isSome_iff_exists.1 hs
    obtain ⟨w1, h1, hsub, hsup⟩ := map_link_fields w b s hb hs
    refine ⟨w1, h1, ?_, ?_⟩
    · rw [hsup]; simp [super_edge, hcs]
    · rw [hsub]; simp [sub_edges, hcb]
  refine ⟨gen w hb hs, ?_⟩
  intro a ha
  obtain ⟨w1, h1, hsub, _⟩ := map_link_fields w a s ha hs
  obtain ⟨w2, h2, h2s, _⟩ := gen w1 (edge_isSome_of_sub_edges hsub b hb)
    (edge_isSome_of_sub_edges hsub s hs)
  exact ⟨w1, w2, h1, h2, h2s⟩

open edge_proxy.iterator in
theorem C7_map_link_overwrites_witness :
    ((two_level_world.edge (0, 2)).isSome = true ∧ (two_level_world.edge (1, 1)).isSome = true) ∧
    ((∃ w1, map_link two_level_world (0, 2) (1, 1) = some w1 ∧
      super_edge w1 (1, 1) = some [(0, 2)] ∧
      ∃ l, sub_edges w1 (0, 2) = some l ∧ (1, 1) ∈ l) ∧
    (∀ a, (two_level_world.edge a).isSome = true →
      ∃ w1 w2, map_link two_level_world a (1, 1) = some w1 ∧
        map_link w1 (0, 2) (1, 1) = some w2 ∧
        super_edge w2 (1, 1) = some [(0, 2)])) :=
  ⟨⟨by decide, by decide⟩,
    C7_map_link_overwrites two_level_world (0, 2) (1, 1) (by decide) (by decide)⟩

open edge_proxy.iterator in
/-- C8: when `s.super_edge()` is `L`, after `b.map_path(s)` it is `L` with `b`
appended at the end, and `s` is appended to `b.sub_edges()`; so for `s` without
super-edges, `a.map_path(s)` followed by `b.map_path(s)` leaves
`s.super_edge() == [a, b]`. -/
theorem C8_map_path_appends (w : World V E) (b s : Ptr) (L : List Ptr)
    (hb : (w.edge b).isSome = true) (hs : super_edge w s = some L) :
    (∃ w1, map_path w b s = some w1 ∧ super_edge w1 s = some (L ++ [b]) ∧
      ∃ l, sub_edges w b = some l ∧ sub_edges w1 b = some (l ++ [s])) ∧
    (L = [] → ∀ a, (w.edge a).isSome = true →
      ∃ w1 w2, map_path w a s = some w1 ∧ map_path w1 b s = some w2 ∧
        super_edge w2 s = some [a, b]) := by
  have hs1 : (w.edge s).isSome = true := by
    cases h : w.edge s with
    | none => simp [super_edge, h] at hs
    | some _ => rfl
  obtain ⟨cb, hcb⟩ := Option.isSome_iff_exists.1 hb
  refine ⟨?_, ?_⟩
  · obtain ⟨w1, h1, hsub, hsup⟩ := map_path_fields w b s hb hs1
    refine ⟨w1, h1, ?_, cb._sub_edges, ?_, ?_⟩
    · rw [hsup, hs]; simp
    · simp [sub_edges, hcb]
    · rw [hsub]; simp [sub_edges, hcb]
  · intro hL a ha
    subst hL
    obtain ⟨w1, h1, hsub, hsup⟩ := map_path_fields w a s ha hs1
    obtain ⟨w2, h2, _, hsup2⟩ := map_path_fields w1 b s (edge_isSome_of_sub_edges hsub b hb)
      (edge_isSome_of_sub_edges hsub s hs1)
    refine ⟨w1, w2, h1, h2, ?_⟩
    rw [hsup2, hsup, hs]; simp

open edge_proxy.iterator in
theorem C8_map_path_appends_witness :
    ((two_level_world.edge (0, 2)).isSome = true ∧
      super_edge two_level_world (1, 1) = some []) ∧
    ((∃ w1, map_path two_level_world (0, 2) (1, 1) = some w1 ∧
      super_edge w1 (1, 1) = some ([] ++ [(0, 2)]) ∧
      ∃ l, sub_edges two_level_world (0, 2) = some l ∧ sub_edges w1 (0, 2) = some (l ++ [(1, 1)])) ∧
    (([] : List Ptr) = [] → ∀ a, (two_level_world.edge a).isSome = true →
      ∃ w1 w2, map_path two_level_world a (1, 1) = some w1 ∧
        map_path w1 (0, 2) (1, 1) = some w2 ∧
        super_edge w2 (1, 1) = some [a, (0, 2)])) :=
  ⟨⟨by decide, by decide⟩,
    C8_map_path_appends two_level_world (0, 2) (1, 1) [] (by decide) (by decide)⟩

open edge_proxy.iterator in
/-- C9: when `s` occurs in `a.sub_edges()`, `a.unmap(s)` removes one occurrence of
`s` from that list and leaves `s` with no super-edge at all, however many it had;
so after `a.map_path(s)`, `b.map_path(s)`, `a.unmap(s)` the edge `s` reports no
super-edge while `b.sub_edges()` still contains `s`. -/
theorem C9_unmap_clears_every_super_edge (w : World V E) (a s : Ptr) (l : List Ptr)
    (ha : sub_edges w a = some l) (hmem : s ∈ l) (hs : (w.edge s).isSome = true) :
    (∃ w1, unmap w a s = some w1 ∧ sub_edges w1 a = some (l.erase s) ∧
        super_edge w1 s = some [] ∧ has_superedge w1 s = some false) ∧
    (∀ b, (w.edge b).isSome = true →
      ∃ w1 w2 w3, map_path w a s = some w1 ∧ map_path w1 b s = some w2 ∧
        unmap w2 a s = some w3 ∧ super_edge w3 s = some [] ∧
        has_superedge w3 s = some false ∧ ∃ l, sub_edges w3 b = some l ∧ s ∈ l) := by
  have gen : ∀ w : World V E, (w.edge s).isSome = true →
      ∀ l, sub_edges w a = some l → s ∈ l →
      ∃ w1, unmap w a s = some w1 ∧ sub_edges w1 a = some (l.erase s) ∧
        super_edge w1 s = some [] ∧ has_superedge w1 s = some false ∧
        (∀ q, sub_edges w1 q = (sub_edges w q).map fun l => if q = a then l.erase s else l) := by
    intro w hs l hl hmem
    obtain ⟨cs, hcs⟩ := Option.isSome_iff_exists.1 hs
    obtain ⟨w1, h1, hsub, hsup⟩ := edge_unmap_fields w a s l hl hmem hs
    have e1 : super_edge w1 s = some [] := by rw [hsup]; simp [super_edge, hcs]
    refine ⟨w1, h1, ?_, e1, ?_, hsub⟩
    · rw [hsub, hl]; simp
    · cases h : w1.edge s with
      | none => simp [super_edge, h] at e1
      | some c =>
        have : c._super_edge = [] := by simpa [super_edge, h] using e1
        simp [has_superedge, h, this]
  have ha1 : (w.edge a).isSome = true := by
    cases h : w.edge a with
    | none => simp [sub_edges, h] at ha
    | some _ => rfl
  refine ⟨?_, fun b hb => ?_⟩
  · obtain ⟨w1, h1, h2, h3, h4, _⟩ := gen w hs l ha hmem
    exact ⟨w1, h1, h2, h3, h4⟩
  · obtain ⟨cb, hcb⟩ := Option.isSome_iff_exists.1 hb
    obtain ⟨w1, h1, hsub1, _⟩ := map_path_fields w a s ha1 hs
    obtain ⟨w2, h2, hsub2, _⟩ := map_path_fields w1 b s (edge_isSome_of_sub_edges hsub1 b hb)
      (edge_isSome_of_sub_edges hsub1 s hs)
    have hs2 : (w2.edge s).isSome = true :=
      edge_isSome_of_sub_edges hsub2 s (edge_isSome_of_sub_edges hsub1 s hs)
    have ha2 : sub_edges w2 a = some (if a = b then (l ++ [s]) ++ [s] else l ++ [s]) := by
      rw [hsub2, hsub1, ha]; simp
    obtain ⟨w3, h3, _, h3s, h3h, hsub3⟩ := gen w2 hs2 _ ha2 (by split_ifs <;> simp)
    refine ⟨w1, w2, w3, h1, h2, h3, h3s, h3h, ?_⟩
    rw [hsub3, hsub2, hsub1]
    by_cases e : b = a
    · subst e
      refine ⟨_, by simp [sub_edges, hcb]; rfl, ?_⟩
      rw [← List.count_pos_iff, List.count_erase_self]
      simp [List.count_append]
    · have e2 : ¬ a = b := fun x => e x.symm
      exact ⟨_, by simp [sub_edges, hcb, e, e2]; rfl, by simp⟩

open edge_proxy.iterator in
theorem C9_unmap_clears_every_super_edge_witness :
    (sub_edges path_mapped_world (0, 1) = some [(1, 1)] ∧ ((1, 1) : Ptr) ∈ [((1, 1) : Ptr)] ∧
      (path_mapped_world.edge (1, 1)).isSome = true) ∧
    ((∃ w1, unmap path_mapped_world (0, 1) (1, 1) = some w1 ∧
        sub_edges w1 (0, 1) = some ([((1, 1) : Ptr)].erase (1, 1)) ∧
        super_edge w1 (1, 1) = some [] ∧ has_superedge w1 (1, 1) = some false) ∧
    (∀ b, (path_mapped_world.edge b).isSome = true →
      ∃ w1 w2 w3, map_path path_mapped_world (0, 1) (1, 1) = some w1 ∧
        map_path w1 b (1, 1) = some w2 ∧
        unmap w2 (0, 1) (1, 1) = some w3 ∧ super_edge w3 (1, 1) = some [] ∧
        has_superedge w3 (1, 1) = some false ∧
        ∃ l, sub_edges w3 b = some l ∧ (1, 1) ∈ l)) :=
  ⟨⟨by decide, by decide, by decide⟩,
    C9_unmap_clears_every_super_edge path_mapped_world (0, 1) (1, 1) [(1, 1)]
      (by decide) (by decide) (by decide)⟩

open vertex_proxy.iterator in
/-- C10: the super-vertex of a vertex is one reference or none, and re-mapping
overwrites it without repairing the old parent: after `a.map(s)` followed by
`b.map(s)`, `s.super_vertex()` is the address of `b`'s value (not of `a`'s, as
`a` and `b` are distinct), and `s` occurs both in `b.sub_vertices()` and, still,
in `a.sub_vertices()`. -/
theorem C10_vertex_remap_overwrites (w : World V E) (a b s : Ptr) (hab : a ≠ b)
    (ha : (w.vertex a).isSome = true) (hb : (w.vertex b).isSome = true)
    (hs : (w.vertex s).isSome = true) :
    ∃ w1 w2, map w a s = some w1 ∧ map w1 b s = some w2 ∧
      super_vertex w2 s = some (some b) ∧ super_vertex w2 s ≠ some (some a) ∧
      (∃ l, sub_vertices w2 b = some l ∧ s ∈ l) ∧
      (∃ l, sub_vertices w2 a = some l ∧ s ∈ l) := by
  obtain ⟨ca, hca⟩ := Option.isSome_iff_exists.1 ha
  obtain ⟨cb, hcb⟩ := Option.isSome_iff_exists.1 hb
  obtain ⟨cs, hcs⟩ := Option.isSome_iff_exists.1 hs
  obtain ⟨w1, h1, hsub1, hsup1⟩ := vertex_map_fields w a s ha hs
  obtain ⟨w2, h2, hsub2, hsup2⟩ := vertex_map_fields w1 b s
    (vertex_isSome_of_sub_vertices hsub1 b hb) (vertex_isSome_of_sub_vertices hsub1 s hs)
  have e : super_vertex w2 s = some (some b) := by
    rw [hsup2, hsup1]; simp [super_vertex, hcs]
  have hba : ¬ b = a := fun x => hab x.symm
  refine ⟨w1, w2, h1, h2, e, ?_, ?_, ?_⟩
  · rw [e]
    intro h
    exact hba (Option.some.inj (Option.some.inj h))
  · rw [hsub2, hsub1]
    exact ⟨_, by simp [sub_vertices, hcb, hba]; rfl, by simp⟩
  · rw [hsub2, hsub1]
    exact ⟨_, by simp [sub_vertices, hca, hab]; rfl, by simp⟩

open vertex_proxy.iterator in
theorem C10_vertex_remap_overwrites_witness :
    (((0, 1) : Ptr) ≠ (0, 2) ∧ (two_level_world.vertex (0, 1)).isSome = true ∧
      (two_level_world.vertex (0, 2)).isSome = true ∧
      (two_level_world.vertex (1, 1)).isSome = true) ∧
    ∃ w1 w2, map two_level_world (0, 1) (1, 1) = some w1 ∧ map w1 (0, 2) (1, 1) = some w2 ∧
      super_vertex w2 (1, 1) = some (some (0, 2)) ∧
      super_vertex w2 (1, 1) ≠ some (some (0, 1)) ∧
      (∃ l, sub_vertices w2 (0, 2) = some l ∧ (1, 1) ∈ l) ∧
      (∃ l, sub_vertices w2 (0, 1) = some l ∧ (1, 1) ∈ l) :=
  ⟨⟨by decide, by decide, by decide, by decide⟩,
    C10_vertex_remap_overwrites two_level_world (0, 1) (0, 2) (1, 1)
      (by decide) (by decide) (by decide) (by decide)⟩

/-! ## Theorems: equality of maps and of states -/

namespace std_map

variable {α : Type}

theorem entries_eq_of_findEntries (l1 l2 : List (Nat × α))
    (h1 : l1.Pairwise (fun a b => a.1 < b.1)) (h2 : l2.Pairwise (fun a b => a.1 < b.1))
    (h : ∀ k, findEntries k l1 = findEntries k l2) : l1 = l2 := by
  induction l1 generalizing l2 with
  | nil =>
    cases l2 with
    | nil => rfl
    | cons e t =>
      have := h e.1
      simp [findEntries] at this
  | cons e1 t1 ih =>
    cases l2 with
    | nil =>
      have := h e1.1
      simp [findEntries] at this
    | cons e2 t2 =>
      rw [List.pairwise_cons] at h1 h2
      have n1 : findEntries e1.1 t1 = none :=
        findEntries_none_of_lt t1 e1.1 h1.1
      have n2 : findEntries e2.1 t2 = none :=
        findEntries_none_of_lt t2 e2.1 h2.1
      have hk : e1.1 = e2.1 := by
        rcases Nat.lt_trichotomy e1.1 e2.1 with hlt | heq | hgt
        · have := h e1.1
          rw [findEntries_none_of_lt (e2 :: t2) e1.1 (by
            intro x hx
            rcases List.mem_cons.1 hx with rfl | hx
            · exact hlt
            · exact lt_trans hlt (h2.1 x hx))] at this
          simp [findEntries] at this
        · exact heq
        · have := h e2.1
          rw [findEntries_none_of_lt (e1 :: t1) e2.1 (by
            intro x hx
            rcases List.mem_cons.1 hx with rfl | hx
            · exact hgt
            · exact lt_trans hgt (h1.1 x hx))] at this
          simp [findEntries] at this
      have hv : e1.2 = e2.2 := by
        have := h e1.1
        simpa [findEntries, hk] using this
      have he : e1 = e2 := Prod.ext hk hv
      subst he
      congr 1
      apply ih t2 h1.2 h2.2
      intro k
      by_cases hke : e1.1 = k
      · subst hke; rw [n1, n2]
      · have := h k
        simpa [findEntries, hke] using this

theorem ext_find (m1 m2 : std_map α) (h : ∀ k, m1.find k = m2.find k) : m1 = m2 := by
  cases m1 with
  | mk l1 s1 =>
    cases m2 with
    | mk l2 s2 =>
      have : l1 = l2 := entries_eq_of_findEntries l1 l2 s1 s2 h
      subst this
      rfl

end std_map

variable {V E : Type}

/-- Two states with the same records, counters and graph links are equal. -/
theorem World.ext_lookup (w1 w2 : World V E)
    (hv : ∀ q, w1.vertex q = w2.vertex q) (he : ∀ q, w1.edge q = w2.edge q)
    (hg : ∀ g, (w1 g).vertices._i = (w2 g).vertices._i ∧ (w1 g).edges._i = (w2 g).edges._i ∧
      (w1 g)._supergraph = (w2 g)._supergraph ∧ (w1 g)._subgraphs = (w2 g)._subgraphs) :
    w1 = w2 := by
  funext g
  obtain ⟨h1, h2, h3, h4⟩ := hg g
  have hvm : (w1 g).vertices._vertices = (w2 g).vertices._vertices :=
    std_map.ext_find _ _ fun k => hv (g, k)
  have hem : (w1 g).edges._edges = (w2 g).edges._edges :=
    std_map.ext_find _ _ fun k => he (g, k)
  cases hw1 : w1 g with
  | mk v1 e1 s1 l1 =>
    cases hw2 : w2 g with
    | mk v2 e2 s2 l2 =>
      rw [hw1, hw2] at h1 h2 h3 h4 hvm hem
      cases v1; cases v2; cases e1; cases e2
      simp only at h1 h2 h3 h4 hvm hem
      subst h1 h2 h3 h4 hvm hem
      rfl

/-! ## Claim C11 -/

theorem World.with_vertex_twice_graph {w w1 : World V E} {b s : Ptr}
    {F1 F2 : vertex_container V → Option (vertex_container V)}
    (h : ((w.with_vertex b F1).bind fun w1 => w1.with_vertex s F2) = some w1) :
    (∀ g, (w1 g).vertices._i = (w g).vertices._i ∧ (w1 g).edges = (w g).edges ∧
      (w1 g)._supergraph = (w g)._supergraph ∧ (w1 g)._subgraphs = (w g)._subgraphs) := by
  cases ha : w.with_vertex b F1 with
  | none => simp [ha] at h
  | some wa =>
    rw [ha] at h
    simp only [Option.some_bind] at h
    obtain ⟨_, ca, _, _, rfl⟩ := World.with_vertex_inv ha
    obtain ⟨_, cb, _, _, rfl⟩ := World.with_vertex_inv h
    intro g
    obtain ⟨a1, a2, a3, a4⟩ := World.set_vertex_graph w b ca g
    obtain ⟨b1, b2, b3, b4⟩ := World.set_vertex_graph (w.set_vertex b ca) s cb g
    exact ⟨b1.trans a1, b2.trans a2, b3.trans a3, b4.trans a4⟩

theorem vertex_unmap_spec {w : World V E} {b s : Ptr} {cb cs : vertex_container V}
    (hb : w.vertex b = some cb) (hs : w.vertex s = some cs) (hmem : s ∈ cb._sub_vertices) :
    ∃ w1, vertex_proxy.iterator.unmap w b s = some w1 ∧
      w1.vertex s = some (vertex_container._unset_super_vertex
        (if s = b then { cb with _sub_vertices := cb._sub_vertices.erase s } else cs)) ∧
      (b ≠ s → w1.vertex b = some { cb with _sub_vertices := cb._sub_vertices.erase s }) ∧
      (∀ q, q ≠ s → q ≠ b → w1.vertex q = w.vertex q) ∧
      (∀ q, w1.edge q = w.edge q) := by
  have hF : cb._remove_sub_vertex s =
      some { cb with _sub_vertices := cb._sub_vertices.erase s } := by
    simp [vertex_container._remove_sub_vertex, vector_erase_find, hmem]
  have h := World.with_vertex_twice (fun c => c._remove_sub_vertex s)
    (fun c => c._unset_super_vertex) hb hs hF
  simpa [vertex_proxy.iterator.unmap, hb, hs] using h

theorem vertex_map_graph {w w1 : World V E} {b s : Ptr}
    (h : vertex_proxy.iterator.map w b s = some w1) :
    ∀ g, (w1 g).vertices._i = (w g).vertices._i ∧ (w1 g).edges = (w g).edges ∧
      (w1 g)._supergraph = (w g)._supergraph ∧ (w1 g)._subgraphs = (w g)._subgraphs := by
  unfold vertex_proxy.iterator.map at h
  cases hb : w.vertex b with
  | none => simp [hb] at h
  | some cb =>
    cases hs : w.vertex s with
    | none => simp [hb, hs] at h
    | some cs =>
      simp only [hb, hs] at h
      exact World.with_vertex_twice_graph h

theorem vertex_unmap_graph {w w1 : World V E} {b s : Ptr}
    (h : vertex_proxy.iterator.unmap w b s = some w1) :
    ∀ g, (w1 g).vertices._i = (w g).vertices._i ∧ (w1 g).edges = (w g).edges ∧
      (w1 g)._supergraph = (w g)._supergraph ∧ (w1 g)._subgraphs = (w g)._subgraphs := by
  unfold vertex_proxy.iterator.unmap at h
  cases hb : w.vertex b with
  | none => simp [hb] at h
  | some cb =>
    cases hs : w.vertex s with
    | none => simp [hb, hs] at h
    | some cs =>
      simp only [hb, hs] at h
      exact World.with_vertex_twice_graph h

theorem erase_append_singleton (l : List Ptr) (s : Ptr) (h : s ∉ l) : (l ++ [s]).erase s = l := by
  rw [List.erase_append_right _ h]
  simp

open vertex_proxy.iterator in
/-- C11: when `sub` has no super-vertex and does not occur in the sub-vertex list of
`sup`, `sup.map(sub)` followed by `sup.unmap(sub)` gives back the state before the
two calls, whole. -/
theorem C11_vertex_unmap_undoes_map (w : World V E) (sup sub : Ptr) (l : List Ptr)
    (hsup : sub_vertices w sup = some l) (hnot : sub ∉ l)
    (hsub : super_vertex w sub = some none) :
    ∃ w1, map w sup sub = some w1 ∧ unmap w1 sup sub = some w := by
  obtain ⟨csup, hcsup, rfl⟩ : ∃ c, w.vertex sup = some c ∧ c._sub_vertices = l := by
    simpa [sub_vertices] using hsup
  obtain ⟨csub, hcsub, hnone⟩ : ∃ c, w.vertex sub = some c ∧ c._super_vertex = none := by
    simpa [super_vertex] using hsub
  obtain ⟨w1, h1, h1s, h1b, h1o, h1e⟩ := vertex_map_spec hcsup hcsub
  have g1 := vertex_map_graph h1
  have hsup1 : ∃ c1, w1.vertex sup = some c1 ∧ c1._sub_vertices = csup._sub_vertices ++ [sub] ∧
      c1._element = csup._element ∧ c1._neighbors = csup._neighbors ∧
      c1._in_edges = csup._in_edges ∧ c1._out_edges = csup._out_edges ∧
      c1._super_vertex = if sub = sup then some sup else csup._super_vertex := by
    by_cases e : sub = sup
    · subst e
      exact ⟨_, h1s, by simp [vertex_container._set_super_vertex,
        vertex_container._add_sub_vertex]⟩
    · have e2 : sup ≠ sub := fun x => e x.symm
      exact ⟨_, h1b e2, by simp [vertex_container._add_sub_vertex, e]⟩
  obtain ⟨c1, hc1, hc1sub, hc1e, hc1n, hc1i, hc1o, hc1s⟩ := hsup1
  obtain ⟨w2, h2, h2s, h2b, h2o, h2e⟩ := vertex_unmap_spec hc1 h1s (by rw [hc1sub]; simp)
  have g2 := vertex_unmap_graph h2
  refine ⟨w1, h1, ?_⟩
  rw [h2]
  congr 1
  apply World.ext_lookup
  · intro q
    by_cases e1 : q = sub
    · subst e1
      rw [h2s]
      by_cases e : q = sup
      · subst e
        rw [if_pos rfl, hcsup]
        congr 1
        cases csup
        cases c1
        simp only at hc1sub hc1e hc1n hc1i hc1o hnot
        rw [hcsup] at hcsub
        cases hcsub
        simp only at hnone
        simp [vertex_container._unset_super_vertex, hc1sub, hc1e, hc1n, hc1i, hc1o,
          erase_append_singleton _ _ hnot, hnone]
      · rw [if_neg e, if_neg e, hcsub]
        congr 1
        cases csub
        simp only at hnone
        simp [vertex_container._unset_super_vertex, vertex_container._set_super_vertex, hnone]
    · by_cases e : q = sup
      · subst e
        have e2 : q ≠ sub := e1
        rw [h2b e2, hcsup]
        congr 1
        cases csup
        cases c1
        simp only at hc1sub hc1e hc1n hc1i hc1o hc1s hnot
        have e3 : ¬ sub = q := fun x => e1 x.symm
        simp [hc1sub, hc1e, hc1n, hc1i, hc1o, hc1s, e3, erase_append_singleton _ _ hnot]
      · rw [h2o q e1 e, h1o q e1 e]
  · intro q
    rw [h2e, h1e]
  · intro g
    obtain ⟨a1, a2, a3, a4⟩ := g1 g
    obtain ⟨b1, b2, b3, b4⟩ := g2 g
    exact ⟨b1.trans a1, by rw [b2, a2], b3.trans a3, b4.trans a4⟩

open vertex_proxy.iterator in
theorem C11_vertex_unmap_undoes_map_witness :
    (sub_vertices two_level_world (0, 1) = some [] ∧ ((1, 1) : Ptr) ∉ ([] : List Ptr) ∧
      super_vertex two_level_world (1, 1) = some none) ∧
    ∃ w1, map two_level_world (0, 1) (1, 1) = some w1 ∧
      unmap w1 (0, 1) (1, 1) = some two_level_world :=
  ⟨⟨by decide, by decide, by decide⟩,
    C11_vertex_unmap_undoes_map two_level_world (0, 1) (1, 1) [] (by decide) (by decide)
      (by decide)⟩


/-! ## Claim C12: lookup by identity -/

theorem pair_ne_of_snd {g k n : Nat} (h : k ≠ n) : ¬ ((g, k) : Ptr) = (g, n) :=
  fun e => h (Prod.ext_iff.1 e).2

/-- Which records are live after one call. -/
theorem step_live (g : Nat) (w w1 : World V E) (op : Op V E) (ev : Event)
    (h : step g w op = some (w1, ev)) :
    (∀ k, (w1.vertex (g, k)).isSome = true ↔
      match ev with
      | .vertex_added n => (w.vertex (g, k)).isSome = true ∨ k = n
      | .vertex_removed j => (w.vertex (g, k)).isSome = true ∧ k ≠ j
      | _ => (w.vertex (g, k)).isSome = true) ∧
    (∀ k, (w1.edge (g, k)).isSome = true ↔
      match ev with
      | .edge_added n => (w.edge (g, k)).isSome = true ∨ k = n
      | .edge_removed j => (w.edge (g, k)).isSome = true ∧ k ≠ j
      | _ => (w.edge (g, k)).isSome = true) := by
  cases op with
  | vertices_add x =>
    simp only [step, Option.some.injEq, Prod.mk.injEq] at h
    obtain ⟨rfl, rfl⟩ := h
    obtain ⟨h2, hv, he, _⟩ := vertex_add_spec w g x
    refine ⟨fun k => ?_, fun k => by rw [he]⟩
    simp only [iterator.id, h2]
    rw [hv]
    by_cases e : k = (w g).vertices._i
    · subst e; simp
    · simp [pair_ne_of_snd e, e]
  | vertices_remove pos =>
    simp only [step] at h
    cases hr : vertex_proxy.remove w g (g, pos) with
    | undefined => rw [hr] at h; cases h
    | threw w2 what =>
      rw [hr] at h
      simp only [Option.some.injEq, Prod.mk.injEq] at h
      obtain ⟨rfl, rfl⟩ := h
      cases hc : w.vertex (g, pos) with
      | none => simp [vertex_proxy.remove, hc] at hr
      | some c =>
        obtain ⟨hthrow, hok⟩ := vertex_remove_spec w g (g, pos) c rfl hc
        by_cases hn : c._neighbors = []
        · obtain ⟨w3, it, h3, _⟩ := hok hn
          rw [h3] at hr; cases hr
        · rw [hthrow hn] at hr
          cases hr
          exact ⟨fun k => Iff.rfl, fun k => Iff.rfl⟩
    | ok w2 it =>
      rw [hr] at h
      simp only [Option.some.injEq, Prod.mk.injEq] at h
      obtain ⟨rfl, rfl⟩ := h
      cases hc : w.vertex (g, pos) with
      | none => simp [vertex_proxy.remove, hc] at hr
      | some c =>
        obtain ⟨hthrow, hok⟩ := vertex_remove_spec w g (g, pos) c rfl hc
        by_cases hn : c._neighbors = []
        · obtain ⟨w3, it3, h3, hv, he, _⟩ := hok hn
          rw [h3] at hr
          cases hr
          refine ⟨fun k => ?_, fun k => by rw [he]⟩
          rw [hv]
          by_cases e : k = pos
          · subst e; simp
          · simp [pair_ne_of_snd e, e]
        · rw [hthrow hn] at hr; cases hr
  | edges_add a b x =>
    simp only [step, Option.map_eq_some'] at h
    obtain ⟨⟨w2, e⟩, hadd, h2⟩ := h
    simp only [Prod.mk.injEq] at h2
    obtain ⟨rfl, rfl⟩ := h2
    have hu : (w.vertex (g, a)).isSome = true := by
      cases hc : w.vertex (g, a) with
      | none => rw [edge_add_none w g _ _ x (Or.inl hc)] at hadd; cases hadd
      | some _ => rfl
    have hv : (w.vertex (g, b)).isSome = true := by
      cases hc : w.vertex (g, b) with
      | none => rw [edge_add_none w g _ _ x (Or.inr hc)] at hadd; cases hadd
      | some _ => rfl
    obtain ⟨w3, h3, hE, _, hlive, _⟩ := edge_add_spec w g (g, a) (g, b) x hu hv
    rw [h3] at hadd
    cases hadd
    refine ⟨fun k => by rw [hlive], fun k => ?_⟩
    simp only [iterator.id]
    rw [hE]
    by_cases e : k = (w g).edges._i
    · subst e; simp
    · simp [pair_ne_of_snd e, e]
  | edges_remove k =>
    simp only [step, Option.map_eq_some'] at h
    obtain ⟨⟨w2, it⟩, hrem, h2⟩ := h
    simp only [Prod.mk.injEq] at h2
    obtain ⟨rfl, rfl⟩ := h2
    obtain ⟨_, c, f, t, hc, hf, ht⟩ := edge_remove_live w w2 g (g, k) it hrem
    obtain ⟨hE, _, hlive, _⟩ := edge_remove_spec w w2 g (g, k) f t c it rfl hc hf ht hrem
    refine ⟨fun j => by rw [hlive], fun j => ?_⟩
    rw [hE]
    by_cases e : j = k
    · subst e; simp
    · simp [pair_ne_of_snd e, e]

/-- The records live after a run are those live before or added, and not removed. -/
theorem run_live (g : Nat) (ops : List (Op V E)) (w w1 : World V E) (evs : List Event)
    (hw : Consistent w g) (h : run g w ops = some (w1, evs)) :
    (∀ k, (w1.vertex (g, k)).isSome = true ↔
      ((w.vertex (g, k)).isSome = true ∨ Event.vertex_added k ∈ evs) ∧
        Event.vertex_removed k ∉ evs) ∧
    (∀ k, (w1.edge (g, k)).isSome = true ↔
      ((w.edge (g, k)).isSome = true ∨ Event.edge_added k ∈ evs) ∧
        Event.edge_removed k ∉ evs) := by
  induction ops generalizing w evs with
  | nil =>
    simp only [run, Option.some.injEq, Prod.mk.injEq] at h
    obtain ⟨rfl, rfl⟩ := h
    exact ⟨fun k => by simp, fun k => by simp⟩
  | cons op ops ih =>
    obtain ⟨w2, ev, evs1, hs, hr, rfl⟩ := run_cons g w w1 op ops evs h
    obtain ⟨hw2, hev⟩ := step_spec g w w2 op ev hw hs
    obtain ⟨lv, le⟩ := step_live g w w2 op ev hs
    obtain ⟨iv, ie⟩ := ih w2 evs1 hw2 hr
    obtain ⟨_, _, i3, i4, _, _⟩ := run_ids g ops w2 w1 evs1 hw2 hr
    constructor
    · intro k
      rw [iv, lv]
      cases ev with
      | vertex_added n => simp only [List.mem_cons, Event.vertex_added.injEq]; tauto
      | edge_added n => simp only [List.mem_cons]; tauto
      | edge_removed n => simp only [List.mem_cons]; tauto
      | vertex_remove_threw n => simp only [List.mem_cons]; tauto
      | vertex_removed j =>
        obtain ⟨hj, hv, _⟩ := hev
        have hne : Event.vertex_added k ∈ evs1 → k ≠ j := by
          intro hm
          have := i3 k hm
          omega
        simp only [List.mem_cons, Event.vertex_removed.injEq]
        tauto
    · intro k
      rw [ie, le]
      cases ev with
      | vertex_added n => simp only [List.mem_cons]; tauto
      | edge_added n => simp only [List.mem_cons, Event.edge_added.injEq]; tauto
      | vertex_removed n => simp only [List.mem_cons]; tauto
      | vertex_remove_threw n => simp only [List.mem_cons]; tauto
      | edge_removed j =>
        obtain ⟨hj, _, he⟩ := hev
        have hne : Event.edge_added k ∈ evs1 → k ≠ j := by
          intro hm
          have := i4 k hm
          omega
        simp only [List.mem_cons, Event.edge_removed.injEq]
        tauto

/-- C12: in either store, lookup by identity throws exactly when no record with
that identity is in the store; otherwise it returns a handle whose `id()` is the
identity and whose value is the one stored under it; the state is unchanged either
way. In a state reached from a fresh graph, this covers the identity 0, every
identity at or above the counter, every identity never handed out and every
identity removed. -/
theorem C12_lookup_by_identity (w : World V E) (g n : Nat) :
    (((∃ w1 what, vertex_proxy.subscript w g n = .threw w1 what) ↔ w.vertex (g, n) = none) ∧
      (∀ w1 what, vertex_proxy.subscript w g n = .threw w1 what → w1 = w) ∧
      (∀ c, w.vertex (g, n) = some c →
        vertex_proxy.subscript w g n = .ok w (g, n) ∧ iterator.id (g, n) = n ∧
        vertex_proxy.iterator.deref w (g, n) = some c._element)) ∧
    (((∃ w1 what, edge_proxy.subscript w g n = .threw w1 what) ↔ w.edge (g, n) = none) ∧
      (∀ w1 what, edge_proxy.subscript w g n = .threw w1 what → w1 = w) ∧
      (∀ c, w.edge (g, n) = some c →
        edge_proxy.subscript w g n = .ok w (g, n) ∧ iterator.id (g, n) = n ∧
        edge_proxy.iterator.deref w (g, n) = some c._element)) ∧
    (∀ (w0 : World V E) (ops : List (Op V E)) (evs : List Event),
      w0 g = Graph.init → run g w0 ops = some (w, evs) →
      ((n = 0 ∨ (w g).vertices._i ≤ n ∨ Event.vertex_added n ∉ evs ∨
          Event.vertex_removed n ∈ evs) → w.vertex (g, n) = none) ∧
      ((n = 0 ∨ (w g).edges._i ≤ n ∨ Event.edge_added n ∉ evs ∨
          Event.edge_removed n ∈ evs) → w.edge (g, n) = none)) := by
  refine ⟨⟨?_, ?_, ?_⟩, ⟨?_, ?_, ?_⟩, ?_⟩
  · cases hc : w.vertex (g, n) with
    | none =>
      have : (w g).vertices._vertices.find n = none := hc
      simp [vertex_proxy.subscript, this]
    | some c =>
      have : (w g).vertices._vertices.find n = some c := hc
      simp [vertex_proxy.subscript, this]
  · intro w1 what h
    cases hc : (w g).vertices._vertices.find n with
    | none =>
      simp only [vertex_proxy.subscript, hc] at h
      cases h; rfl
    | some c => simp [vertex_proxy.subscript, hc] at h
  · intro c hc
    have : (w g).vertices._vertices.find n = some c := hc
    exact ⟨by simp [vertex_proxy.subscript, this], rfl,
      by simp [vertex_proxy.iterator.deref, hc]⟩
  · cases hc : w.edge (g, n) with
    | none =>
      have : (w g).edges._edges.find n = none := hc
      simp [edge_proxy.subscript, this]
    | some c =>
      have : (w g).edges._edges.find n = some c := hc
      simp [edge_proxy.subscript, this]
  · intro w1 what h
    cases hc : (w g).edges._edges.find n with
    | none =>
      simp only [edge_proxy.subscript, hc] at h
      cases h; rfl
    | some c => simp [edge_proxy.subscript, hc] at h
  · intro c hc
    have : (w g).edges._edges.find n = some c := hc
    exact ⟨by simp [edge_proxy.subscript, this], rfl,
      by simp [edge_proxy.iterator.deref, hc]⟩
  · intro w0 ops evs h0 hr
    have hw0 := consistent_init w0 g h0
    have hw := consistent_run g ops w0 w evs hw0 hr
    obtain ⟨lv, le⟩ := run_live g ops w0 w evs hw0 hr
    obtain ⟨_, _, i3, i4, _, _⟩ := run_ids g ops w0 w evs hw0 hr
    have hv0 : ∀ k, w0.vertex (g, k) = none := by
      intro k; simp [World.vertex, h0, Graph.init, std_map.find_empty]
    have he0 : ∀ k, w0.edge (g, k) = none := by
      intro k; simp [World.edge, h0, Graph.init, std_map.find_empty]
    have c1 : (w0 g).vertices._i = 1 := by rw [h0]; rfl
    have c2 : (w0 g).edges._i = 1 := by rw [h0]; rfl
    constructor
    · intro hn
      cases hc : w.vertex (g, n) with
      | none => rfl
      | some c =>
        have hl := (lv n).1 (by rw [hc]; rfl)
        rw [hv0] at hl
        have hadd : Event.vertex_added n ∈ evs := by
          rcases hl.1 with h | h
          · cases h
          · exact h
        have h1 := i3 n hadd
        have h2 := hw.vkeys n c hc
        rcases hn with h | h | h | h
        · omega
        · omega
        · exact absurd hadd h
        · exact absurd h hl.2
    · intro hn
      cases hc : w.edge (g, n) with
      | none => rfl
      | some c =>
        have hl := (le n).1 (by rw [hc]; rfl)
        rw [he0] at hl
        have hadd : Event.edge_added n ∈ evs := by
          rcases hl.1 with h | h
          · cases h
          · exact h
        have h1 := i4 n hadd
        have h2 := hw.ekeys n c hc
        rcases hn with h | h | h | h
        · omega
        · omega
        · exact absurd hadd h
        · exact absurd h hl.2

theorem C12_lookup_by_identity_witness :
    (run 0 World.init scenario_full_ops =
        some (world_after scenario_full_ops, events_after scenario_full_ops) ∧
      Event.vertex_removed 2 ∈ events_after scenario_full_ops ∧
      vertex_proxy.iterator.deref (world_after scenario_full_ops) (0, 1) = some "A") ∧
    ((((∃ w1 what, vertex_proxy.subscript (world_after scenario_full_ops) 0 2 = .threw w1 what) ↔
        (world_after scenario_full_ops).vertex (0, 2) = none) ∧
      (∀ w1 what, vertex_proxy.subscript (world_after scenario_full_ops) 0 2 = .threw w1 what →
        w1 = world_after scenario_full_ops) ∧
      (∀ c, (world_after scenario_full_ops).vertex (0, 2) = some c →
        vertex_proxy.subscript (world_after scenario_full_ops) 0 2 =
          .ok (world_after scenario_full_ops) (0, 2) ∧ iterator.id (0, 2) = 2 ∧
        vertex_proxy.iterator.deref (world_after scenario_full_ops) (0, 2) =
          some c._element)) ∧
    (((∃ w1 what, edge_proxy.subscript (world_after scenario_full_ops) 0 2 = .threw w1 what) ↔
        (world_after scenario_full_ops).edge (0, 2) = none) ∧
      (∀ w1 what, edge_proxy.subscript (world_after scenario_full_ops) 0 2 = .threw w1 what →
        w1 = world_after scenario_full_ops) ∧
      (∀ c, (world_after scenario_full_ops).edge (0, 2) = some c →
        edge_proxy.subscript (world_after scenario_full_ops) 0 2 =
          .ok (world_after scenario_full_ops) (0, 2) ∧ iterator.id (0, 2) = 2 ∧
        edge_proxy.iterator.deref (world_after scenario_full_ops) (0, 2) =
          some c._element)) ∧
    (∀ (w0 : World String String) (ops : List (Op String String)) (evs : List Event),
      w0 0 = Graph.init → run 0 w0 ops = some (world_after scenario_full_ops, evs) →
      ((2 = 0 ∨ ((world_after scenario_full_ops) 0).vertices._i ≤ 2 ∨
          Event.vertex_added 2 ∉ evs ∨ Event.vertex_removed 2 ∈ evs) →
        (world_after scenario_full_ops).vertex (0, 2) = none) ∧
      ((2 = 0 ∨ ((world_after scenario_full_ops) 0).edges._i ≤ 2 ∨
          Event.edge_added 2 ∉ evs ∨ Event.edge_removed 2 ∈ evs) →
        (world_after scenario_full_ops).edge (0, 2) = none))) :=
  ⟨⟨rfl, by decide, by decide⟩, C12_lookup_by_identity (world_after scenario_full_ops) 0 2⟩



/-! ## Claim C13: the handle after a removal, and iteration order -/

namespace std_map

variable {α : Type}

theorem findEntries_isSome_iff (k : Nat) (l : List (Nat × α)) :
    (findEntries k l).isSome = true ↔ k ∈ l.map Prod.fst := by
  induction l with
  | nil => simp [findEntries]
  | cons e l ih =>
    by_cases h : e.1 = k
    · simp [findEntries, h]
    · have h1 : ¬ k = e.1 := fun x => h x.symm
      simp only [findEntries, h, if_false, ih, List.map_cons, List.mem_cons, h1, false_or]

theorem find_isSome_iff (m : std_map α) (k : Nat) :
    (m.find k).isSome = true ↔ k ∈ m.entries.map Prod.fst :=
  findEntries_isSome_iff k m.entries

theorem find_first_above (k : Nat) (l : List (Nat × α))
    (hs : l.Pairwise (fun a b => a.1 < b.1)) :
    (∀ e, l.find? (fun e => decide (k < e.1)) = some e →
      e ∈ l ∧ k < e.1 ∧ ∀ x ∈ l, k < x.1 → e.1 ≤ x.1) ∧
    (l.find? (fun e => decide (k < e.1)) = none → ∀ x ∈ l, ¬ k < x.1) := by
  induction l with
  | nil => simp
  | cons a l ih =>
    rw [List.pairwise_cons] at hs
    obtain ⟨ih1, ih2⟩ := ih hs.2
    by_cases h : k < a.1
    · constructor
      · intro e he
        simp only [List.find?_cons, h, decide_True, Option.some.injEq] at he
        subst he
        refine ⟨List.mem_cons_self _ _, h, ?_⟩
        intro x hx _
        rcases List.mem_cons.1 hx with rfl | hx
        · exact le_refl _
        · exact le_of_lt (hs.1 x hx)
      · intro hn
        simp [List.find?_cons, h] at hn
    · constructor
      · intro e he
        simp only [List.find?_cons, h, decide_False] at he
        obtain ⟨m1, m2, m3⟩ := ih1 e he
        refine ⟨List.mem_cons_of_mem _ m1, m2, ?_⟩
        intro x hx hk
        rcases List.mem_cons.1 hx with rfl | hx
        · exact absurd hk h
        · exact m3 x hx hk
      · intro hn
        simp only [List.find?_cons, h, decide_False] at hn
        intro x hx
        rcases List.mem_cons.1 hx with rfl | hx
        · exact h
        · exact ih2 hn x hx

theorem next_some (m : std_map α) (k j : Nat) (h : m.next k = some j) :
    (m.find j).isSome = true ∧ k < j ∧ ∀ i, k < i → (m.find i).isSome = true → j ≤ i := by
  unfold next at h
  cases hf : m.entries.find? (fun e => decide (k < e.1)) with
  | none => simp [hf] at h
  | some e =>
    rw [hf] at h
    simp only [Option.map_some', Option.some.injEq] at h
    subst h
    obtain ⟨m1, m2, m3⟩ := (find_first_above k m.entries m.sorted).1 e hf
    refine ⟨(find_isSome_iff m e.1).2 (List.mem_map_of_mem _ m1), m2, ?_⟩
    intro i hi hl
    obtain ⟨x, hx, rfl⟩ := List.mem_map.1 ((find_isSome_iff m i).1 hl)
    exact m3 x hx hi

theorem next_none (m : std_map α) (k : Nat) (h : m.next k = none) :
    ∀ i, k < i → m.find i = none := by
  unfold next at h
  cases hf : m.entries.find? (fun e => decide (k < e.1)) with
  | some e => simp [hf] at h
  | none =>
    intro i hi
    cases hl : m.find i with
    | none => rfl
    | some c =>
      obtain ⟨x, hx, rfl⟩ := List.mem_map.1 ((find_isSome_iff m i).1 (by rw [hl]; rfl))
      exact absurd hi ((find_first_above k m.entries m.sorted).2 hf x hx)

theorem find_after_split (l pre rest : List (Nat × α)) (e : Nat × α)
    (hs : l.Pairwise (fun a b => a.1 < b.1)) (h : l = pre ++ e :: rest) :
    l.find? (fun x => decide (e.1 < x.1)) = rest.head? := by
  subst h
  rw [List.pairwise_append] at hs
  obtain ⟨_, h2, h3⟩ := hs
  rw [List.pairwise_cons] at h2
  have hp : ∀ x ∈ pre, ¬ (decide (e.1 < x.1) = true) := by
    intro x hx
    have := h3 x hx e (List.mem_cons_self _ _)
    simp only [decide_eq_true_eq]; omega
  have hpre : pre.find? (fun x => decide (e.1 < x.1)) = none := by
    rw [List.find?_eq_none]; exact hp
  rw [List.find?_append, hpre, Option.none_or, List.find?_cons]
  simp only [lt_self_iff_false, decide_False]
  cases rest with
  | nil => rfl
  | cons r rest =>
    have := h2.1 r (List.mem_cons_self _ _)
    simp [List.find?_cons, this]

theorem walk_suffix (m : std_map α) (suf : List (Nat × α)) :
    ∀ (pre : List (Nat × α)) (fuel : Nat), m.entries = pre ++ suf → suf.length ≤ fuel →
      m.walk fuel (suf.head?.map fun e => e.1) = suf.map Prod.fst := by
  induction suf with
  | nil =>
    intro pre fuel _ _
    cases fuel <;> rfl
  | cons e rest ih =>
    intro pre fuel hm hf
    cases fuel with
    | zero => simp at hf
    | succ fuel =>
      have hn : m.next e.1 = rest.head?.map fun e => e.1 := by
        unfold next
        rw [find_after_split m.entries pre rest e m.sorted hm]
      simp only [List.head?_cons, Option.map_some', walk, hn, List.map_cons]
      rw [ih (pre ++ [e]) fuel (by simp [hm]) (by simpa using hf)]

theorem walk_begin (m : std_map α) (fuel : Nat) (h : m.size ≤ fuel) :
    m.walk fuel m.begin = m.entries.map Prod.fst :=
  walk_suffix m m.entries [] fuel rfl h

theorem keys_ascending (m : std_map α) :
    (m.entries.map Prod.fst).Pairwise (fun a b => a < b) := by
  rw [List.pairwise_map]
  exact m.sorted

end std_map

theorem vertex_remove_ok_inv (w w1 : World V E) (g : Nat) (pos : Ptr) (it : Option Ptr)
    (h : vertex_proxy.remove w g pos = .ok w1 it) :
    pos.1 = g ∧ it = ((w g).vertices._vertices.next pos.2).map (fun k => (g, k)) ∧
    ∀ q, w1.vertex q = if q = pos then none else w.vertex q := by
  unfold vertex_proxy.remove at h
  by_cases hg : pos.1 = g
  · cases hc : w.vertex pos with
    | none => simp [hg, hc] at h
    | some c =>
      by_cases hn : vertex_proxy.iterator.has_neighbors c = true
      · simp [hg, hc, hn] at h
      · simp only [hg, ne_eq, not_true_eq_false, if_false, hc, hn, Outcome.ok.injEq] at h
        obtain ⟨rfl, rfl⟩ := h
        refine ⟨hg, rfl, ?_⟩
        intro q
        rw [World.vertex_update]
        by_cases h1 : q.1 = g
        · by_cases h3 : q.2 = pos.2
          · have : q = pos := Prod.ext (h1.trans hg.symm) h3
            subst this
            simp [h1, std_map.find_erase]
          · have : q ≠ pos := fun x => h3 (by rw [x])
            simp [h1, std_map.find_erase, h3, this, World.vertex]
        · have : q ≠ pos := fun x => h1 (by rw [x]; exact hg)
          simp [h1, this]
  · simp [hg] at h

theorem edge_remove_ok_inv (w w1 : World V E) (g : Nat) (e : Ptr) (it : Option Ptr)
    (h : edge_proxy.remove w g e = some (w1, it)) :
    e.1 = g ∧ it = ((w g).edges._edges.next e.2).map (fun k => (g, k)) ∧
    ∀ q, w1.edge q = if q = e then none else w.edge q := by
  by_cases hg : e.1 = g
  · cases hc : w.edge e with
    | none => rw [edge_remove_none w g e (Or.inr (Or.inl hc))] at h; cases h
    | some c =>
      cases hf : c._from with
      | none =>
        rw [edge_remove_none w g e (Or.inr (Or.inr ⟨c, hc, Or.inl hf⟩))] at h; cases h
      | some f =>
        cases ht : c._to with
        | none =>
          rw [edge_remove_none w g e (Or.inr (Or.inr ⟨c, hc, Or.inr ht⟩))] at h; cases h
        | some t =>
          obtain ⟨s1, _, _, _, _, _, s7⟩ := edge_remove_spec w w1 g e f t c it hg hc hf ht h
          exact ⟨hg, s7, s1⟩
  · rw [edge_remove_none w g e (Or.inl hg)] at h; cases h

/-- C13: a successful `remove` of the record with identity `k`, in either store,
returns a handle at the record with the smallest identity above `k` that is in the
store, or the end handle when there is none; and the loop from `begin()` to `end()`
visits exactly the records of the store, in strictly ascending identity order. The
removal of a vertex without neighbors succeeds, and so does the removal of an edge
of a consistent graph. -/
theorem C13_remove_returns_next_and_loop_ascends (w : World V E) (g k : Nat) :
    (∀ w1 it, vertex_proxy.remove w g (g, k) = .ok w1 it →
      (∀ p, it = some p → p.1 = g ∧ k < p.2 ∧ (w1.vertex p).isSome = true ∧
        ∀ j, k < j → (w1.vertex (g, j)).isSome = true → p.2 ≤ j) ∧
      (it = none → ∀ j, k < j → w1.vertex (g, j) = none)) ∧
    (∀ c, w.vertex (g, k) = some c → c._neighbors = [] →
      ∃ w1 it, vertex_proxy.remove w g (g, k) = .ok w1 it) ∧
    (∀ w1 it, edge_proxy.remove w g (g, k) = some (w1, it) →
      (∀ p, it = some p → p.1 = g ∧ k < p.2 ∧ (w1.edge p).isSome = true ∧
        ∀ j, k < j → (w1.edge (g, j)).isSome = true → p.2 ≤ j) ∧
      (it = none → ∀ j, k < j → w1.edge (g, j) = none)) ∧
    (∀ c, Consistent w g → w.edge (g, k) = some c →
      ∃ w1 it, edge_proxy.remove w g (g, k) = some (w1, it)) ∧
    (∀ fuel, vertex_proxy.count w g ≤ fuel →
      (vertex_proxy.loop_ids w g fuel).Pairwise (fun a b => a < b) ∧
      ∀ j, j ∈ vertex_proxy.loop_ids w g fuel ↔ (w.vertex (g, j)).isSome = true) ∧
    (∀ fuel, edge_proxy.count w g ≤ fuel →
      (edge_proxy.loop_ids w g fuel).Pairwise (fun a b => a < b) ∧
      ∀ j, j ∈ edge_proxy.loop_ids w g fuel ↔ (w.edge (g, j)).isSome = true) := by
  refine ⟨?_, ?_, ?_, ?_, ?_, ?_⟩
  · intro w1 it h
    obtain ⟨_, hit, hq⟩ := vertex_remove_ok_inv w w1 g (g, k) it h
    have hlive : ∀ j, k < j → w1.vertex (g, j) = (w g).vertices._vertices.find j := by
      intro j hj
      rw [hq]
      have : (g, j) ≠ (g, k) := fun x => by cases x; omega
      simp [this, World.vertex]
    constructor
    · intro p hp
      cases hn : (w g).vertices._vertices.next k with
      | none => simp [hit, hn] at hp
      | some j =>
        simp only [hit, hn, Option.map_some', Option.some.injEq] at hp
        subst hp
        obtain ⟨n1, n2, n3⟩ := std_map.next_some _ k j hn
        refine ⟨rfl, n2, by rw [hlive j n2]; exact n1, ?_⟩
        intro i hi hl
        rw [hlive i hi] at hl
        exact n3 i hi hl
    · intro hp j hj
      cases hn : (w g).vertices._vertices.next k with
      | some j => simp [hit, hn] at hp
      | none => rw [hlive j hj]; exact std_map.next_none _ k hn j hj
  · intro c hc hn
    obtain ⟨w1, it, h, _⟩ := (vertex_remove_spec w g (g, k) c rfl hc).2 hn
    exact ⟨w1, it, h⟩
  · intro w1 it h
    obtain ⟨_, hit, hq⟩ := edge_remove_ok_inv w w1 g (g, k) it h
    have hlive : ∀ j, k < j → w1.edge (g, j) = (w g).edges._edges.find j := by
      intro j hj
      rw [hq]
      have : (g, j) ≠ (g, k) := fun x => by cases x; omega
      simp [this, World.edge]
    constructor
    · intro p hp
      cases hn : (w g).edges._edges.next k with
      | none => simp [hit, hn] at hp
      | some j =>
        simp only [hit, hn, Option.map_some', Option.some.injEq] at hp
        subst hp
        obtain ⟨n1, n2, n3⟩ := std_map.next_some _ k j hn
        refine ⟨rfl, n2, by rw [hlive j n2]; exact n1, ?_⟩
        intro i hi hl
        rw [hlive i hi] at hl
        exact n3 i hi hl
    · intro hp j hj
      cases hn : (w g).edges._edges.next k with
      | some j => simp [hit, hn] at hp
      | none => rw [hlive j hj]; exact std_map.next_none _ k hn j hj
  · intro c hw hc
    exact edge_remove_succeeds w g k c hw hc
  · intro fuel hf
    unfold vertex_proxy.loop_ids
    rw [std_map.walk_begin _ fuel hf]
    exact ⟨std_map.keys_ascending _, fun j => (std_map.find_isSome_iff _ j).symm⟩
  · intro fuel hf
    unfold edge_proxy.loop_ids
    rw [std_map.walk_begin _ fuel hf]
    exact ⟨std_map.keys_ascending _, fun j => (std_map.find_isSome_iff _ j).symm⟩

theorem C13_remove_returns_next_and_loop_ascends_witness :
    edge_proxy.remove scenario_world 0 (0, 1) =
      some (world_after scenario_mid_ops, some (0, 2)) ∧
    (((0, 2) : Ptr).1 = 0 ∧ 1 < ((0, 2) : Ptr).2 ∧
      ((world_after scenario_mid_ops).edge (0, 2)).isSome = true ∧
      ∀ j, 1 < j → ((world_after scenario_mid_ops).edge (0, j)).isSome = true →
        ((0, 2) : Ptr).2 ≤ j) ∧
    vertex_proxy.loop_ids scenario_world 0 3 = [1, 2, 3] ∧
    ((vertex_proxy.loop_ids scenario_world 0 3).Pairwise (fun a b => a < b) ∧
      ∀ j, j ∈ vertex_proxy.loop_ids scenario_world 0 3 ↔
        (scenario_world.vertex (0, j)).isSome = true) :=
  ⟨rfl,
    ((C13_remove_returns_next_and_loop_ascends scenario_world 0 1).2.2.1
      (world_after scenario_mid_ops) (some (0, 2)) rfl).1 (0, 2) rfl,
    by decide,
    (C13_remove_returns_next_and_loop_ascends scenario_world 0 1).2.2.2.2.1 3 (by decide)⟩


/-! ## Claims C14 and C15: supergraph and subgraphs -/

theorem graph_map_spec (w : World V E) (g s : Nat) :
    (∀ h, Graph.subgraphs (Graph.map w g s) h =
      if h = g then Graph.subgraphs w g ++ [s] else Graph.subgraphs w h) ∧
    (∀ h, Graph.supergraph (Graph.map w g s) h =
      if h = s then some g else Graph.supergraph w h) ∧
    (∀ h, ((Graph.map w g s) h).vertices = (w h).vertices ∧
      ((Graph.map w g s) h).edges = (w h).edges) := by
  refine ⟨fun h => ?_, fun h => ?_, fun h => ?_⟩
  · unfold Graph.subgraphs Graph.map
    by_cases e1 : h = s <;> by_cases e2 : h = g
    · subst e1; subst e2; simp
    · subst e1; simp [e2, Function.update_noteq e2]
    · subst e2; simp [e1, Function.update_noteq e1]
    · simp [e1, e2, Function.update_noteq e1, Function.update_noteq e2]
  · unfold Graph.supergraph Graph.map
    by_cases e1 : h = s <;> by_cases e2 : h = g
    · subst e1; subst e2; simp
    · subst e1; simp
    · subst e2; simp [e1, Function.update_noteq e1]
    · simp [e1, e2, Function.update_noteq e1, Function.update_noteq e2]
  · unfold Graph.map
    by_cases e1 : h = s <;> by_cases e2 : h = g
    · subst e1; subst e2; simp
    · subst e1; simp [e2, Function.update_noteq e2]
    · subst e2; simp [e1, Function.update_noteq e1]
    · simp [e1, e2, Function.update_noteq e1, Function.update_noteq e2]

theorem graph_unmap_spec (w : World V E) (g s : Nat) (hmem : s ∈ Graph.subgraphs w g) :
    ∃ w1, Graph.unmap w g s = some w1 ∧
      (∀ h, Graph.subgraphs w1 h =
        if h = g then (Graph.subgraphs w g).erase s else Graph.subgraphs w h) ∧
      (∀ h, Graph.supergraph w1 h = if h = s then none else Graph.supergraph w h) ∧
      (∀ h, (w1 h).vertices = (w h).vertices ∧ (w1 h).edges = (w h).edges) := by
  have hv : vector_erase_find (w g)._subgraphs s = some ((w g)._subgraphs.erase s) := by
    unfold Graph.subgraphs at hmem
    simp [vector_erase_find, hmem]
  obtain ⟨wa, hwa⟩ : ∃ wa : World V E, wa =
      Function.update w g { w g with _subgraphs := (w g)._subgraphs.erase s } := ⟨_, rfl⟩
  have hu : Graph.unmap w g s =
      some (Function.update wa s { wa s with _supergraph := none }) := by
    simp only [Graph.unmap, hv, hwa]
  refine ⟨_, hu, fun h => ?_, fun h => ?_, fun h => ?_⟩ <;> rw [hwa]
  · unfold Graph.subgraphs
    by_cases e1 : h = s <;> by_cases e2 : h = g
    · subst e1; subst e2; simp
    · subst e1; simp [e2, Function.update_noteq e2]
    · subst e2; simp [e1, Function.update_noteq e1]
    · simp [e1, e2, Function.update_noteq e1, Function.update_noteq e2]
  · unfold Graph.supergraph
    by_cases e1 : h = s <;> by_cases e2 : h = g
    · subst e1; subst e2; simp
    · subst e1; simp
    · subst e2; simp [e1, Function.update_noteq e1]
    · simp [e1, e2, Function.update_noteq e1, Function.update_noteq e2]
  · by_cases e1 : h = s <;> by_cases e2 : h = g
    · subst e1; subst e2; simp
    · subst e1; simp [e2, Function.update_noteq e2]
    · subst e2; simp [e1, Function.update_noteq e1]
    · simp [e1, e2, Function.update_noteq e1, Function.update_noteq e2]

theorem graph_unmap_inv (w w1 : World V E) (g s : Nat) (h : Graph.unmap w g s = some w1) :
    s ∈ Graph.subgraphs w g := by
  unfold Graph.unmap at h
  by_contra hn
  unfold Graph.subgraphs at hn
  simp [vector_erase_find, hn] at h

theorem graph_nodup_run (ops : List GraphOp) (w0 w : World V E)
    (h0 : ∀ g, (Graph.subgraphs w0 g).Nodup) (hd : maps_unregistered w0 ops = true)
    (hr : graph_run w0 ops = some w) : ∀ g, (Graph.subgraphs w g).Nodup := by
  induction ops generalizing w0 with
  | nil =>
    simp only [graph_run, Option.some.injEq] at hr
    rw [← hr]; exact h0
  | cons op ops ih =>
    simp only [graph_run] at hr
    cases hs : graph_step w0 op with
    | none => simp [hs] at hr
    | some w1 =>
      rw [hs] at hr
      simp only [Option.some_bind] at hr
      simp only [maps_unregistered, hs, Bool.and_eq_true] at hd
      refine ih w1 ?_ hd.2 hr
      intro g
      cases op with
      | map self sub =>
        simp only [graph_step, Option.some.injEq] at hs
        subst hs
        rw [(graph_map_spec w0 self sub).1]
        have hnot : sub ∉ Graph.subgraphs w0 self := by
          have := hd.1
          simpa [Graph.has_subgraph, Graph.subgraphs] using this
        split_ifs with e
        · exact List.Nodup.append (h0 self) (List.nodup_singleton _)
            (by simpa using hnot)
        · exact h0 g
      | unmap self sub =>
        simp only [graph_step] at hs
        obtain ⟨w2, h2, hsub, _⟩ := graph_unmap_spec w0 self sub (graph_unmap_inv _ _ _ _ hs)
        rw [h2] at hs
        cases hs
        rw [hsub]
        split_ifs with e
        · exact (h0 self).erase _
        · exact h0 g

/-- C14, as amended: from graphs without subgraphs, in every state reached by
graph-level `map` and `unmap` calls in which `unmap` is only called when the
subgraph is in the list and `g.map(s)` only when `s` is not in the list of `g`, a
graph has at most one supergraph and every subgraph occurs in a list of subgraphs
at most once. -/
theorem C14_subgraph_once_when_maps_unregistered (w0 w : World V E) (ops : List GraphOp)
    (h0 : ∀ g, Graph.subgraphs w0 g = []) (hd : maps_unregistered w0 ops = true)
    (hr : graph_run w0 ops = some w) :
    (∀ s g1 g2, Graph.supergraph w s = some g1 → Graph.supergraph w s = some g2 → g1 = g2) ∧
    (∀ g s, (Graph.subgraphs w g).count s ≤ 1) := by
  refine ⟨fun s g1 g2 h1 h2 => Option.some.inj (h1.symm.trans h2), fun g s => ?_⟩
  have hn := graph_nodup_run ops w0 w (fun g => by rw [h0]; exact List.nodup_nil) hd hr g
  exact List.nodup_iff_count_le_one.1 hn s

theorem C14_subgraph_once_when_maps_unregistered_witness :
    ((∀ g, Graph.subgraphs (World.init : World Unit Unit) g = []) ∧
      maps_unregistered (World.init : World Unit Unit) nested_ops = true ∧
      graph_run World.init nested_ops = some nested_world) ∧
    ((∀ s g1 g2, Graph.supergraph nested_world s = some g1 →
        Graph.supergraph nested_world s = some g2 → g1 = g2) ∧
      (∀ g s, (Graph.subgraphs nested_world g).count s ≤ 1)) :=
  ⟨⟨fun _ => rfl, by decide, rfl⟩,
    C14_subgraph_once_when_maps_unregistered World.init nested_world nested_ops
      (fun _ => rfl) (by decide) rfl⟩

/-- C14 as stated fails: after `g.map(s)` twice for the same `s` (graph 1 under
graph 0), a state reached by graph-level `map` calls alone, `s` occurs twice in
`g.subgraphs()`. -/
theorem C14_subgraph_twice_after_two_maps :
    graph_run World.init double_map_ops = some double_map_world ∧
    Graph.subgraphs double_map_world 0 = [1, 1] ∧
    ¬ (Graph.subgraphs double_map_world 0).count 1 ≤ 1 :=
  ⟨rfl, by decide, by decide⟩

/-- C15: after `g.map(s)`, `g.has_subgraph(s)` and `g.has_subgraphs()` are true and
`s.supergraph()` is `g`; when `s` was not in the list of `g` before, `g.unmap(s)`
then returns, `g.has_subgraph(s)` is false, `s.supergraph()` is null and the list of
`g` is what it was before the `map`. -/
theorem C15_graph_map_then_unmap (w : World V E) (g s : Nat) :
    (Graph.has_subgraph (Graph.map w g s) g s = true ∧
      Graph.has_subgraphs (Graph.map w g s) g = true ∧
      Graph.supergraph (Graph.map w g s) s = some g) ∧
    (Graph.has_subgraph w g s = false →
      ∃ w2, Graph.unmap (Graph.map w g s) g s = some w2 ∧
        Graph.has_subgraph w2 g s = false ∧ Graph.supergraph w2 s = none ∧
        Graph.subgraphs w2 g = Graph.subgraphs w g) := by
  obtain ⟨m1, m2, _⟩ := graph_map_spec w g s
  have hsub : Graph.subgraphs (Graph.map w g s) g = Graph.subgraphs w g ++ [s] := by
    rw [m1, if_pos rfl]
  have hmem : s ∈ Graph.subgraphs (Graph.map w g s) g := by rw [hsub]; simp
  refine ⟨⟨?_, ?_, ?_⟩, fun hnot => ?_⟩
  · unfold Graph.has_subgraph
    exact decide_eq_true hmem
  · unfold Graph.has_subgraphs
    have : (Graph.map w g s g)._subgraphs = (w g)._subgraphs ++ [s] := hsub
    rw [this]
    cases (w g)._subgraphs <;> rfl
  · rw [m2, if_pos rfl]
  · have hn : s ∉ Graph.subgraphs w g := by
      simpa [Graph.has_subgraph, Graph.subgraphs] using hnot
    obtain ⟨w2, h2, u1, u2, _⟩ := graph_unmap_spec (Graph.map w g s) g s hmem
    have hl : Graph.subgraphs w2 g = Graph.subgraphs w g := by
      rw [u1, if_pos rfl, hsub, List.erase_append_right _ hn]
      simp
    refine ⟨w2, h2, ?_, ?_, hl⟩
    · unfold Graph.has_subgraph
      exact decide_eq_false (by
        have : (w2 g)._subgraphs = Graph.subgraphs w g := hl
        rw [this]; exact hn)
    · rw [u2, if_pos rfl]

theorem C15_graph_map_then_unmap_witness :
    Graph.has_subgraph (World.init : World Unit Unit) 0 1 = false ∧
    (Graph.has_subgraph (Graph.map (World.init : World Unit Unit) 0 1) 0 1 = true ∧
      Graph.has_subgraphs (Graph.map (World.init : World Unit Unit) 0 1) 0 = true ∧
      Graph.supergraph (Graph.map (World.init : World Unit Unit) 0 1) 1 = some 0) ∧
    ∃ w2, Graph.unmap (Graph.map (World.init : World Unit Unit) 0 1) 0 1 = some w2 ∧
      Graph.has_subgraph w2 0 1 = false ∧ Graph.supergraph w2 1 = none ∧
      Graph.subgraphs w2 0 = Graph.subgraphs (World.init : World Unit Unit) 0 :=
  ⟨by decide, (C15_graph_map_then_unmap World.init 0 1).1,
    (C15_graph_map_then_unmap World.init 0 1).2 (by decide)⟩


/-! ## Theorems: mapping calls between store operations -/

theorem World.with_edge_keeps {α : Type} (π : edge_container E → α) {w w1 : World V E} {p : Ptr}
    {f : edge_container E → Option (edge_container E)}
    (hf : ∀ c c1, f c = some c1 → π c1 = π c) (h : w.with_edge p f = some w1) :
    (∀ q, (w1.edge q).map π = (w.edge q).map π) ∧ (∀ q, w1.vertex q = w.vertex q) ∧
    (∀ g, (w1 g).vertices._i = (w g).vertices._i ∧ (w1 g).edges._i = (w g).edges._i) := by
  obtain ⟨c, c1, hc, hfc, rfl⟩ := World.with_edge_inv h
  refine ⟨fun q => ?_, fun q => World.vertex_set_edge w p c1 q, fun g => ?_⟩
  · rw [World.edge_set_edge]
    by_cases e : q = p
    · subst e; simp [hc, hf c c1 hfc]
    · simp [e]
  · obtain ⟨a1, a2, _, _⟩ := World.set_edge_graph w p c1 g
    exact ⟨by rw [a2], a1⟩

theorem World.with_vertex_keeps {α : Type} (π : vertex_container V → α) {w w1 : World V E}
    {p : Ptr} {f : vertex_container V → Option (vertex_container V)}
    (hf : ∀ c c1, f c = some c1 → π c1 = π c) (h : w.with_vertex p f = some w1) :
    (∀ q, (w1.vertex q).map π = (w.vertex q).map π) ∧ (∀ q, w1.edge q = w.edge q) ∧
    (∀ g, (w1 g).vertices._i = (w g).vertices._i ∧ (w1 g).edges._i = (w g).edges._i) := by
  obtain ⟨c, c1, hc, hfc, rfl⟩ := World.with_vertex_inv h
  refine ⟨fun q => ?_, fun q => World.edge_set_vertex w p c1 q, fun g => ?_⟩
  · rw [World.vertex_set_vertex]
    by_cases e : q = p
    · subst e; simp [hc, hf c c1 hfc]
    · simp [e]
  · obtain ⟨a1, a2, _, _⟩ := World.set_vertex_graph w p c1 g
    exact ⟨a1, by rw [a2]⟩

theorem World.with_edge_twice_keeps {α : Type} (π : edge_container E → α) {w w2 : World V E}
    {b s : Ptr} {F1 F2 : edge_container E → Option (edge_container E)}
    (h1 : ∀ c c1, F1 c = some c1 → π c1 = π c) (h2 : ∀ c c1, F2 c = some c1 → π c1 = π c)
    (h : ((w.with_edge b F1).bind fun w1 => w1.with_edge s F2) = some w2) :
    (∀ q, (w2.edge q).map π = (w.edge q).map π) ∧ (∀ q, w2.vertex q = w.vertex q) ∧
    (∀ g, (w2 g).vertices._i = (w g).vertices._i ∧ (w2 g).edges._i = (w g).edges._i) := by
  cases ha : w.with_edge b F1 with
  | none => simp [ha] at h
  | some wa =>
    rw [ha] at h
    simp only [Option.some_bind] at h
    obtain ⟨a1, a2, a3⟩ := World.with_edge_keeps π h1 ha
    obtain ⟨b1, b2, b3⟩ := World.with_edge_keeps π h2 h
    exact ⟨fun q => (b1 q).trans (a1 q), fun q => (b2 q).trans (a2 q),
      fun g => ⟨(b3 g).1.trans (a3 g).1, (b3 g).2.trans (a3 g).2⟩⟩

theorem World.with_vertex_twice_keeps {α : Type} (π : vertex_container V → α)
    {w w2 : World V E} {b s : Ptr} {F1 F2 : vertex_container V → Option (vertex_container V)}
    (h1 : ∀ c c1, F1 c = some c1 → π c1 = π c) (h2 : ∀ c c1, F2 c = some c1 → π c1 = π c)
    (h : ((w.with_vertex b F1).bind fun w1 => w1.with_vertex s F2) = some w2) :
    (∀ q, (w2.vertex q).map π = (w.vertex q).map π) ∧ (∀ q, w2.edge q = w.edge q) ∧
    (∀ g, (w2 g).vertices._i = (w g).vertices._i ∧ (w2 g).edges._i = (w g).edges._i) := by
  cases ha : w.with_vertex b F1 with
  | none => simp [ha] at h
  | some wa =>
    rw [ha] at h
    simp only [Option.some_bind] at h
    obtain ⟨a1, a2, a3⟩ := World.with_vertex_keeps π h1 ha
    obtain ⟨b1, b2, b3⟩ := World.with_vertex_keeps π h2 h
    exact ⟨fun q => (b1 q).trans (a1 q), fun q => (b2 q).trans (a2 q),
      fun g => ⟨(b3 g).1.trans (a3 g).1, (b3 g).2.trans (a3 g).2⟩⟩

/-- A mapping call that returns leaves values, adjacency lists, edge ends and the
two counters of every graph as they were. -/
theorem link_step_frame (w w1 : World V E) (op : LinkOp) (h : link_step w op = some w1) :
    (∀ q, (w1.vertex q).map (fun c => (c._element, c._neighbors, c._in_edges, c._out_edges)) =
      (w.vertex q).map (fun c => (c._element, c._neighbors, c._in_edges, c._out_edges))) ∧
    (∀ q, (w1.edge q).map (fun c => (c._element, c._from, c._to)) =
      (w.edge q).map (fun c => (c._element, c._from, c._to))) ∧
    (∀ g, (w1 g).vertices._i = (w g).vertices._i ∧ (w1 g).edges._i = (w g).edges._i) := by
  cases op with
  | map_link b s =>
    simp only [link_step, edge_proxy.iterator.map_link] at h
    cases hb : w.edge b with
    | none => simp [hb] at h
    | some cb =>
      cases hs : w.edge s with
      | none => simp [hb, hs] at h
      | some cs =>
        simp only [hb, hs] at h
        obtain ⟨a1, a2, a3⟩ := World.with_edge_twice_keeps
          (fun c => (c._element, c._from, c._to))
          (fun c c1 hc => by cases hc; rfl) (fun c c1 hc => by cases hc; rfl) h
        exact ⟨fun q => by rw [a2], a1, a3⟩
  | map_path b s =>
    simp only [link_step, edge_proxy.iterator.map_path] at h
    cases hb : w.edge b with
    | none => simp [hb] at h
    | some cb =>
      cases hs : w.edge s with
      | none => simp [hb, hs] at h
      | some cs =>
        simp only [hb, hs] at h
        obtain ⟨a1, a2, a3⟩ := World.with_edge_twice_keeps
          (fun c => (c._element, c._from, c._to))
          (fun c c1 hc => by cases hc; rfl) (fun c c1 hc => by cases hc; rfl) h
        exact ⟨fun q => by rw [a2], a1, a3⟩
  | edge_unmap b s =>
    simp only [link_step, edge_proxy.iterator.unmap] at h
    cases hb : w.edge b with
    | none => simp [hb] at h
    | some cb =>
      cases hs : w.edge s with
      | none => simp [hb, hs] at h
      | some cs =>
        simp only [hb, hs] at h
        obtain ⟨a1, a2, a3⟩ := World.with_edge_twice_keeps
          (fun c => (c._element, c._from, c._to))
          (fun c c1 hc => by
            simp only [edge_container._remove_sub_edge, Option.map_eq_some'] at hc
            obtain ⟨l, _, rfl⟩ := hc
            rfl) (fun c c1 hc => by cases hc; rfl) h
        exact ⟨fun q => by rw [a2], a1, a3⟩
  | vertex_map b s =>
    simp only [link_step, vertex_proxy.iterator.map] at h
    cases hb : w.vertex b with
    | none => simp [hb] at h
    | some cb =>
      cases hs : w.vertex s with
      | none => simp [hb, hs] at h
      | some cs =>
        simp only [hb, hs] at h
        obtain ⟨a1, a2, a3⟩ := World.with_vertex_twice_keeps
          (fun c => (c._element, c._neighbors, c._in_edges, c._out_edges))
          (fun c c1 hc => by cases hc; rfl) (fun c c1 hc => by cases hc; rfl) h
        exact ⟨a1, fun q => by rw [a2], a3⟩
  | vertex_unmap b s =>
    simp only [link_step, vertex_proxy.iterator.unmap] at h
    cases hb : w.vertex b with
    | none => simp [hb] at h
    | some cb =>
      cases hs : w.vertex s with
      | none => simp [hb, hs] at h
      | some cs =>
        simp only [hb, hs] at h
        obtain ⟨a1, a2, a3⟩ := World.with_vertex_twice_keeps
          (fun c => (c._element, c._neighbors, c._in_edges, c._out_edges))
          (fun c c1 hc => by
            simp only [vertex_container._remove_sub_vertex, Option.map_eq_some'] at hc
            obtain ⟨l, _, rfl⟩ := hc
            rfl) (fun c c1 hc => by cases hc; rfl) h
        exact ⟨a1, fun q => by rw [a2], a3⟩

/-- Consistency only depends on adjacency lists, edge ends and counters. -/
theorem consistent_of_frame (w w1 : World V E) (g : Nat) (hw : Consistent w g)
    (hv : ∀ q, (w1.vertex q).map (fun c => (c._element, c._neighbors, c._in_edges, c._out_edges)) =
      (w.vertex q).map (fun c => (c._element, c._neighbors, c._in_edges, c._out_edges)))
    (he : ∀ q, (w1.edge q).map (fun c => (c._element, c._from, c._to)) =
      (w.edge q).map (fun c => (c._element, c._from, c._to)))
    (hi : (w1 g).vertices._i = (w g).vertices._i ∧ (w1 g).edges._i = (w g).edges._i) :
    Consistent w1 g := by
  have hvinv : ∀ q c1, w1.vertex q = some c1 → ∃ c, w.vertex q = some c ∧
      c._neighbors = c1._neighbors ∧ c._in_edges = c1._in_edges ∧
      c._out_edges = c1._out_edges := by
    intro q c1 h1
    have := hv q
    rw [h1] at this
    cases h : w.vertex q with
    | none => simp [h] at this
    | some c =>
      simp only [h, Option.map_some', Option.some.injEq, Prod.mk.injEq] at this
      exact ⟨c, rfl, this.2.1.symm, this.2.2.1.symm, this.2.2.2.symm⟩
  have heinv : ∀ q c1, w1.edge q = some c1 → ∃ c, w.edge q = some c ∧
      c._from = c1._from ∧ c._to = c1._to := by
    intro q c1 h1
    have := he q
    rw [h1] at this
    cases h : w.edge q with
    | none => simp [h] at this
    | some c =>
      simp only [h, Option.map_some', Option.some.injEq, Prod.mk.injEq] at this
      exact ⟨c, rfl, this.2.1.symm, this.2.2.symm⟩
  have hvlive : ∀ q, (w1.vertex q).isSome = (w.vertex q).isSome := by
    intro q
    have := congrArg Option.isSome (hv q)
    simpa using this
  have hjoin : ∀ q a b, edge_joins (w1.edge q) a b = edge_joins (w.edge q) a b := by
    intro q a b
    cases h1 : w1.edge q with
    | none =>
      have := he q
      rw [h1] at this
      cases h : w.edge q with
      | none => rfl
      | some c => simp [h] at this
    | some c1 =>
      obtain ⟨c, hc, hf, ht⟩ := heinv q c1 h1
      simp only [hc, edge_joins, hf, ht]
  have hbet : ∀ a b, edges_between w1 g a b = edges_between w g a b := by
    intro a b
    unfold edges_between
    rw [hi.2]
    exact countP_range_congr _ _ _ fun k _ => hjoin (g, k) a b
  have hinc : ∀ v p, incidence w1 v p = incidence w v p := by
    intro v p
    unfold incidence
    cases h1 : w1.edge p with
    | none =>
      have := he p
      rw [h1] at this
      cases h : w.edge p with
      | none => rfl
      | some c => simp [h] at this
    | some c1 =>
      obtain ⟨c, hc, hf, ht⟩ := heinv p c1 h1
      simp only [hc, hf, ht]
  refine ⟨?_, ?_, ?_, ?_, ?_, ?_⟩
  · intro k c1 h1
    obtain ⟨c, hc, _⟩ := hvinv _ c1 h1
    rw [hi.1]; exact hw.vkeys k c hc
  · intro k c1 h1
    obtain ⟨c, hc, _⟩ := heinv _ c1 h1
    rw [hi.2]; exact hw.ekeys k c hc
  · intro k c1 h1
    obtain ⟨c, hc, hf, ht⟩ := heinv _ c1 h1
    obtain ⟨a, b, h2, h3, h4, h5⟩ := hw.ends k c hc
    exact ⟨a, b, by rw [← hf, h2], by rw [← ht, h3], by rw [hvlive, h4], by rw [hvlive, h5]⟩
  · intro a c1 h1 q
    obtain ⟨c, hc, hn, _, _⟩ := hvinv _ c1 h1
    rw [← hn, hw.nbrs a c hc q, hbet, hbet]
  · intro a c1 h1 p
    obtain ⟨c, hc, _, hn, _⟩ := hvinv _ c1 h1
    rw [← hn, hw.ins a c hc p, hinc]
  · intro a c1 h1 p
    obtain ⟨c, hc, _, _, hn⟩ := hvinv _ c1 h1
    rw [← hn, hw.outs a c hc p, hinc]

theorem consistent_any_run (g : Nat) (ops : List (AnyOp V E)) (w w1 : World V E)
    (hw : Consistent w g) (h : any_run g w ops = some w1) : Consistent w1 g := by
  induction ops generalizing w with
  | nil =>
    simp only [any_run, Option.some.injEq] at h
    rw [← h]; exact hw
  | cons op ops ih =>
    simp only [any_run] at h
    cases hs : any_step g w op with
    | none => simp [hs] at h
    | some w2 =>
      rw [hs] at h
      simp only [Option.some_bind] at h
      refine ih w2 ?_ h
      cases op with
      | store o =>
        simp only [any_step, Option.map_eq_some'] at hs
        obtain ⟨⟨w3, ev⟩, h3, rfl⟩ := hs
        exact (step_spec g w w3 o ev hw h3).1
      | link o =>
        obtain ⟨f1, f2, f3⟩ := link_step_frame w w2 o hs
        exact consistent_of_frame w w2 g hw f1 f2 (f3 g)

theorem consistent_of_reachable_linked (g : Nat) (w : World V E) (h : ReachableLinked g w) :
    Consistent w g := by
  obtain ⟨w0, ops, h0, hr⟩ := h
  exact consistent_any_run g ops w0 w (consistent_init w0 g h0) hr



/-! ## Claim C16: store operations and hierarchy links -/

theorem vertex_remove_frame (w w1 : World V E) (g : Nat) (pos : Ptr) :
    (∀ it, vertex_proxy.remove w g pos = .ok w1 it → ∀ q, w1.edge q = w.edge q) ∧
    (∀ what, vertex_proxy.remove w g pos = .threw w1 what → w1 = w) := by
  constructor
  · intro it h q
    unfold vertex_proxy.remove at h
    by_cases hg : pos.1 = g
    · cases hc : w.vertex pos with
      | none => simp [hg, hc] at h
      | some c =>
        by_cases hn : vertex_proxy.iterator.has_neighbors c = true
        · simp [hg, hc, hn] at h
        · simp only [hg, ne_eq, not_true_eq_false, if_false, hc, hn, Outcome.ok.injEq] at h
          obtain ⟨rfl, _⟩ := h
          exact edge_update_vertices w g _ q
    · simp [hg] at h
  · intro what h
    unfold vertex_proxy.remove at h
    by_cases hg : pos.1 = g
    · cases hc : w.vertex pos with
      | none => simp [hg, hc] at h
      | some c =>
        by_cases hn : vertex_proxy.iterator.has_neighbors c = true
        · simp only [hg, ne_eq, not_true_eq_false, if_false, hc, hn, if_true,
            Outcome.threw.injEq] at h
          exact h.1.symm
        · simp [hg, hc, hn] at h
    · simp [hg] at h

theorem edge_add_inv (w w1 : World V E) (g : Nat) (u v e : Ptr) (x : E)
    (h : edge_proxy.add w g u v x = some (w1, e)) :
    (∀ q, w1.vertex q = (w.vertex q).bind (call_chain (add_steps u v e) q)) ∧
    (∀ q, q ≠ e → w1.edge q = w.edge q) := by
  cases hu : w.vertex u with
  | none => rw [edge_add_none w g u v x (Or.inl hu)] at h; cases h
  | some cu =>
    cases hv : w.vertex v with
    | none => rw [edge_add_none w g u v x (Or.inr hv)] at h; cases h
    | some cv =>
      obtain ⟨w2, h2, s1, s2, _⟩ := edge_add_spec w g u v x (by rw [hu]; rfl) (by rw [hv]; rfl)
      rw [h2] at h
      simp only [Option.some.injEq, Prod.mk.injEq] at h
      obtain ⟨rfl, rfl⟩ := h
      exact ⟨s2, fun q hq => by rw [s1, if_neg hq]⟩

/-- C16: `vertices.add`, `vertices.remove` when it returns, `edges.add` and
`edges.remove` leave the super-vertex and the sub-vertex list of every other vertex
record, and the super-edge list and the sub-edge list of every other edge record,
as they were; in a state reached by store operations and mapping calls,
`edges.remove` on an edge in the store returns whatever the hierarchy links, and
after `a.map_link(s)` and `edges.remove(s)` the record of `s` is gone while the
sub-edge list of `a` still holds `s`. -/
theorem C16_store_ops_keep_hierarchy_links (w : World V E) (g : Nat) :
    (∀ x q, (q ≠ (vertex_proxy.add w g x).2 →
        vertex_proxy.iterator.super_vertex (vertex_proxy.add w g x).1 q =
          vertex_proxy.iterator.super_vertex w q ∧
        vertex_proxy.iterator.sub_vertices (vertex_proxy.add w g x).1 q =
          vertex_proxy.iterator.sub_vertices w q) ∧
      edge_proxy.iterator.super_edge (vertex_proxy.add w g x).1 q =
        edge_proxy.iterator.super_edge w q ∧
      edge_proxy.iterator.sub_edges (vertex_proxy.add w g x).1 q =
        edge_proxy.iterator.sub_edges w q) ∧
    (∀ pos w1 it, vertex_proxy.remove w g pos = .ok w1 it → ∀ q,
      (q ≠ pos →
        vertex_proxy.iterator.super_vertex w1 q = vertex_proxy.iterator.super_vertex w q ∧
        vertex_proxy.iterator.sub_vertices w1 q = vertex_proxy.iterator.sub_vertices w q) ∧
      edge_proxy.iterator.super_edge w1 q = edge_proxy.iterator.super_edge w q ∧
      edge_proxy.iterator.sub_edges w1 q = edge_proxy.iterator.sub_edges w q) ∧
    (∀ pos w1 what, vertex_proxy.remove w g pos = .threw w1 what → w1 = w) ∧
    (∀ u v x w1 e, edge_proxy.add w g u v x = some (w1, e) → ∀ q,
      vertex_proxy.iterator.super_vertex w1 q = vertex_proxy.iterator.super_vertex w q ∧
      vertex_proxy.iterator.sub_vertices w1 q = vertex_proxy.iterator.sub_vertices w q ∧
      (q ≠ e →
        edge_proxy.iterator.super_edge w1 q = edge_proxy.iterator.super_edge w q ∧
        edge_proxy.iterator.sub_edges w1 q = edge_proxy.iterator.sub_edges w q)) ∧
    (∀ e w1 it, edge_proxy.remove w g e = some (w1, it) → ∀ q,
      vertex_proxy.iterator.super_vertex w1 q = vertex_proxy.iterator.super_vertex w q ∧
      vertex_proxy.iterator.sub_vertices w1 q = vertex_proxy.iterator.sub_vertices w q ∧
      (q ≠ e →
        edge_proxy.iterator.super_edge w1 q = edge_proxy.iterator.super_edge w q ∧
        edge_proxy.iterator.sub_edges w1 q = edge_proxy.iterator.sub_edges w q)) ∧
    (ReachableLinked g w → ∀ k c, w.edge (g, k) = some c →
      ∃ w1 it, edge_proxy.remove w g (g, k) = some (w1, it)) ∧
    (ReachableLinked g w → ∀ k a, (w.edge (g, k)).isSome = true → (w.edge a).isSome = true →
      a ≠ (g, k) →
      ∃ w1 w2 it l, edge_proxy.iterator.map_link w a (g, k) = some w1 ∧
        edge_proxy.remove w1 g (g, k) = some (w2, it) ∧ w2.edge (g, k) = none ∧
        (w2.edge a).isSome = true ∧
        edge_proxy.iterator.sub_edges w2 a = some l ∧ (g, k) ∈ l) := by
  refine ⟨?_, ?_, ?_, ?_, ?_, ?_, ?_⟩
  · intro x q
    obtain ⟨h2, hv, he, _⟩ := vertex_add_spec w g x
    refine ⟨fun hq => ?_, ?_, ?_⟩
    · rw [h2] at hq
      constructor <;>
        simp only [vertex_proxy.iterator.super_vertex, vertex_proxy.iterator.sub_vertices, hv,
          if_neg hq]
    · simp only [edge_proxy.iterator.super_edge, he]
    · simp only [edge_proxy.iterator.sub_edges, he]
  · intro pos w1 it h q
    obtain ⟨_, _, hv⟩ := vertex_remove_ok_inv w w1 g pos it h
    have he := (vertex_remove_frame w w1 g pos).1 it h
    refine ⟨fun hq => ?_, ?_, ?_⟩
    · constructor <;>
        simp only [vertex_proxy.iterator.super_vertex, vertex_proxy.iterator.sub_vertices, hv,
          if_neg hq]
    · simp only [edge_proxy.iterator.super_edge, he]
    · simp only [edge_proxy.iterator.sub_edges, he]
  · intro pos w1 what h
    exact (vertex_remove_frame w w1 g pos).2 what h
  · intro u v x w1 e h q
    obtain ⟨hv, he⟩ := edge_add_inv w w1 g u v e x h
    refine ⟨?_, ?_, fun hq => ?_⟩
    · simp only [vertex_proxy.iterator.super_vertex, hv]
      cases w.vertex q with
      | none => rfl
      | some c => simp [add_chain]
    · simp only [vertex_proxy.iterator.sub_vertices, hv]
      cases w.vertex q with
      | none => rfl
      | some c => simp [add_chain]
    · constructor <;>
        simp only [edge_proxy.iterator.super_edge, edge_proxy.iterator.sub_edges, he q hq]
  · intro e w1 it h q
    obtain ⟨hg, c, f, t, hc, hf, ht⟩ := edge_remove_live w w1 g e it h
    obtain ⟨hE, hv, _⟩ := edge_remove_spec w w1 g e f t c it hg hc hf ht h
    have hq : ∀ c0, w.vertex q = some c0 → ∃ c1, w1.vertex q = some c1 ∧
        c1._super_vertex = c0._super_vertex ∧ c1._sub_vertices = c0._sub_vertices := by
      intro c0 h0
      have h1 := hv q
      rw [h0, Option.some_bind] at h1
      cases h2 : call_chain (remove_steps f t e) q c0 with
      | none =>
        have h3 := (edge_remove_spec w w1 g e f t c it hg hc hf ht h).2.2.1 q
        rw [h1, h2, h0] at h3
        cases h3
      | some c1 =>
        obtain ⟨_, _, _, _, r1, r2⟩ := remove_chain f t e q c0 c1 h2
        exact ⟨c1, by rw [h1, h2], r1, r2⟩
    refine ⟨?_, ?_, fun hne => ?_⟩
    · cases h0 : w.vertex q with
      | none =>
        have h1 := hv q
        rw [h0] at h1
        simp [vertex_proxy.iterator.super_vertex, h0, h1]
      | some c0 =>
        obtain ⟨c1, h1, r1, _⟩ := hq c0 h0
        simp [vertex_proxy.iterator.super_vertex, h0, h1, r1]
    · cases h0 : w.vertex q with
      | none =>
        have h1 := hv q
        rw [h0] at h1
        simp [vertex_proxy.iterator.sub_vertices, h0, h1]
      | some c0 =>
        obtain ⟨c1, h1, _, r2⟩ := hq c0 h0
        simp [vertex_proxy.iterator.sub_vertices, h0, h1, r2]
    · constructor <;>
        simp only [edge_proxy.iterator.super_edge, edge_proxy.iterator.sub_edges, hE,
          if_neg hne]
  · intro hr k c hc
    exact edge_remove_succeeds w g k c (consistent_of_reachable_linked g w hr) hc
  · intro hr k a hk ha hne
    have hw := consistent_of_reachable_linked g w hr
    obtain ⟨w1, h1, hsub, hsup⟩ := map_link_fields w a (g, k) ha hk
    obtain ⟨f1, f2, f3⟩ := link_step_frame w w1 (.map_link a (g, k)) h1
    have hw1 := consistent_of_frame w w1 g hw f1 f2 (f3 g)
    have hk1 : (w1.edge (g, k)).isSome = true := edge_isSome_of_sub_edges hsub (g, k) hk
    have ha1 : (w1.edge a).isSome = true := edge_isSome_of_sub_edges hsub a ha
    obtain ⟨c1, hc1⟩ := Option.isSome_iff_exists.1 hk1
    obtain ⟨w2, it, h2⟩ := edge_remove_succeeds w1 g k c1 hw1 hc1
    obtain ⟨_, _, hE⟩ := edge_remove_ok_inv w1 w2 g (g, k) it h2
    obtain ⟨ca, hca⟩ := Option.isSome_iff_exists.1 ha
    have hs1 : edge_proxy.iterator.sub_edges w1 a = some (ca._sub_edges ++ [(g, k)]) := by
      rw [hsub]
      simp [edge_proxy.iterator.sub_edges, hca]
    have hs2 : edge_proxy.iterator.sub_edges w2 a = some (ca._sub_edges ++ [(g, k)]) := by
      rw [← hs1]
      simp only [edge_proxy.iterator.sub_edges, hE, if_neg hne]
    refine ⟨w1, w2, it, _, h1, h2, by rw [hE, if_pos rfl], ?_, hs2, by simp⟩
    rw [hE, if_neg hne]; exact ha1

theorem C16_store_ops_keep_hierarchy_links_witness :
    ReachableLinked 1 two_level_world ∧
    (two_level_world.edge (1, 1)).isSome = true ∧ (two_level_world.edge (0, 1)).isSome = true ∧
    ((0, 1) : Ptr) ≠ (1, 1) ∧
    ∃ w1 w2 it l, edge_proxy.iterator.map_link two_level_world (0, 1) (1, 1) = some w1 ∧
      edge_proxy.remove w1 1 (1, 1) = some (w2, it) ∧ w2.edge (1, 1) = none ∧
      (w2.edge (0, 1)).isSome = true ∧
      edge_proxy.iterator.sub_edges w2 (0, 1) = some l ∧ (1, 1) ∈ l :=
  have hr : ReachableLinked 1 two_level_world := ⟨world_after coarse_ops, fine_ops, rfl, rfl⟩
  ⟨hr, rfl, rfl, by decide,
    (C16_store_ops_keep_hierarchy_links two_level_world 1).2.2.2.2.2.2 hr 1 (0, 1) rfl rfl
      (by decide)⟩



/-! ## Claim C19: edge removal finds every entry it erases -/

theorem std_map.countP_range_findEntries {α : Type} (F : Option α → Bool) (hF : F none = false)
    (n : Nat) (l : List (Nat × α)) (hs : l.Pairwise (fun a b => a.1 < b.1))
    (hb : ∀ e ∈ l, e.1 < n) :
    (List.range n).countP (fun k => F (std_map.findEntries k l)) =
      l.countP (fun e => F (some e.2)) := by
  induction l with
  | nil => exact countP_range_zero _ _ fun k _ => hF
  | cons e l ih =>
    rw [List.pairwise_cons] at hs
    have hn : std_map.findEntries e.1 l = none := by
      cases h : std_map.findEntries e.1 l with
      | none => rfl
      | some c =>
        obtain ⟨x, hx, hx1⟩ := List.mem_map.1
          ((std_map.findEntries_isSome_iff e.1 l).1 (by rw [h]; rfl))
        have := hs.1 x hx
        omega
    rw [countP_range_remove (fun k => F (std_map.findEntries k (e :: l)))
      (fun k => F (std_map.findEntries k l)) n e.1 (hb e (List.mem_cons_self _ _))
      (fun k hk => by
        have : ¬ e.1 = k := fun x => hk x.symm
        simp only [std_map.findEntries, this, if_false])
      (by simp only [hn, hF]),
      ih hs.2 (fun x hx => hb x (List.mem_cons_of_mem _ hx)), List.countP_cons]
    simp [std_map.findEntries]

theorem edges_between_eq_entries (w : World V E) (g : Nat) (hw : Consistent w g) (a b : Ptr) :
    edges_between w g a b =
      (w g).edges._edges.entries.countP
        fun e => decide (e.2._from = some a ∧ e.2._to = some b) := by
  have hb : ∀ e ∈ (w g).edges._edges.entries, e.1 < (w g).edges._i := by
    intro e he
    have h1 : ((w g).edges._edges.find e.1).isSome = true :=
      (std_map.find_isSome_iff _ e.1).2 (List.mem_map_of_mem _ he)
    obtain ⟨c, hc⟩ := Option.isSome_iff_exists.1 h1
    exact hw.ekeys e.1 c hc
  exact std_map.countP_range_findEntries (fun o => edge_joins o a b) rfl _ _
    (w g).edges._edges.sorted hb

/-- C19: in a reachable state, the number of occurrences of `q` in the neighbor
list of a live vertex `a` is the number of edges in the store that join `a` and `q`
(a self-loop counted twice); every edge in the store has live ends, occurs in the
in-edge list and in the out-edge list of each end exactly once (twice when the two
ends are one vertex), and `edges.remove` on it returns: none of its six
`erase(find(...))` calls erases `end()`. -/
theorem C19_edge_remove_finds_its_entries (g : Nat) (w : World V E) (hr : Reachable g w) :
    (∀ a ca, w.vertex (g, a) = some ca → ∀ q,
      ca._neighbors.count q = edges_joining w g (g, a) q) ∧
    (∀ k c, w.edge (g, k) = some c →
      ∃ a b ca cb, c._from = some (g, a) ∧ c._to = some (g, b) ∧
        w.vertex (g, a) = some ca ∧ w.vertex (g, b) = some cb ∧
        ca._in_edges.count (g, k) = (if a = b then 2 else 1) ∧
        ca._out_edges.count (g, k) = (if a = b then 2 else 1) ∧
        cb._in_edges.count (g, k) = (if a = b then 2 else 1) ∧
        cb._out_edges.count (g, k) = (if a = b then 2 else 1) ∧
        (∃ w2, w.with_vertices (remove_steps (g, a) (g, b) (g, k)) = some w2) ∧
        ∃ w1 it, edge_proxy.remove w g (g, k) = some (w1, it)) := by
  have hw := consistent_of_reachable g w hr
  constructor
  · intro a ca ha q
    rw [hw.nbrs a ca ha q, edges_between_eq_entries w g hw, edges_between_eq_entries w g hw]
    rfl
  · intro k c hc
    obtain ⟨a, b, hf, ht, la, lb⟩ := hw.ends k c hc
    obtain ⟨ca, hca⟩ := Option.isSome_iff_exists.1 la
    obtain ⟨cb, hcb⟩ := Option.isSome_iff_exists.1 lb
    have ia : incidence w (g, a) (g, k) = if a = b then 2 else 1 := by
      rw [incidence_some w (g, a) (g, k) (g, a) (g, b) c hc hf ht]
      by_cases h : a = b
      · subst h; simp
      · have : ¬ (g, a) = (g, b) := fun x => h (by cases x; rfl)
        simp [h, this]
    have ib : incidence w (g, b) (g, k) = if a = b then 2 else 1 := by
      rw [incidence_some w (g, b) (g, k) (g, a) (g, b) c hc hf ht]
      by_cases h : a = b
      · subst h; simp
      · have : ¬ (g, b) = (g, a) := fun x => h (by cases x; rfl)
        simp [h, this]
    obtain ⟨w1, it, h1⟩ := edge_remove_succeeds w g k c hw hc
    refine ⟨a, b, ca, cb, hf, ht, hca, hcb, ?_, ?_, ?_, ?_, ?_, w1, it, h1⟩
    · rw [hw.ins a ca hca, if_pos rfl, ia]
    · rw [hw.outs a ca hca, if_pos rfl, ia]
    · rw [hw.ins b cb hcb, if_pos rfl, ib]
    · rw [hw.outs b cb hcb, if_pos rfl, ib]
    · rw [edge_remove_eq w g (g, k) (g, a) (g, b) c rfl hc hf ht] at h1
      cases h2 : w.with_vertices (remove_steps (g, a) (g, b) (g, k)) with
      | none => rw [h2] at h1; cases h1
      | some w2 => exact ⟨w2, rfl⟩

theorem C19_edge_remove_finds_its_entries_witness :
    Reachable 0 (world_after loop_ops) ∧
    (world_after loop_ops).vertex (0, 1) =
      some ⟨"p", [(0, 2), (0, 2), (0, 1), (0, 1)], [(0, 1), (0, 2), (0, 3), (0, 3)],
        [(0, 1), (0, 2), (0, 3), (0, 3)], none, []⟩ ∧
    edges_joining (world_after loop_ops) 0 (0, 1) (0, 2) = 2 ∧
    edges_joining (world_after loop_ops) 0 (0, 1) (0, 1) = 2 ∧
    (∀ a ca, (world_after loop_ops).vertex (0, a) = some ca → ∀ q,
      ca._neighbors.count q = edges_joining (world_after loop_ops) 0 (0, a) q) ∧
    (∀ k c, (world_after loop_ops).edge (0, k) = some c →
      ∃ a b ca cb, c._from = some (0, a) ∧ c._to = some (0, b) ∧
        (world_after loop_ops).vertex (0, a) = some ca ∧
        (world_after loop_ops).vertex (0, b) = some cb ∧
        ca._in_edges.count (0, k) = (if a = b then 2 else 1) ∧
        ca._out_edges.count (0, k) = (if a = b then 2 else 1) ∧
        cb._in_edges.count (0, k) = (if a = b then 2 else 1) ∧
        cb._out_edges.count (0, k) = (if a = b then 2 else 1) ∧
        (∃ w2, (world_after loop_ops).with_vertices
          (remove_steps (0, a) (0, b) (0, k)) = some w2) ∧
        ∃ w1 it, edge_proxy.remove (world_after loop_ops) 0 (0, k) = some (w1, it)) :=
  have hr : Reachable 0 (world_after loop_ops) :=
    ⟨World.init, loop_ops, events_after loop_ops, rfl, rfl⟩
  ⟨hr, rfl, by decide, by decide, C19_edge_remove_finds_its_entries 0 (world_after loop_ops) hr⟩



/-! ## Theorems: the diagnostic rendering -/

theorem comma_count_append (s t : String) :
    comma_count (s ++ t) = comma_count s + comma_count t := by
  simp [comma_count, String.data_append, List.count_append]

theorem concat_all_cons (s : String) (l : List String) :
    concat_all (s :: l) = s ++ concat_all l := rfl

theorem concat_all_nil : concat_all [] = "" := rfl

/-- Below `2 ^ 64`, the `std::size_t` subtraction in the separator test gives the
comma at index `size - 2` and nowhere else. -/
theorem separator_eq (i size : Nat) (hi : i < size) (hs : size < 2 ^ SIZE_BITS) :
    separator i size = stated_separator i size := by
  unfold separator stated_separator
  simp only [SIZE_BITS] at hs ⊢
  norm_num at hs ⊢
  by_cases h : i + 2 = size
  · rw [if_pos h, if_pos]
    omega
  · rw [if_neg h, if_neg]
    omega

theorem print_neighbors_eq (render : V → String) (w : World V E) (size : Nat)
    (hs : size < 2 ^ SIZE_BITS) (ps : List Ptr) :
    ∀ (i : Nat) (vals : List V), i + ps.length ≤ size →
      ps.map (fun p => (w.vertex p).map fun n => n._element) = vals.map some →
      print_neighbors render w size i ps =
        some (concat_all ((vals.enumFrom i).map fun iv =>
          render iv.2 ++ stated_separator iv.1 size)) := by
  induction ps with
  | nil =>
    intro i vals _ hv
    cases vals with
    | nil => rfl
    | cons v vals => simp at hv
  | cons p ps ih =>
    intro i vals hi hv
    cases vals with
    | nil => simp at hv
    | cons v vals =>
      simp only [List.map_cons, List.cons.injEq] at hv
      obtain ⟨hp, hrest⟩ := hv
      obtain ⟨n, hn, rfl⟩ := Option.map_eq_some'.1 hp
      simp only [List.length_cons] at hi
      simp only [print_neighbors, hn, ih (i + 1) vals (by omega) hrest, Option.map_some',
        List.enumFrom_cons, List.map_cons, concat_all_cons,
        separator_eq i size (by omega) hs]

theorem map_eq_map_some_filterMap {α β : Type} (f : α → Option β) (l : List α)
    (h : ∀ p ∈ l, (f p).isSome = true) :
    l.map f = (l.filterMap f).map some ∧ (l.filterMap f).length = l.length := by
  induction l with
  | nil => exact ⟨rfl, rfl⟩
  | cons a l ih =>
    obtain ⟨b, hb⟩ := Option.isSome_iff_exists.1 (h a (List.mem_cons_self _ _))
    obtain ⟨i1, i2⟩ := ih fun p hp => h p (List.mem_cons_of_mem _ hp)
    simp [List.filterMap_cons, hb, i1, i2]

theorem print_vertex_eq (render : V → String) (w : World V E) (c : vertex_container V)
    (hlive : ∀ p ∈ c._neighbors, (w.vertex p).isSome = true)
    (hlen : c._neighbors.length < 2 ^ UNSIGNED_BITS) :
    print_vertex render w c =
      some (described_line stated_separator render c._element (neighbor_values w c)) ∧
    (neighbor_values w c).length = c._neighbors.length := by
  have hl : ∀ p ∈ c._neighbors, ((w.vertex p).map fun n => n._element).isSome = true := by
    intro p hp
    obtain ⟨n, hn⟩ := Option.isSome_iff_exists.1 (hlive p hp)
    simp [hn]
  obtain ⟨h1, h2⟩ := map_eq_map_some_filterMap
    (fun p => (w.vertex p).map fun n => n._element) c._neighbors hl
  refine ⟨?_, h2⟩
  have hs : c._neighbors.length < 2 ^ SIZE_BITS := by
    simp only [UNSIGNED_BITS, SIZE_BITS] at hlen ⊢
    omega
  unfold print_vertex
  rw [if_pos hlen, print_neighbors_eq render w _ hs c._neighbors 0 (neighbor_values w c)
    (by omega) h1]
  have h3 : (neighbor_values w c).length = c._neighbors.length := h2
  simp only [Option.map_some', described_line, List.enum, h3]

theorem std_map.find_of_mem {α : Type} (m : std_map α) (e : Nat × α) (h : e ∈ m.entries) :
    m.find e.1 = some e.2 := by
  unfold std_map.find
  have hs := m.sorted
  generalize m.entries = l at h hs
  induction l with
  | nil => cases h
  | cons a l ih =>
    rw [List.pairwise_cons] at hs
    rcases List.mem_cons.1 h with rfl | h1
    · simp [std_map.findEntries]
    · have : ¬ a.1 = e.1 := by
        have := hs.1 e h1
        omega
      simp only [std_map.findEntries, this, if_false]
      exact ih h1 hs.2

theorem std_map.mem_of_find {α : Type} (m : std_map α) (k : Nat) (c : α)
    (h : m.find k = some c) : (k, c) ∈ m.entries := by
  unfold std_map.find at h
  generalize m.entries = l at h
  induction l with
  | nil => cases h
  | cons a l ih =>
    by_cases e : a.1 = k
    · simp only [std_map.findEntries, e, if_true, Option.some.injEq] at h
      have : a = (k, c) := Prod.ext e h
      rw [this]; exact List.mem_cons_self _ _
    · simp only [std_map.findEntries, e, if_false] at h
      exact List.mem_cons_of_mem _ (ih h)

theorem print_entries_eq (render : V → String) (w : World V E)
    (l : List (Nat × vertex_container V))
    (h : ∀ e ∈ l, (∀ p ∈ e.2._neighbors, (w.vertex p).isSome = true) ∧
      e.2._neighbors.length < 2 ^ UNSIGNED_BITS) :
    print_entries render w l = some (concat_all (l.map fun e =>
      described_line stated_separator render e.2._element (neighbor_values w e.2))) := by
  induction l with
  | nil => rfl
  | cons e l ih =>
    obtain ⟨h1, h2⟩ := h e (List.mem_cons_self _ _)
    simp only [print_entries, (print_vertex_eq render w e.2 h1 h2).1,
      ih fun x hx => h x (List.mem_cons_of_mem _ hx), Option.map_some', List.map_cons,
      concat_all_cons]

theorem neighbors_live (w : World V E) (g a : Nat) (c : vertex_container V)
    (hw : Consistent w g) (hc : w.vertex (g, a) = some c) :
    ∀ p ∈ c._neighbors, (w.vertex p).isSome = true := by
  intro p hp
  have hcount := List.count_pos_iff.2 hp
  rw [hw.nbrs a c hc p] at hcount
  rcases Nat.lt_or_ge 0 (edges_between w g (g, a) p) with h1 | h1
  · obtain ⟨k, ce, hce, hf, ht⟩ := (edges_between_pos_iff w g hw (g, a) p).1 h1
    obtain ⟨x, y, _, hy, _, ly⟩ := hw.ends k ce hce
    have : p = (g, y) := Option.some.inj (ht.symm.trans hy)
    rw [this]; exact ly
  · have h2 : 0 < edges_between w g p (g, a) := by omega
    obtain ⟨k, ce, hce, hf, ht⟩ := (edges_between_pos_iff w g hw p (g, a)).1 h2
    obtain ⟨x, y, hx, _, lx, _⟩ := hw.ends k ce hce
    have : p = (g, x) := Option.some.inj (hf.symm.trans hx)
    rw [this]; exact lx

theorem print_eq (render : V → String) (w : World V E) (g : Nat) (hw : Consistent w g)
    (hlen : ∀ k c, w.vertex (g, k) = some c → c._neighbors.length < 2 ^ UNSIGNED_BITS) :
    print render w g = some (described_rendering stated_separator render w g) := by
  have h : ∀ e ∈ (w g).vertices._vertices.entries,
      (∀ p ∈ e.2._neighbors, (w.vertex p).isSome = true) ∧
      e.2._neighbors.length < 2 ^ UNSIGNED_BITS := by
    intro e he
    have hf : w.vertex (g, e.1) = some e.2 := std_map.find_of_mem _ e he
    exact ⟨neighbors_live w g e.1 e.2 hw hf, hlen e.1 e.2 hf⟩
  unfold print _print_adjacency_list
  rw [print_entries_eq render w _ h]
  rfl

theorem enum_two_last (render : V → String) (x y : V) (pre : List V) :
    ∀ i size, size = i + pre.length + 2 →
      concat_all ((List.enumFrom i (pre ++ [x, y])).map fun iv =>
        render iv.2 ++ stated_separator iv.1 size) =
      concat_all (pre.map fun u => render u ++ " ") ++
        (render x ++ ", " ++ (render y ++ " ")) := by
  induction pre with
  | nil =>
    intro i size hs
    have h1 : stated_separator i size = ", " := by
      unfold stated_separator; rw [if_pos]; simp at hs; omega
    have h2 : stated_separator (i + 1) size = " " := by
      unfold stated_separator; rw [if_neg]; simp at hs; omega
    simp only [List.nil_append, List.enumFrom_cons, List.enumFrom_nil, List.map_cons,
      List.map_nil, concat_all_cons, concat_all_nil, h1, h2, String.append_empty,
      String.empty_append]
  | cons u pre ih =>
    intro i size hs
    have h1 : stated_separator i size = " " := by
      unfold stated_separator; rw [if_neg]; simp at hs; omega
    simp only [List.cons_append, List.enumFrom_cons, List.map_cons, concat_all_cons, h1,
      ih (i + 1) size (by simp at hs ⊢; omega), String.append_assoc]

/-- With two neighbors or more, the comma and the space follow the second-to-last
value; a space follows every other value. -/
theorem described_line_two_last (render : V → String) (value : V) (pre : List V) (x y : V) :
    described_line stated_separator render value (pre ++ [x, y]) =
      " " ++ render value ++ " -> [ " ++
        (concat_all (pre.map fun u => render u ++ " ") ++
          (render x ++ ", " ++ (render y ++ " "))) ++ "]" ++ "\n" := by
  unfold described_line
  rw [List.enum, enum_two_last render x y pre 0 _ (by simp)]

theorem described_line_nil (render : V → String) (value : V) :
    described_line stated_separator render value [] =
      " " ++ render value ++ " -> [ " ++ "" ++ "]" ++ "\n" := rfl

theorem described_line_one (render : V → String) (value x : V) :
    described_line stated_separator render value [x] =
      " " ++ render value ++ " -> [ " ++ (render x ++ " ") ++ "]" ++ "\n" := by
  simp [described_line, List.enum, concat_all, stated_separator]

theorem comma_count_spaced (render : V → String) (pre : List V)
    (hno : ∀ v ∈ pre, comma_count (render v) = 0) :
    comma_count (concat_all (pre.map fun u => render u ++ " ")) = 0 := by
  induction pre with
  | nil => rfl
  | cons u pre ih =>
    have h : comma_count " " = 0 := by decide
    simp only [List.map_cons, concat_all_cons, comma_count_append,
      hno u (List.mem_cons_self _ _), ih fun v hv => hno v (List.mem_cons_of_mem _ hv), h]

theorem comma_count_two_last (render : V → String) (value : V) (pre : List V) (x y : V)
    (hno : ∀ v ∈ value :: (pre ++ [x, y]), comma_count (render v) = 0) :
    comma_count (described_line stated_separator render value (pre ++ [x, y])) = 1 := by
  have h1 : comma_count " " = 0 := by decide
  have h2 : comma_count " -> [ " = 0 := by decide
  have h3 : comma_count ", " = 1 := by decide
  have h4 : comma_count "]" = 0 := by decide
  have h5 : comma_count "\n" = 0 := by decide
  rw [described_line_two_last]
  simp only [comma_count_append, hno value (by simp), hno x (by simp), hno y (by simp),
    comma_count_spaced render pre (fun v hv => hno v (by simp [hv])), h1, h2, h3, h4, h5]

theorem comma_count_short (render : V → String) (value : V) (vals : List V)
    (hno : ∀ v ∈ value :: vals, comma_count (render v) = 0) (h : vals.length ≤ 1) :
    comma_count (described_line stated_separator render value vals) = 0 := by
  have h0 : comma_count "" = 0 := by decide
  have h1 : comma_count " " = 0 := by decide
  have h2 : comma_count " -> [ " = 0 := by decide
  have h4 : comma_count "]" = 0 := by decide
  have h5 : comma_count "\n" = 0 := by decide
  match vals, h, hno with
  | [], _, hno =>
    rw [described_line_nil]
    simp only [comma_count_append, hno value (by simp), h0, h1, h2, h4, h5]
  | [x], _, hno =>
    rw [described_line_one]
    simp only [comma_count_append, hno value (by simp), hno x (by simp), h0, h1, h2, h4, h5]

/-! ## Claims C17 and C18 -/

/-- C17, as stated, fails at two neighbors: in the graph of Scenario 1, vertex B has
the two neighbors A and C, no value holds a comma, and the line of B is
`" B -> [ A, C ]"`, with one comma. -/
theorem C17_two_neighbors_give_a_comma :
    scenario_world.vertex (0, 2) =
      some ⟨"B", [(0, 1), (0, 3)], [(0, 1), (0, 2)], [(0, 1), (0, 2)], none, []⟩ ∧
    neighbor_values scenario_world
      ⟨"B", [(0, 1), (0, 3)], [(0, 1), (0, 2)], [(0, 1), (0, 2)], none, []⟩ = ["A", "C"] ∧
    (comma_count "A" = 0 ∧ comma_count "B" = 0 ∧ comma_count "C" = 0) ∧
    print_vertex id scenario_world
      ⟨"B", [(0, 1), (0, 3)], [(0, 1), (0, 2)], [(0, 1), (0, 2)], none, []⟩ =
        some " B -> [ A, C ]\n" ∧
    ¬ comma_count " B -> [ A, C ]\n" = 0 :=
  ⟨rfl, rfl, by decide, rfl, by decide⟩

/-- C17, amended: for a record with at most two neighbors, all of them live, whose
value and whose neighbors' values are rendered without a comma, the line is
rendered, and it holds no comma when there are 0 or 1 neighbors and exactly one
comma when there are 2: the one after the first neighbor's value. -/
theorem C17_commas_up_to_two_neighbors (render : V → String) (w : World V E)
    (c : vertex_container V)
    (hno : ∀ v ∈ c._element :: neighbor_values w c, comma_count (render v) = 0)
    (hlive : ∀ p ∈ c._neighbors, (w.vertex p).isSome = true)
    (hlen : c._neighbors.length ≤ 2) :
    ∃ line, print_vertex render w c = some line ∧
      comma_count line = (if c._neighbors.length = 2 then 1 else 0) ∧
      (∀ x y, neighbor_values w c = [x, y] →
        line = " " ++ render c._element ++ " -> [ " ++
          (render x ++ ", " ++ (render y ++ " ")) ++ "]" ++ "\n") := by
  have hl : c._neighbors.length < 2 ^ UNSIGNED_BITS := by
    simp only [UNSIGNED_BITS]; omega
  obtain ⟨h1, h2⟩ := print_vertex_eq render w c hlive hl
  refine ⟨_, h1, ?_, ?_⟩
  · rw [← h2]
    rw [← h2] at hlen
    match hv : neighbor_values w c, hlen with
    | [], _ =>
      rw [hv] at hno
      exact comma_count_short render c._element [] hno (by simp)
    | [x], _ =>
      rw [hv] at hno
      exact comma_count_short render c._element [x] hno (by simp)
    | [x, y], _ =>
      rw [hv] at hno
      exact comma_count_two_last render c._element [] x y hno
  · intro x y hxy
    rw [hxy]
    have := described_line_two_last render c._element [] x y
    simp only [List.nil_append, List.map_nil, concat_all_nil, String.empty_append] at this
    exact this

theorem C17_commas_up_to_two_neighbors_witness :
    ((∀ v ∈ "B" :: neighbor_values scenario_world
        ⟨"B", [(0, 1), (0, 3)], [(0, 1), (0, 2)], [(0, 1), (0, 2)], none, []⟩,
        comma_count (id v) = 0) ∧
      (∀ p ∈ [((0, 1) : Ptr), (0, 3)], (scenario_world.vertex p).isSome = true) ∧
      [((0, 1) : Ptr), (0, 3)].length ≤ 2) ∧
    ∃ line, print_vertex id scenario_world
        ⟨"B", [(0, 1), (0, 3)], [(0, 1), (0, 2)], [(0, 1), (0, 2)], none, []⟩ = some line ∧
      comma_count line = (if [((0, 1) : Ptr), (0, 3)].length = 2 then 1 else 0) ∧
      (∀ x y, neighbor_values scenario_world
          ⟨"B", [(0, 1), (0, 3)], [(0, 1), (0, 2)], [(0, 1), (0, 2)], none, []⟩ = [x, y] →
        line = " " ++ id "B" ++ " -> [ " ++ (id x ++ ", " ++ (id y ++ " ")) ++ "]" ++ "\n") :=
  ⟨⟨by decide, by decide, by decide⟩,
    C17_commas_up_to_two_neighbors id scenario_world
      ⟨"B", [(0, 1), (0, 3)], [(0, 1), (0, 2)], [(0, 1), (0, 2)], none, []⟩
      (by decide) (by decide) (by decide)⟩

/-- C18, as stated, fails on the place of the comma: vertex `v` has the neighbors
`a`, `b`, `c`, and its line is `" v -> [ a b, c ]"`, the comma after the
second-to-last value `b`; the rendering with the comma before the second-to-last
value, `" v -> [ a, b c ]"`, is another text. -/
theorem C18_comma_follows_second_to_last :
    print id (world_after star_ops) 0 =
      some ("Graph(n=5, m=4)\n v -> [ a b, c ]\n a -> [ v ]\n b -> [ v ]\n c -> [ v ]\n" ++
        " d -> [ d, d ]\n") ∧
    described_rendering claimed_separator id (world_after star_ops) 0 =
      "Graph(n=5, m=4)\n v -> [ a, b c ]\n a -> [ v ]\n b -> [ v ]\n c -> [ v ]\n" ++
        " d -> [ d d ]\n" ∧
    print id (world_after star_ops) 0 ≠
      some (described_rendering claimed_separator id (world_after star_ops) 0) :=
  ⟨by decide, by decide, by decide⟩

/-- C18, amended: in a reachable state in which every neighbor list is shorter than
`2 ^ 32`, the rendering is the line `Graph(n=<n>, m=<m>)` followed by one line per
vertex record, in ascending identity order, each line a space, the value,
`" -> [ "`, the neighbor values in neighbor-list order each followed by a
separator, and `"]"`; the separator is a space, except that a comma and a space
follow the second-to-last neighbor value. So with two neighbors or more, and values
rendered without a comma, a line holds exactly one comma, right after the
second-to-last neighbor value. -/
theorem C18_rendering_layout (render : V → String) (g : Nat) (w : World V E)
    (hr : Reachable g w)
    (hlen : ∀ k c, w.vertex (g, k) = some c → c._neighbors.length < 2 ^ UNSIGNED_BITS) :
    print render w g = some (described_rendering stated_separator render w g) ∧
    ((w g).vertices._vertices.entries.map Prod.fst).Pairwise (fun a b => a < b) ∧
    (∀ k c, w.vertex (g, k) = some c ↔ (k, c) ∈ (w g).vertices._vertices.entries) ∧
    (vertex_proxy.count w g = (w g).vertices._vertices.entries.length ∧
      edge_proxy.count w g = (w g).edges._edges.entries.length) ∧
    (∀ k c, w.vertex (g, k) = some c →
      print_vertex render w c =
        some (described_line stated_separator render c._element (neighbor_values w c)) ∧
      c._neighbors.map (fun p => (w.vertex p).map fun n => n._element) =
        (neighbor_values w c).map some) ∧
    (∀ value pre x y, described_line stated_separator render value (pre ++ [x, y]) =
      " " ++ render value ++ " -> [ " ++
        (concat_all (pre.map fun u => render u ++ " ") ++
          (render x ++ ", " ++ (render y ++ " "))) ++ "]" ++ "\n") ∧
    (∀ value pre x y,
      (∀ v ∈ value :: (pre ++ [x, y]), comma_count (render v) = 0) →
      comma_count (concat_all (pre.map fun u => render u ++ " ")) = 0 ∧
      comma_count (described_line stated_separator render value (pre ++ [x, y])) = 1) := by
  have hw := consistent_of_reachable g w hr
  refine ⟨print_eq render w g hw hlen, std_map.keys_ascending _, ?_, ⟨rfl, rfl⟩, ?_, ?_, ?_⟩
  · intro k c
    exact ⟨std_map.mem_of_find _ k c, fun h => std_map.find_of_mem _ (k, c) h⟩
  · intro k c hc
    have hlive := neighbors_live w g k c hw hc
    refine ⟨(print_vertex_eq render w c hlive (hlen k c hc)).1, ?_⟩
    refine (map_eq_map_some_filterMap (fun p => (w.vertex p).map fun n => n._element)
      c._neighbors ?_).1
    intro p hp
    obtain ⟨n, hn⟩ := Option.isSome_iff_exists.1 (hlive p hp)
    simp [hn]
  · intro value pre x y
    exact described_line_two_last render value pre x y
  · intro value pre x y hno
    exact ⟨comma_count_spaced render pre (fun v hv => hno v (by simp [hv])),
      comma_count_two_last render value pre x y hno⟩

theorem star_world_short (k : Nat) (c : vertex_container String)
    (hc : (world_after star_ops).vertex (0, k) = some c) :
    c._neighbors.length < 2 ^ UNSIGNED_BITS := by
  match k, hc with
  | 0, hc =>
    have h : (world_after star_ops).vertex (0, 0) = none := rfl
    rw [h] at hc; cases hc
  | 1, hc =>
    have h : ((world_after star_ops).vertex (0, 1)).map (fun c => c._neighbors.length) =
      some 3 := rfl
    rw [hc] at h
    simp only [Option.map_some', Option.some.injEq] at h
    rw [h]; decide
  | 2, hc =>
    have h : ((world_after star_ops).vertex (0, 2)).map (fun c => c._neighbors.length) =
      some 1 := rfl
    rw [hc] at h
    simp only [Option.map_some', Option.some.injEq] at h
    rw [h]; decide
  | 3, hc =>
    have h : ((world_after star_ops).vertex (0, 3)).map (fun c => c._neighbors.length) =
      some 1 := rfl
    rw [hc] at h
    simp only [Option.map_some', Option.some.injEq] at h
    rw [h]; decide
  | 4, hc =>
    have h : ((world_after star_ops).vertex (0, 4)).map (fun c => c._neighbors.length) =
      some 1 := rfl
    rw [hc] at h
    simp only [Option.map_some', Option.some.injEq] at h
    rw [h]; decide
  | 5, hc =>
    have h : ((world_after star_ops).vertex (0, 5)).map (fun c => c._neighbors.length) =
      some 2 := rfl
    rw [hc] at h
    simp only [Option.map_some', Option.some.injEq] at h
    rw [h]; decide
  | k + 6, hc =>
    have h : (world_after star_ops).vertex (0, k + 6) = none := rfl
    rw [h] at hc; cases hc

theorem C18_rendering_layout_witness :
    (Reachable 0 (world_after star_ops) ∧
      ∀ k c, (world_after star_ops).vertex (0, k) = some c →
        c._neighbors.length < 2 ^ UNSIGNED_BITS) ∧
    described_rendering stated_separator id (world_after star_ops) 0 =
      "Graph(n=5, m=4)\n v -> [ a b, c ]\n a -> [ v ]\n b -> [ v ]\n c -> [ v ]\n" ++
        " d -> [ d, d ]\n" ∧
    print id (world_after star_ops) 0 =
      some (described_rendering stated_separator id (world_after star_ops) 0) ∧
    comma_count (described_line stated_separator id "v" (["a"] ++ ["b", "c"])) = 1 :=
  have hr : Reachable 0 (world_after star_ops) :=
    ⟨World.init, star_ops, events_after star_ops, rfl, rfl⟩
  ⟨⟨hr, star_world_short⟩, by decide,
    (C18_rendering_layout id 0 (world_after star_ops) hr star_world_short).1,
    ((C18_rendering_layout id 0 (world_after star_ops) hr star_world_short).2.2.2.2.2.2
      "v" ["a"] "b" "c" (by decide)).2⟩



/-! ## Claim C20: super-edge entries are matched by sub-edge entries -/

theorem edge_map_link_inv {w w1 : World V E} {b s : Ptr}
    (h : edge_proxy.iterator.map_link w b s = some w1) :
    (w.edge b).isSome = true ∧ (w.edge s).isSome = true := by
  unfold edge_proxy.iterator.map_link at h
  cases hb : w.edge b with
  | none => simp [hb] at h
  | some cb =>
    cases hs : w.edge s with
    | none => simp [hb, hs] at h
    | some cs => exact ⟨rfl, rfl⟩

theorem edge_map_path_inv {w w1 : World V E} {b s : Ptr}
    (h : edge_proxy.iterator.map_path w b s = some w1) :
    (w.edge b).isSome = true ∧ (w.edge s).isSome = true := by
  unfold edge_proxy.iterator.map_path at h
  cases hb : w.edge b with
  | none => simp [hb] at h
  | some cb =>
    cases hs : w.edge s with
    | none => simp [hb, hs] at h
    | some cs => exact ⟨rfl, rfl⟩

theorem edge_unmap_inv {w w1 : World V E} {b s : Ptr}
    (h : edge_proxy.iterator.unmap w b s = some w1) :
    (∃ l, edge_proxy.iterator.sub_edges w b = some l ∧ s ∈ l) ∧ (w.edge s).isSome = true := by
  unfold edge_proxy.iterator.unmap at h
  cases hb : w.edge b with
  | none => simp [hb] at h
  | some cb =>
    cases hs : w.edge s with
    | none => simp [hb, hs] at h
    | some cs =>
      refine ⟨⟨cb._sub_edges, by simp [edge_proxy.iterator.sub_edges, hb], ?_⟩, rfl⟩
      by_contra hmem
      simp [hb, hs, World.with_edge, edge_container._remove_sub_edge, vector_erase_find,
        hmem] at h

theorem vertex_link_edges {w w1 : World V E} {b s : Ptr}
    (h : vertex_proxy.iterator.map w b s = some w1 ∨ vertex_proxy.iterator.unmap w b s = some w1) :
    ∀ q, w1.edge q = w.edge q := by
  intro q
  have h1 : ∀ g, (w1 g).edges = (w g).edges := by
    intro g
    rcases h with h | h
    · exact (vertex_map_graph h g).2.1
    · exact (vertex_unmap_graph h g).2.1
  simp only [World.edge, h1]

/-- One mapping call that returns keeps: whenever `a` is in the super-edge list of
`s`, `s` is in the sub-edge list of `a`. -/
theorem link_step_upward (w w1 : World V E) (op : LinkOp) (h : link_step w op = some w1)
    (hinv : ∀ a s ls, edge_proxy.iterator.super_edge w s = some ls → a ∈ ls →
      ∃ la, edge_proxy.iterator.sub_edges w a = some la ∧ s ∈ la) :
    ∀ a s ls, edge_proxy.iterator.super_edge w1 s = some ls → a ∈ ls →
      ∃ la, edge_proxy.iterator.sub_edges w1 a = some la ∧ s ∈ la := by
  have keep : (∀ q, w1.edge q = w.edge q) →
      ∀ a s ls, edge_proxy.iterator.super_edge w1 s = some ls → a ∈ ls →
        ∃ la, edge_proxy.iterator.sub_edges w1 a = some la ∧ s ∈ la := by
    intro he a s ls h1 h2
    simp only [edge_proxy.iterator.super_edge, edge_proxy.iterator.sub_edges, he] at h1 ⊢
    exact hinv a s ls h1 h2
  cases op with
  | vertex_map b s0 => exact keep (vertex_link_edges (Or.inl h))
  | vertex_unmap b s0 => exact keep (vertex_link_edges (Or.inr h))
  | map_link b s0 =>
    have h' : edge_proxy.iterator.map_link w b s0 = some w1 := h
    obtain ⟨lb, ls0⟩ := edge_map_link_inv h'
    obtain ⟨w2, h2, hsub, hsup⟩ := map_link_fields w b s0 lb ls0
    rw [h'] at h2
    cases h2
    intro a s ls h1 hmem
    rw [hsup] at h1
    obtain ⟨l0, hl0, hl⟩ := Option.map_eq_some'.1 h1
    by_cases e : s = s0
    · subst e
      rw [if_pos rfl] at hl
      subst hl
      have : a = b := by simpa using hmem
      subst this
      obtain ⟨ca, hca⟩ := Option.isSome_iff_exists.1 lb
      refine ⟨ca._sub_edges ++ [s], ?_, by simp⟩
      rw [hsub]
      simp [edge_proxy.iterator.sub_edges, hca]
    · rw [if_neg e] at hl
      subst hl
      obtain ⟨la, hla, hs⟩ := hinv a s l0 hl0 hmem
      refine ⟨if a = b then la ++ [s0] else la, by rw [hsub, hla]; rfl, ?_⟩
      split_ifs
      · exact List.mem_append_left _ hs
      · exact hs
  | map_path b s0 =>
    have h' : edge_proxy.iterator.map_path w b s0 = some w1 := h
    obtain ⟨lb, ls0⟩ := edge_map_path_inv h'
    obtain ⟨w2, h2, hsub, hsup⟩ := map_path_fields w b s0 lb ls0
    rw [h'] at h2
    cases h2
    intro a s ls h1 hmem
    rw [hsup] at h1
    obtain ⟨l0, hl0, hl⟩ := Option.map_eq_some'.1 h1
    by_cases e : s = s0
    · subst e
      rw [if_pos rfl] at hl
      subst hl
      rcases List.mem_append.1 hmem with hm | hm
      · obtain ⟨la, hla, hs⟩ := hinv a s l0 hl0 hm
        refine ⟨if a = b then la ++ [s] else la, by rw [hsub, hla]; rfl, ?_⟩
        split_ifs
        · exact List.mem_append_left _ hs
        · exact hs
      · have : a = b := by simpa using hm
        subst this
        obtain ⟨ca, hca⟩ := Option.isSome_iff_exists.1 lb
        refine ⟨ca._sub_edges ++ [s], ?_, by simp⟩
        rw [hsub]
        simp [edge_proxy.iterator.sub_edges, hca]
    · rw [if_neg e] at hl
      subst hl
      obtain ⟨la, hla, hs⟩ := hinv a s l0 hl0 hmem
      refine ⟨if a = b then la ++ [s0] else la, by rw [hsub, hla]; rfl, ?_⟩
      split_ifs
      · exact List.mem_append_left _ hs
      · exact hs
  | edge_unmap b s0 =>
    have h' : edge_proxy.iterator.unmap w b s0 = some w1 := h
    obtain ⟨⟨l, hl1, hl2⟩, ls0⟩ := edge_unmap_inv h'
    obtain ⟨w2, h2, hsub, hsup⟩ := edge_unmap_fields w b s0 l hl1 hl2 ls0
    rw [h'] at h2
    cases h2
    intro a s ls h1 hmem
    rw [hsup] at h1
    obtain ⟨l0, hl0, hl⟩ := Option.map_eq_some'.1 h1
    by_cases e : s = s0
    · rw [if_pos e] at hl
      subst hl
      cases hmem
    · rw [if_neg e] at hl
      subst hl
      obtain ⟨la, hla, hs⟩ := hinv a s l0 hl0 hmem
      refine ⟨if a = b then la.erase s0 else la, by rw [hsub, hla]; rfl, ?_⟩
      split_ifs
      · exact (List.mem_erase_of_ne e).2 hs
      · exact hs

theorem link_run_upward (ops : List LinkOp) (w w1 : World V E) (h : link_run w ops = some w1)
    (hinv : ∀ a s ls, edge_proxy.iterator.super_edge w s = some ls → a ∈ ls →
      ∃ la, edge_proxy.iterator.sub_edges w a = some la ∧ s ∈ la) :
    ∀ a s ls, edge_proxy.iterator.super_edge w1 s = some ls → a ∈ ls →
      ∃ la, edge_proxy.iterator.sub_edges w1 a = some la ∧ s ∈ la := by
  induction ops generalizing w with
  | nil =>
    simp only [link_run, Option.some.injEq] at h
    rw [← h]; exact hinv
  | cons op ops ih =>
    simp only [link_run] at h
    cases hs : link_step w op with
    | none => simp [hs] at h
    | some w2 =>
      rw [hs] at h
      simp only [Option.some_bind] at h
      exact ih w2 h (link_step_upward w w2 op hs hinv)

/-- C20: from a state in which no edge record has a super-edge or a sub-edge, after
any sequence of mapping calls that all return (so `unmap(a, s)` only with `s` in the
sub-edge list of `a`, on live handles), whenever `a` is in the super-edge list of
`s`, `s` is in the sub-edge list of `a`. The converse fails: for `a` other than `b`,
after `a.map_link(s)` and `b.map_link(s)` the edge `s` is in the sub-edge list of
`a` and the super-edge list of `s` is `[b]`. -/
theorem C20_super_edge_entry_has_sub_edge_entry (w0 w : World V E) (ops : List LinkOp)
    (h0 : ∀ q c, w0.edge q = some c → c._super_edge = [] ∧ c._sub_edges = [])
    (hr : link_run w0 ops = some w) :
    (∀ a s ls, edge_proxy.iterator.super_edge w s = some ls → a ∈ ls →
      ∃ la, edge_proxy.iterator.sub_edges w a = some la ∧ s ∈ la) ∧
    (∀ a b s, (w.edge a).isSome = true → (w.edge b).isSome = true →
      (w.edge s).isSome = true → a ≠ b →
      ∃ w2 la, link_run w [.map_link a s, .map_link b s] = some w2 ∧
        edge_proxy.iterator.sub_edges w2 a = some la ∧ s ∈ la ∧
        edge_proxy.iterator.super_edge w2 s = some [b] ∧ a ∉ [b]) := by
  constructor
  · apply link_run_upward ops w0 w hr
    intro a s ls h1 hmem
    obtain ⟨c, hc, rfl⟩ := Option.map_eq_some'.1 h1
    rw [(h0 s c hc).1] at hmem
    cases hmem
  · intro a b s ha hb hs hab
    obtain ⟨w1, h1, hsub1, hsup1⟩ := map_link_fields w a s ha hs
    have hb1 := edge_isSome_of_sub_edges hsub1 b hb
    have hs1 := edge_isSome_of_sub_edges hsub1 s hs
    obtain ⟨w2, h2, hsub2, hsup2⟩ := map_link_fields w1 b s hb1 hs1
    obtain ⟨ca, hca⟩ := Option.isSome_iff_exists.1 ha
    obtain ⟨cs, hcs⟩ := Option.isSome_iff_exists.1 hs
    refine ⟨w2, ca._sub_edges ++ [s], ?_, ?_, by simp, ?_, by simpa using hab⟩
    · simp only [link_run, link_step, h1, Option.some_bind, h2]
    · rw [hsub2, hsub1]
      simp [edge_proxy.iterator.sub_edges, hca, hab]
    · rw [hsup2, hsup1]
      simp [edge_proxy.iterator.super_edge, hcs]

theorem two_level_world_unlinked (q : Ptr) (c : edge_container String)
    (hc : two_level_world.edge q = some c) : c._super_edge = [] ∧ c._sub_edges = [] := by
  obtain ⟨g, k⟩ := q
  match g, k, hc with
  | 0, 0, hc =>
    have h : two_level_world.edge (0, 0) = none := rfl
    rw [h] at hc; cases hc
  | 0, 1, hc =>
    have h : two_level_world.edge (0, 1) = some ⟨"coarse1", some (0, 1), some (0, 2), [], []⟩ :=
      rfl
    rw [h] at hc; cases hc; exact ⟨rfl, rfl⟩
  | 0, 2, hc =>
    have h : two_level_world.edge (0, 2) = some ⟨"coarse2", some (0, 1), some (0, 2), [], []⟩ :=
      rfl
    rw [h] at hc; cases hc; exact ⟨rfl, rfl⟩
  | 0, k + 3, hc =>
    have h : two_level_world.edge (0, k + 3) = none := rfl
    rw [h] at hc; cases hc
  | 1, 0, hc =>
    have h : two_level_world.edge (1, 0) = none := rfl
    rw [h] at hc; cases hc
  | 1, 1, hc =>
    have h : two_level_world.edge (1, 1) = some ⟨"fine", some (1, 1), some (1, 2), [], []⟩ :=
      rfl
    rw [h] at hc; cases hc; exact ⟨rfl, rfl⟩
  | 1, k + 2, hc =>
    have h : two_level_world.edge (1, k + 2) = none := rfl
    rw [h] at hc; cases hc
  | g + 2, k, hc =>
    have h : two_level_world.edge (g + 2, k) = none := rfl
    rw [h] at hc; cases hc

theorem C20_super_edge_entry_has_sub_edge_entry_witness :
    link_run two_level_world remap_ops = some remap_world ∧
    edge_proxy.iterator.super_edge remap_world (1, 1) = some [(0, 2)] ∧
    edge_proxy.iterator.sub_edges remap_world (0, 2) = some [(1, 1), (1, 1)] ∧
    edge_proxy.iterator.sub_edges remap_world (0, 1) = some [] ∧
    (∀ a s ls, edge_proxy.iterator.super_edge remap_world s = some ls → a ∈ ls →
      ∃ la, edge_proxy.iterator.sub_edges remap_world a = some la ∧ s ∈ la) ∧
    (∀ a b s, (remap_world.edge a).isSome = true → (remap_world.edge b).isSome = true →
      (remap_world.edge s).isSome = true → a ≠ b →
      ∃ w2 la, link_run remap_world [.map_link a s, .map_link b s] = some w2 ∧
        edge_proxy.iterator.sub_edges w2 a = some la ∧ s ∈ la ∧
        edge_proxy.iterator.super_edge w2 s = some [b] ∧ a ∉ [b]) :=
  ⟨rfl, rfl, rfl, rfl,
    C20_super_edge_entry_has_sub_edge_entry two_level_world remap_world remap_ops
      two_level_world_unlinked rfl⟩


end omg
